import Mathlib

/-!
# UCD RateMyProfessor extension: name parsing, matching, and the session cache

A shallow embedding of `src/content.js` (name parser, cache key, cached
messaging) and `src/background.js` (surname candidates, candidate scoring, the
message handler), followed by the properties proved about them.

JavaScript strings are modelled as lists of Unicode characters; the source indexes
UTF-16 code units, which is the same thing for the characters of the Basic
Multilingual Plane; a statement about the value of `firstInitial`, which the source
takes with `slice(0, 1)`, is made for a first character in that plane.  The engine's `String.prototype.toLowerCase` / `toUpperCase`
and the floating-point popularity term are taken as parameters (`Builtins`), so
that a theorem with no assumption on them holds for every engine; what a theorem
needs of them is stated as a hypothesis (`AsciiCasing`, `SeparatorCasing`, and
`FloatOps` with `FloatOps.Sound` for the double-precision arithmetic).  A search
result's `numRatings` is a natural number, as the data model of the specification
has it.
-/

namespace UCDRmp

/-- A JavaScript string, as its sequence of characters. -/
abbrev JSString := List Char

/-- The engine primitives the source calls but does not define. -/
structure Builtins where
  /-- The function `String.prototype.toLowerCase`. -/
  toLowerCase : JSString → JSString
  /-- The function `String.prototype.toUpperCase`. -/
  toUpperCase : JSString → JSString
  /-- The double computed by `score += Math.min(10, Math.log10(n + 1) * 5)` when
  `score` holds the integer `pts` (a finite double is a rational number). -/
  addPopularity : Nat → Nat → ℚ

/-! ## String primitives -/

/-- The characters matched by the regular expression class `\s`, which are also
the characters removed by `String.prototype.trim`. -/
def isWhiteSpace (c : Char) : Bool :=
  let n := c.toNat
  (9 ≤ n && n ≤ 13) || n == 32 || n == 160 || n == 5760 ||
    (8192 ≤ n && n ≤ 8202) || n == 8232 || n == 8233 || n == 8239 ||
    n == 8287 || n == 12288 || n == 65279

/-- Worker for `collapseWhitespace`; the flag tells whether the previous
character belonged to a whitespace run that has already produced its space. -/
def collapseAux : Bool → JSString → JSString
  | _, [] => []
  | inRun, c :: cs =>
    if isWhiteSpace c then
      if inRun then collapseAux true cs else ' ' :: collapseAux true cs
    else c :: collapseAux false cs

/-- The replacement `s.replace(/\s+/g, " ")`. -/
def collapseWhitespace (s : JSString) : JSString := collapseAux false s

/-- The replacement `s.replace(/\u00a0/g, " ")`. -/
def replaceNbsp (s : JSString) : JSString :=
  s.map fun c => if c.toNat == 160 then ' ' else c

/-- The method `String.prototype.trim`. -/
def trim (s : JSString) : JSString :=
  ((s.dropWhile isWhiteSpace).reverse.dropWhile isWhiteSpace).reverse

/-- The method `s.split(sep)` for a one-character separator. -/
def split (sep : Char) : JSString → List JSString
  | [] => [[]]
  | c :: cs =>
    if c = sep then [] :: split sep cs
    else
      match split sep cs with
      | [] => [[c]]
      | p :: ps => (c :: p) :: ps

/-- The idiom `s.split(" ").filter(Boolean)`: the non-empty space-separated pieces. -/
def tokens (s : JSString) : List JSString :=
  (split ' ' s).filter fun t => !t.isEmpty

/-- The method `parts.join(" ")`. -/
def joinSpace : List JSString → JSString
  | [] => []
  | [t] => t
  | t :: ts => t ++ ' ' :: joinSpace ts

/-- The test `/[A-Za-z]/` on one character. -/
def isAsciiLetter (c : Char) : Bool :=
  (65 ≤ c.toNat && c.toNat ≤ 90) || (97 ≤ c.toNat && c.toNat ≤ 122)

/-! ## `content.js`: the name parser and the cache key -/

/-- The object returned by `parseProfessorName`; `none` stands for a property
the object does not have. -/
structure ParsedProf where
  skip : Bool
  display : JSString
  first : Option JSString
  firstInitial : Option JSString
  last : Option JSString
  deriving DecidableEq, Repr

/-- The set `SKIP_NAMES`. -/
def SKIP_NAMES : List JSString :=
  ["the staff".toList, "staff".toList, "tba".toList, "tbd".toList, "instructor".toList]

/-- The function `cleanProfessorDisplayName`. -/
def cleanProfessorDisplayName (raw : JSString) : JSString :=
  trim (replaceNbsp (collapseWhitespace raw))

/-- The function `profKey`. -/
def profKey (B : Builtins) (parsed : ParsedProf) : JSString :=
  let display := trim (collapseWhitespace parsed.display)
  let last := trim (parsed.last.getD [])
  let fi := trim (parsed.firstInitial.getD [])
  B.toLowerCase (fi ++ '|' :: (last ++ '|' :: display))

/-- The function `parseProfessorName`.  The call `slice(0, 1)` takes one UTF-16 code
unit and is modelled by `take 1`, which takes one character: the two agree when the
first character lies in the Basic Multilingual Plane. -/
def parseProfessorName (B : Builtins) (raw : JSString) : Option ParsedProf :=
  let name := cleanProfessorDisplayName raw
  if name.isEmpty then none
  else
    let lowered := B.toLowerCase name
    if lowered ∈ SKIP_NAMES then
      some { skip := true, display := name, first := none, firstInitial := none, last := none }
    else if ',' ∈ name then
      let parts := (split ',' name).map trim
      let lastPart := parts.getD 0 []
      let firstPart := parts.getD 1 []
      let firstTokens := tokens firstPart
      some { skip := false, display := name,
             first := some (firstTokens.headD []),
             firstInitial := some (B.toUpperCase ((firstTokens.headD []).take 1)),
             last := some lastPart }
    else
      let toks := tokens name
      let firstTok := toks.headD []
      let maybeInitial := firstTok.erase '.'
      let hasInitial := maybeInitial.length == 1 && maybeInitial.any isAsciiLetter
      if hasInitial then
        some { skip := false, display := name, first := some [],
               firstInitial := some (B.toUpperCase maybeInitial),
               last := some (joinSpace (toks.drop 1)) }
      else if 2 ≤ toks.length then
        some { skip := false, display := name, first := some (toks.headD []),
               firstInitial := some (B.toUpperCase ((toks.headD []).take 1)),
               last := some (joinSpace (toks.drop 1)) }
      else
        some { skip := false, display := name, first := some [], firstInitial := some [],
               last := some name }

/-! ## `background.js`: surname candidates and candidate scoring -/

/-- The character class `[a-z]`. -/
def isLowerAZ (c : Char) : Bool := 97 ≤ c.toNat && c.toNat ≤ 122

/-- The function `normalize`, applied to `s || ""`. -/
def normalize (B : Builtins) (s : JSString) : JSString :=
  (B.toLowerCase s).filter isLowerAZ

/-- The method `Set.prototype.add` on an insertion-ordered set. -/
def setAdd (out : List JSString) (x : JSString) : List JSString :=
  if x ∈ out then out else out ++ [x]

/-- The replacement `s.replace(/[.,]/g, "")`. -/
def removePeriodsCommas (s : JSString) : JSString :=
  s.filter fun c => c != '.' && c != ','

/-- The value `cleaned` of `buildLastNameCandidates`: `last || ""`, trimmed, with
whitespace collapsed and periods and commas removed. -/
def cleanedSurname (last : Option JSString) : JSString :=
  removePeriodsCommas (collapseWhitespace (trim (last.getD [])))

/-- The value `parts` of `buildLastNameCandidates`: the words of the cleaned surname. -/
def surnameParts (last : Option JSString) : List JSString := tokens (cleanedSurname last)

/-- The function `buildLastNameCandidates`. -/
def buildLastNameCandidates (last : Option JSString) : List JSString :=
  let cleaned := cleanedSurname last
  if cleaned.isEmpty then []
  else
    let parts := surnameParts last
    let out := [cleaned]
    if 2 ≤ parts.length then setAdd (setAdd out (parts.getLastD [])) (parts.headD [])
    else out

/-- The method `s.includes(t)`. -/
def includes (s t : JSString) : Bool := decide (t <:+: s)

/-- One search result node; `none` stands for `null` or a missing field, and a
missing `numRatings` is `0`. -/
structure Teacher where
  firstName : Option JSString
  lastName : Option JSString
  numRatings : Nat
  legacyId : Option Nat
  department : Option JSString
  avgRating : Option ℚ
  avgDifficulty : Option ℚ
  wouldTakeAgainPercent : Option ℚ
  deriving DecidableEq

/-- The inner loop of `pickBestTeacherMatch`: the value of `lastScore` after
scanning the normalized surname candidates. -/
def lastNameScore (qLastCandidates : List JSString) (tLastNorm : JSString) : Nat :=
  qLastCandidates.foldl (fun lastScore ql =>
    if ql.isEmpty then lastScore
    else if tLastNorm = ql then max lastScore 50
    else if includes tLastNorm ql || includes ql tLastNorm then max lastScore 35
    else lastScore) 0

/-- The list `qLastCandidates` of `pickBestTeacherMatch`. -/
def qLastCandidates (B : Builtins) (prof : ParsedProf) : List JSString :=
  (buildLastNameCandidates prof.last).map (normalize B)

/-- The value of `lastScore` for teacher `t`. -/
def lastScore (B : Builtins) (prof : ParsedProf) (t : Teacher) : Nat :=
  lastNameScore (qLastCandidates B prof) (normalize B (trim (t.lastName.getD [])))

/-- The integer part of the score of a teacher that passed the surname gate:
`lastScore`, plus 20 for an equal first name, plus 10 for a matching initial. -/
def namePoints (B : Builtins) (prof : ParsedProf) (t : Teacher) : Nat :=
  let qFirst := normalize B (prof.first.getD [])
  let qInitial := B.toUpperCase (prof.firstInitial.getD [])
  let tFirst := trim (t.firstName.getD [])
  let tFirstNorm := normalize B tFirst
  let score := lastScore B prof t
  let score := if !qFirst.isEmpty && tFirstNorm = qFirst then score + 20 else score
  if !qInitial.isEmpty && !tFirst.isEmpty && B.toUpperCase (tFirst.take 1) = qInitial
  then score + 10 else score

/-- The body of the outer loop of `pickBestTeacherMatch`: `none` when the
iteration ends at `continue`, otherwise the final value of `score`. -/
def teacherScore (B : Builtins) (prof : ParsedProf) (t : Teacher) : Option ℚ :=
  if lastScore B prof t = 0 then none
  else some (B.addPopularity (namePoints B prof t) t.numRatings)

/-- One iteration of the outer loop on the pair `(best, bestScore)`. -/
def pickStep (B : Builtins) (prof : ParsedProf) (acc : Option Teacher × ℚ) (t : Teacher) :
    Option Teacher × ℚ :=
  match teacherScore B prof t with
  | none => acc
  | some score => if score > acc.2 then (some t, score) else acc

/-- The function `pickBestTeacherMatch`; an edge is `none` when it or its node is
`null`. -/
def pickBestTeacherMatch (B : Builtins) (edges : List (Option Teacher)) (prof : ParsedProf) :
    Option Teacher :=
  let nodes := edges.filterMap id
  if nodes.isEmpty then none
  else (nodes.foldl (pickStep B prof) (none, -1)).1

/-! ## `background.js`: the popularity term in double precision -/

/-- The double-precision arithmetic behind the popularity term.  A finite double
is a rational number. -/
structure FloatOps where
  /-- The double nearest to an exact result. -/
  round : ℚ → ℚ
  /-- The function `Math.log10`. -/
  log10 : ℚ → ℚ

/-- The value `Math.min(10, Math.log10(n + 1) * 5)`. -/
def FloatOps.bonus (F : FloatOps) (n : Nat) : ℚ :=
  min 10 (F.round (F.log10 (F.round (n + 1)) * 5))

/-- The value of `score` after `score += Math.min(10, Math.log10(n + 1) * 5)`, when
`score` held the integer `pts`. -/
def FloatOps.addPopularity (F : FloatOps) (pts n : Nat) : ℚ :=
  F.round (pts + F.bonus n)

/-! ## `background.js`: the message handler -/

/-- A thrown `Error` value. -/
structure JSError where
  name : JSString
  message : JSString
  deriving DecidableEq

/-- The conversion `String(err?.message || err)` of a thrown error, which is also
`e?.message || String(e)`: the message, or the error's name when the message is empty. -/
def JSError.text (e : JSError) : JSString :=
  if e.message.isEmpty then e.name else e.message

/-- The object passed to `sendResponse`: `{ ok: false, error }` or `{ ok: true, ... }`. -/
inductive Response where
  | failure (error : JSString)
  | success (rating : ℚ) (difficulty : Option ℚ) (wouldTakeAgain : Option ℚ)
      (numRatings : Nat) (department : Option JSString) (profileUrl : Option JSString)
      (firstName : JSString) (lastName : JSString)
  deriving DecidableEq

/-- The variables of the search request built by `searchTeacherAtSchool`. -/
structure SearchRequest where
  text : JSString
  schoolID : JSString
  first : Nat
  deriving DecidableEq

/-- The parsed body of a successful HTTP response, seen through
`data?.data?.newSearch?.teachers?.edges ?? []`. -/
inductive SearchData where
  /-- The edges array (empty when any link of the chain is missing). -/
  | edges (es : List (Option Teacher))
  /-- A body of another shape, on which reading the candidates throws. -/
  | malformed (err : JSError)

/-- What `fetch` and the body readers do for one request. -/
inductive FetchResult where
  /-- The call `fetch(...)` rejects (transport error). -/
  | rejected (err : JSError)
  /-- The response has `res.ok` false; `text` is `await res.text().catch(() => "")`. -/
  | httpError (status : Nat) (text : JSString)
  /-- The call `res.json()` rejects. -/
  | badJson (err : JSError)
  /-- The call `res.json()` yields a value. -/
  | json (data : SearchData)

/-- The template string of the error thrown by `gqlRequest` on a response that is not `ok`. -/
def httpErrorMessage (status : Nat) (text : JSString) : JSString :=
  "RMP GraphQL HTTP ".toList ++ ((Nat.repr status).toList ++ (": ".toList ++ text.take 200))

/-- The function `gqlRequest`: the parsed body, or the error it throws. -/
def gqlRequest (net : SearchRequest → FetchResult) (body : SearchRequest) :
    Except JSError SearchData :=
  match net body with
  | .rejected err => .error err
  | .httpError status text =>
    .error { name := "Error".toList, message := httpErrorMessage status text }
  | .badJson err => .error err
  | .json data => .ok data

/-- The function `getSchoolIdByName`, that is `btoa("School-1073")`. -/
def getSchoolIdByName (_schoolName : JSString) : JSString := "U2Nob29sLTEwNzM=".toList

/-- The object returned by `searchTeacherAtSchool`. -/
structure TeacherResult where
  firstName : JSString
  lastName : JSString
  avgRating : ℚ
  avgDifficulty : Option ℚ
  wouldTakeAgainPercent : Option ℚ
  numRatings : Nat
  department : Option JSString
  legacyId : Option Nat
  profileUrl : Option JSString
  deriving DecidableEq

/-- The function `searchTeacherAtSchool`: `none` is `null`. -/
def searchTeacherAtSchool (B : Builtins) (net : SearchRequest → FetchResult)
    (schoolId textQuery : JSString) (profParsed : ParsedProf) :
    Except JSError (Option TeacherResult) :=
  match gqlRequest net { text := textQuery, schoolID := schoolId, first := 25 } with
  | .error err => .error err
  | .ok (.malformed err) => .error err
  | .ok (.edges edges) =>
    match pickBestTeacherMatch B edges profParsed with
    | none => .ok none
    | some best =>
      .ok (some {
        firstName := best.firstName.getD []
        lastName := best.lastName.getD []
        avgRating := best.avgRating.getD 0
        avgDifficulty := best.avgDifficulty
        wouldTakeAgainPercent := best.wouldTakeAgainPercent
        numRatings := best.numRatings
        department := best.department
        legacyId := best.legacyId
        profileUrl :=
          match best.legacyId with
          | some (n + 1) =>
            some ("https://www.ratemyprofessors.com/professor/".toList ++ (Nat.repr (n + 1)).toList)
          | _ => none })

/-- A message received by the listener. -/
structure Message where
  type : JSString
  schoolName : Option JSString
  prof : Option ParsedProf

/-- What one run of the listener did. -/
structure HandlerRun where
  /-- The arguments of the calls of `sendResponse`, in order. -/
  responses : List Response
  /-- The search requests handed to `fetch`, in order. -/
  requests : List SearchRequest
  /-- The fault that left the run, if any. -/
  fault : Option JSError

/-- The body of the `async` function inside the listener. -/
def handlerBody (B : Builtins) (net : SearchRequest → FetchResult) (msg : Message) : HandlerRun :=
  if msg.type ≠ "GET_RMP".toList then { responses := [], requests := [], fault := none }
  else
    let schoolName :=
      if (msg.schoolName.getD []).isEmpty then "University of California Davis".toList
      else msg.schoolName.getD []
    match msg.prof with
    | none =>
      { responses := [.failure "Bad professor name".toList], requests := [], fault := none }
    | some prof =>
      if prof.skip || (prof.last.getD []).isEmpty then
        { responses := [.failure "Bad professor name".toList], requests := [], fault := none }
      else
        let schoolId := getSchoolIdByName schoolName
        if schoolId.isEmpty then
          { responses := [.failure "School not found".toList], requests := [], fault := none }
        else
          let q := if !(prof.last.getD []).isEmpty then prof.last.getD [] else prof.display
          let request : SearchRequest := { text := q, schoolID := schoolId, first := 25 }
          match searchTeacherAtSchool B net schoolId q prof with
          | .error err => { responses := [], requests := [request], fault := some err }
          | .ok none =>
            { responses := [.failure "No teacher match".toList], requests := [request],
              fault := none }
          | .ok (some result) =>
            { responses := [.success result.avgRating result.avgDifficulty
                result.wouldTakeAgainPercent result.numRatings result.department
                result.profileUrl result.firstName result.lastName],
              requests := [request], fault := none }

/-- The listener registered with `chrome.runtime.onMessage`: the `async` body
followed by its `.catch` handler. -/
def onMessage (B : Builtins) (net : SearchRequest → FetchResult) (msg : Message) : HandlerRun :=
  let run := handlerBody B net msg
  match run.fault with
  | none => run
  | some err =>
    { responses := run.responses ++ [.failure err.text], requests := run.requests, fault := none }

/-! ## `content.js`: the cached request -/

/-- A JavaScript `Map` with string keys. -/
abbrev JSMap (V : Type) := JSString → Option V

/-- The method `Map.prototype.set`. -/
def JSMap.set {V : Type} (m : JSMap V) (key : JSString) (v : V) : JSMap V :=
  fun k => if k = key then some v else m k

/-- The method `Map.prototype.delete`. -/
def JSMap.delete {V : Type} (m : JSMap V) (key : JSString) : JSMap V :=
  fun k => if k = key then none else m k

/-- The method `Map.prototype.has`. -/
def JSMap.has {V : Type} (m : JSMap V) (key : JSString) : Bool := (m key).isSome

/-- The value `requestRatingCached` returns: `Promise.resolve(v)` for a cached
value, or the promise with the given identity. -/
inductive Handle where
  | resolved (v : Option Response)
  | promise (id : Nat)
  deriving DecidableEq

/-- What the extension runtime does during one call of `requestRatingCached`. -/
structure CallEnv where
  /-- Whether `chrome?.runtime?.id` is truthy. -/
  runtimeId : Bool
  /-- The error `chrome.runtime.sendMessage` throws synchronously, if it does. -/
  sendThrows : Option JSError

/-- The state of the content script: the two module-level maps, the promises
created so far, and the traffic with the extension runtime.  A response value
is `none` when it is `undefined`. -/
structure Session where
  rmpCache : JSMap (Option Response)
  inFlight : JSMap Nat
  /-- The identity the next `new Promise` gets. -/
  nextPromise : Nat
  /-- The key each promise was created for. -/
  keyOf : Nat → Option JSString
  /-- The value each promise was resolved with. -/
  settled : Nat → Option (Option Response)
  /-- The calls of `chrome.runtime.sendMessage`, latest first: key and `prof` field. -/
  sendCalls : List (JSString × ParsedProf)
  /-- The callbacks handed to `sendMessage` and not yet invoked: promise and key. -/
  callbacks : List (Nat × JSString)

/-- The number of calls of `chrome.runtime.sendMessage` made for `key`. -/
def Session.sendCount (s : Session) (key : JSString) : Nat :=
  (s.sendCalls.filter fun call => decide (call.1 = key)).length

/-- The state when the content script is loaded. -/
def Session.empty : Session :=
  { rmpCache := fun _ => none, inFlight := fun _ => none, nextPromise := 0,
    keyOf := fun _ => none, settled := fun _ => none, sendCalls := [], callbacks := [] }

/-- The three statements `rmpCache.set(key, resp); inFlight.delete(key); resolve(resp)`
for the promise `p`. -/
def Session.complete (s : Session) (p : Nat) (key : JSString) (resp : Option Response) :
    Session :=
  { s with
    rmpCache := s.rmpCache.set key resp
    inFlight := s.inFlight.delete key
    settled := fun q => if q = p ∧ s.settled p = none then some resp else s.settled q }

/-- The function `requestRatingCached`. -/
def requestRatingCached (B : Builtins) (s : Session) (parsedProf : ParsedProf) (env : CallEnv) :
    Handle × Session :=
  let key := profKey B parsedProf
  match s.rmpCache key with
  | some resp => (.resolved resp, s)
  | none =>
    match s.inFlight key with
    | some p => (.promise p, s)
    | none =>
      let p := s.nextPromise
      let s :=
        { s with nextPromise := p + 1, keyOf := fun q => if q = p then some key else s.keyOf q }
      let s :=
        if !env.runtimeId then
          s.complete p key (some (.failure "Extension context invalidated".toList))
        else
          let s := { s with sendCalls := (key, parsedProf) :: s.sendCalls }
          match env.sendThrows with
          | none => { s with callbacks := (p, key) :: s.callbacks }
          | some e => s.complete p key (some (.failure e.text))
      (.promise p, { s with inFlight := s.inFlight.set key p })

/-- The value `finalResp` of the message callback:
`err ? { ok: false, error: err.message || String(err) } : resp`, where `lastError` is
the message of `chrome.runtime.lastError` when that is set. -/
def finalResp (resp : Option Response) (lastError : Option JSString) : Option Response :=
  match lastError with
  | some message =>
    some (.failure (if message.isEmpty then "[object Object]".toList else message))
  | none => resp

/-- The callback handed to `sendMessage`, invoked by the runtime for promise `p`
with the response `resp` while `chrome.runtime.lastError` is `lastError`.  The
runtime invokes a callback it was handed, once. -/
def messageCallback (s : Session) (p : Nat) (resp : Option Response)
    (lastError : Option JSString) : Session :=
  match s.callbacks.find? (fun cb => cb.1 == p) with
  | none => s
  | some (_, key) =>
    let s := { s with callbacks := s.callbacks.filter fun cb => cb.1 != p }
    s.complete p key (finalResp resp lastError)

/-- One thing that happens in the content script. -/
inductive Event where
  | request (parsedProf : ParsedProf) (env : CallEnv)
  | reply (p : Nat) (resp : Option Response) (lastError : Option JSString)

/-- The state after one event. -/
def Session.step (B : Builtins) (s : Session) : Event → Session
  | .request parsedProf env => (requestRatingCached B s parsedProf env).2
  | .reply p resp lastError => messageCallback s p resp lastError

/-- The state after a sequence of events. -/
def Session.run (B : Builtins) (s : Session) (evs : List Event) : Session :=
  evs.foldl (Session.step B) s

/-! ## Notions used in the properties -/

/-- Lower-casing of one ASCII character; other characters are unchanged. -/
def asciiLowerChar (c : Char) : Char :=
  if 65 ≤ c.toNat ∧ c.toNat ≤ 90 then Char.ofNat (c.toNat + 32) else c

/-- Upper-casing of one ASCII character; other characters are unchanged. -/
def asciiUpperChar (c : Char) : Char :=
  if 97 ≤ c.toNat ∧ c.toNat ≤ 122 then Char.ofNat (c.toNat - 32) else c

/-- Everything before the first comma of `s`. -/
def beforeComma (s : JSString) : JSString := s.takeWhile fun c => c != ','

/-- Everything after the first comma of `s`. -/
def afterComma (s : JSString) : JSString := (s.dropWhile fun c => c != ',').drop 1

/-- The first whitespace-delimited token of `s`, empty when `s` has none. -/
def firstWord (s : JSString) : JSString :=
  (s.dropWhile isWhiteSpace).takeWhile fun c => !isWhiteSpace c

/-- Every whitespace character of the string is a plain space. -/
def SpaceOnly (s : JSString) : Prop := ∀ c ∈ s, isWhiteSpace c = true → c = ' '

/-- A character map that keeps every character the parser looks at: whitespace,
the ASCII letters as a class, and each character below `A` as well as `|`. -/
structure Transparent (f : Char → Char) : Prop where
  white : ∀ c, isWhiteSpace (f c) = isWhiteSpace c
  letter : ∀ c, isAsciiLetter (f c) = isAsciiLetter c
  fixed : ∀ c d : Char, d.toNat < 65 ∨ d.toNat = 124 → (f c = d ↔ c = d)

/-- Every character of the string is an ASCII character. -/
def IsAscii (s : JSString) : Prop := ∀ c ∈ s, c.toNat < 128

/-- The engine's case mappings act on ASCII strings as the ASCII case mappings. -/
structure AsciiCasing (B : Builtins) : Prop where
  lower : ∀ s, IsAscii s → B.toLowerCase s = s.map asciiLowerChar
  upper : ∀ s, IsAscii s → B.toUpperCase s = s.map asciiUpperChar

/-- The whitespace-delimited words of a surname, before periods and commas are
removed. -/
def surnameWords (last : Option JSString) : List JSString :=
  tokens (collapseWhitespace (trim (last.getD [])))

/-- The value of `tLastNorm` for teacher `t`. -/
def tLastNorm (B : Builtins) (t : Teacher) : JSString :=
  normalize B (trim (t.lastName.getD []))

/-- The surname relation of the specification: the teacher's normalized surname
equals, contains, or is contained in some normalized surname candidate. -/
def surnameRelated (B : Builtins) (prof : ParsedProf) (t : Teacher) : Prop :=
  ∃ ql ∈ qLastCandidates B prof,
    tLastNorm B t = ql ∨ ql <:+: tLastNorm B t ∨ tLastNorm B t <:+: ql

/-- The surname gate: the surname relation with a normalized surname candidate
that is not empty. -/
def passesGate (B : Builtins) (prof : ParsedProf) (t : Teacher) : Prop :=
  ∃ ql ∈ qLastCandidates B prof, ql ≠ [] ∧
    (tLastNorm B t = ql ∨ ql <:+: tLastNorm B t ∨ tLastNorm B t <:+: ql)

/-- The surname base of the specification: 50 for equality with a non-empty
normalized surname candidate, otherwise 35 for containment in either direction,
otherwise none. -/
def surnameBase (B : Builtins) (prof : ParsedProf) (t : Teacher) : Nat :=
  if ∃ ql ∈ qLastCandidates B prof, ql ≠ [] ∧ tLastNorm B t = ql then 50
  else if ∃ ql ∈ qLastCandidates B prof, ql ≠ [] ∧
      (ql <:+: tLastNorm B t ∨ tLastNorm B t <:+: ql) then 35
  else 0

/-- The first-name bonus of the specification: 20 when the identity has a
normalized first name and the teacher's normalized first name equals it. -/
def firstNameBonus (B : Builtins) (prof : ParsedProf) (t : Teacher) : Nat :=
  if normalize B (prof.first.getD []) ≠ [] ∧
      normalize B (trim (t.firstName.getD [])) = normalize B (prof.first.getD []) then 20
  else 0

/-- The initial bonus of the specification: 10 when the identity has a first
initial and the teacher's first character, upper-cased, equals it. -/
def initialBonus (B : Builtins) (prof : ParsedProf) (t : Teacher) : Nat :=
  if B.toUpperCase (prof.firstInitial.getD []) ≠ [] ∧ trim (t.firstName.getD []) ≠ [] ∧
      B.toUpperCase ((trim (t.firstName.getD [])).take 1) =
        B.toUpperCase (prof.firstInitial.getD []) then 10
  else 0

/-- The total score of a teacher that passed the surname gate. -/
def totalScore (B : Builtins) (prof : ParsedProf) (t : Teacher) : ℚ :=
  B.addPopularity (namePoints B prof t) t.numRatings

/-- The facts of double-precision arithmetic the properties of the popularity term
rest on: rounding is monotone and keeps the integers up to `2 ^ 53`, and `Math.log10`
is monotone on the positive numbers and sends `1` to `0`. -/
structure FloatOps.Sound (F : FloatOps) : Prop where
  round_mono : ∀ a b : ℚ, a ≤ b → F.round a ≤ F.round b
  round_nat : ∀ k : Nat, k ≤ 2 ^ 53 → F.round k = k
  log10_mono : ∀ a b : ℚ, 0 < a → a ≤ b → F.log10 a ≤ F.log10 b
  log10_one : F.log10 1 = 0

/-- A string as `cleanProfessorDisplayName` leaves it: its only whitespace is the
plain space, no two spaces are adjacent, and it neither begins nor ends with a space. -/
structure Tidy (s : JSString) : Prop where
  spaceOnly : SpaceOnly s
  chain : s.Chain' fun a b => ¬ (a = ' ' ∧ b = ' ')
  head : ∀ c r, s = c :: r → c ≠ ' '
  last : ∀ r c, s = r ++ [c] → c ≠ ' '

/-- The test `hasInitial` of `parseProfessorName` on a first token: with its first
period removed, the token is a single letter of `A-Z` or `a-z`. -/
def isInitial (t : JSString) : Bool :=
  (t.erase '.').length == 1 && (t.erase '.').any isAsciiLetter

/-- The token `parseProfessorName` reads the first initial from: `firstTokens[0] || ""`
for a cleaned name with a comma, `tokens[0] || ""` for one without. -/
def initialToken (name : JSString) : JSString :=
  if ',' ∈ name then (tokens (((split ',' name).map trim).getD 1 [])).headD []
  else (tokens name).headD []

/-- The token `t` keeps its initial under lower-casing: its first character lies in
the Basic Multilingual Plane; it passes the initial test after lower-casing exactly
if it does before; its first character, upper-cased, trimmed and lower-cased, is the
first character of the lower-cased token; and when it passes the initial test, its
letter, upper-cased, trimmed and lower-cased, is the letter of the lower-cased token. -/
structure KeepsInitial (B : Builtins) (t : JSString) : Prop where
  bmp : ∀ c ∈ t.take 1, c.toNat < 65536
  test : isInitial (B.toLowerCase t) = isInitial t
  first : B.toLowerCase (trim (B.toUpperCase (t.take 1))) = (B.toLowerCase t).take 1
  letter : isInitial t = true →
    B.toLowerCase (trim (B.toUpperCase (t.erase '.'))) = (B.toLowerCase t).erase '.'

/-- An auxiliary function for the proof that the key ignores case: the fields `fi`
and `last` of a cache key, read from the lower-cased cleaned name alone, which is what
`parseProfessorName` and `profKey` compute when no case mapping is left to apply. -/
def loweredFields (D : JSString) : JSString × JSString :=
  if D ∈ SKIP_NAMES then ([], [])
  else if ',' ∈ D then
    (((trim (beforeComma (afterComma D))).takeWhile fun c => c != ' ').take 1,
      trim (beforeComma D))
  else
    let t := D.takeWhile fun c => c != ' '
    if isInitial t then (t.erase '.', trim ((D.dropWhile fun c => c != ' ').drop 1))
    else if ' ' ∈ D then (t.take 1, trim ((D.dropWhile fun c => c != ' ').drop 1))
    else ([], trim D)

/-- The facts about the engine's case mappings that the cache key rests on:
lower-casing acts on each side of a space, a comma and a `|` separately and yields
none of these characters anew, it commutes with `trim`, and a character that is not
whitespace, upper-cased, trimmed and lower-cased, gives a non-empty string that has a
comma only if the character is one and has a `|` only if it is `|` itself. -/
structure SeparatorCasing (B : Builtins) : Prop where
  lower_nil : B.toLowerCase [] = []
  upper_nil : B.toUpperCase [] = []
  lower_sep : ∀ (s t : JSString) (c : Char), c = ' ' ∨ c = ',' ∨ c = '|' →
    B.toLowerCase (s ++ c :: t) = B.toLowerCase s ++ c :: B.toLowerCase t
  lower_mem : ∀ (s : JSString) (c : Char), c = ' ' ∨ c = ',' ∨ c = '|' →
    c ∈ B.toLowerCase s → c ∈ s
  lower_trim : ∀ s : JSString, B.toLowerCase (trim s) = trim (B.toLowerCase s)
  initial : ∀ c : Char, isWhiteSpace c = false →
    B.toLowerCase (trim (B.toUpperCase [c])) ≠ [] ∧
      (',' ∈ B.toLowerCase (trim (B.toUpperCase [c])) → c = ',') ∧
      ('|' ∈ B.toLowerCase (trim (B.toUpperCase [c])) →
        B.toLowerCase (trim (B.toUpperCase [c])) = [ '|'])

/-- The forms of the three lower-cased fields `fi`, `last` and `display` of a cache
key, one for each way `parseProfessorName` returns: a placeholder; a single token; an
initial alone; a first token followed by the rest; a name with a comma. -/
inductive KeyShape : JSString → JSString → JSString → Prop where
  | bare {D : JSString} (hbar : '|' ∉ D) (hcomma : ',' ∉ D) : KeyShape [] [] D
  | whole {D : JSString} (hsp : ' ' ∉ D) (hcomma : ',' ∉ D) : KeyShape [] D D
  | lone {F D : JSString} (hF : F ≠ []) (hFc : ',' ∉ F) (hFb : '|' ∈ F → F = [ '|'])
      (hbar : '|' ∉ D) (hsp : ' ' ∉ D) (hcomma : ',' ∉ D) : KeyShape F [] D
  | split {F tok L : JSString} (hF : F ≠ []) (hFc : ',' ∉ F) (hFb : '|' ∈ F → F = [ '|'])
      (hsp : ' ' ∉ tok) (hct : ',' ∉ tok) (hcL : ',' ∉ L) : KeyShape F L (tok ++ ' ' :: L)
  | comma {F b a : JSString} (hFc : ',' ∉ F) (hFb : '|' ∈ F → F = [ '|']) (hb : ',' ∉ b) :
      KeyShape F (trim b) (b ++ ',' :: a)

/-- The search request the listener issues for `prof`. -/
def searchRequestOf (prof : ParsedProf) : SearchRequest :=
  { text := prof.last.getD [], schoolID := getSchoolIdByName [], first := 25 }

/-- The invariant of the content script's state: every registered callback belongs
to an unsettled promise whose key is in flight and not cached, every unsettled
promise has a registered callback, no key was sent twice, and a settled promise's
value is the cached value of its key. -/
structure Session.WellFormed (s : Session) : Prop where
  callback_pending : ∀ p k, (p, k) ∈ s.callbacks →
    s.rmpCache k = none ∧ s.inFlight k = some p ∧ s.settled p = none ∧
      s.keyOf p = some k ∧ p < s.nextPromise ∧ k ∈ s.sendCalls.map Prod.fst
  unsettled_pending : ∀ p, p < s.nextPromise → s.settled p = none →
    ∃ k, (p, k) ∈ s.callbacks
  sent_nodup : (s.sendCalls.map Prod.fst).Nodup
  sent_known : ∀ k ∈ s.sendCalls.map Prod.fst,
    s.rmpCache k ≠ none ∨ ∃ p, (p, k) ∈ s.callbacks
  settled_cached : ∀ p k r, s.keyOf p = some k → s.settled p = some r → s.rmpCache k = some r
  inFlight_known : ∀ k p, s.inFlight k = some p → p < s.nextPromise ∧ s.keyOf p = some k
  fresh : ∀ p, s.nextPromise ≤ p → s.settled p = none ∧ s.keyOf p = none

/-- The event `e`, happening in state `s`, completes a lookup for `key` with the
response `resp`: by the short-circuit taken when the runtime id is absent, by an
exception thrown by `sendMessage`, or by the message callback, with or without
`chrome.runtime.lastError`. -/
inductive Completes (B : Builtins) (s : Session) :
    Event → JSString → Option Response → Prop where
  | invalidated (parsedProf : ParsedProf) (env : CallEnv)
      (hcache : s.rmpCache (profKey B parsedProf) = none)
      (hflight : s.inFlight (profKey B parsedProf) = none)
      (hid : env.runtimeId = false) :
      Completes B s (.request parsedProf env) (profKey B parsedProf)
        (some (.failure "Extension context invalidated".toList))
  | threw (parsedProf : ParsedProf) (env : CallEnv) (e : JSError)
      (hcache : s.rmpCache (profKey B parsedProf) = none)
      (hflight : s.inFlight (profKey B parsedProf) = none)
      (hid : env.runtimeId = true) (hthrow : env.sendThrows = some e) :
      Completes B s (.request parsedProf env) (profKey B parsedProf) (some (.failure e.text))
  | lastError (p : Nat) (key : JSString) (resp : Option Response) (message : JSString)
      (hcb : (p, key) ∈ s.callbacks) :
      Completes B s (.reply p resp (some message)) key
        (some (.failure (if message.isEmpty then "[object Object]".toList else message)))
  | replied (p : Nat) (key : JSString) (resp : Option Response)
      (hcb : (p, key) ∈ s.callbacks) :
      Completes B s (.reply p resp none) key resp

/-! ## Concrete values used in examples -/

/-- The identity parsed from `John Smith`. -/
def smithProf : ParsedProf :=
  { skip := false, display := "John Smith".toList, first := some "John".toList,
    firstInitial := some "J".toList, last := some "Smith".toList }

/-- A `GET_RMP` message for `smithProf`. -/
def smithMessage : Message :=
  { type := "GET_RMP".toList, schoolName := some "University of California Davis".toList,
    prof := some smithProf }

/-- The raw name `İlker Smith`, whose first character is U+0130. -/
def dottedCapitalName : JSString := Char.ofNat 304 :: "lker Smith".toList

/-- The lower-cased form of `dottedCapitalName`: `i`, U+0307, then `lker smith`. -/
def dottedLowerName : JSString := 'i' :: Char.ofNat 775 :: "lker smith".toList

/-- A call during which the extension runtime is present and `sendMessage` returns. -/
def liveEnv : CallEnv := { runtimeId := true, sendThrows := none }

/-- A call made after the extension was reloaded: `chrome.runtime.id` is absent. -/
def deadEnv : CallEnv := { runtimeId := false, sendThrows := none }

/-- The identity parsed from `M Sadoghi Hamedani`. -/
def hamedaniProf : ParsedProf :=
  { skip := false, display := "M Sadoghi Hamedani".toList, first := some [],
    firstInitial := some "M".toList, last := some "Sadoghi Hamedani".toList }

/-- A search result stored under the surname `Hamedani`. -/
def hamedani : Teacher :=
  { firstName := some "Mohammad".toList, lastName := some "Hamedani".toList, numRatings := 99,
    legacyId := some 5, department := none, avgRating := some 4, avgDifficulty := none,
    wouldTakeAgainPercent := none }

/-- A search result whose surname is unrelated to `Smith`. -/
def jones : Teacher :=
  { firstName := some "John".toList, lastName := some "Jones".toList, numRatings := 120,
    legacyId := some 7, department := none, avgRating := some 4, avgDifficulty := none,
    wouldTakeAgainPercent := none }

/-- A search result with surname `Smith` and 9 ratings. -/
def smithJohn : Teacher :=
  { firstName := some "John".toList, lastName := some "Smith".toList, numRatings := 9,
    legacyId := some 11, department := some "Physics".toList, avgRating := some 4,
    avgDifficulty := some 3, wouldTakeAgainPercent := none }

/-- A search result with surname `Smith`, another first name, and 9 ratings. -/
def smithJane : Teacher :=
  { firstName := some "Jane".toList, lastName := some "Smith".toList, numRatings := 9,
    legacyId := some 12, department := none, avgRating := some 5, avgDifficulty := none,
    wouldTakeAgainPercent := none }

/-- A search result with surname `Smith`, a first name unrelated to `John`, and no ratings. -/
def smithKim : Teacher :=
  { firstName := some "Kim".toList, lastName := some "Smith".toList, numRatings := 0,
    legacyId := some 21, department := none, avgRating := none, avgDifficulty := none,
    wouldTakeAgainPercent := none }

/-- A search result with surname `Smithson`, first name `Jane`, and 99 ratings. -/
def smithsonJane : Teacher :=
  { firstName := some "Jane".toList, lastName := some "Smithson".toList, numRatings := 99,
    legacyId := some 22, department := none, avgRating := some 3, avgDifficulty := none,
    wouldTakeAgainPercent := none }

/-- A search result without a last name. -/
def noSurname : Teacher :=
  { firstName := some "John".toList, lastName := none, numRatings := 3,
    legacyId := some 23, department := none, avgRating := some 4, avgDifficulty := none,
    wouldTakeAgainPercent := none }

/-- A call during which `chrome.runtime.sendMessage` throws. -/
def throwingEnv : CallEnv :=
  { runtimeId := true,
    sendThrows := some { name := "Error".toList,
                         message := "Extension context invalidated.".toList } }

/-! ## Concrete engines used in examples -/

/-- A rational stand-in for the popularity term: `pts + min(10, 5 * log10(n + 1))`
with the logarithm rounded down, which is the exact value when `n + 1` is a power
of ten. -/
def samplePopularity (pts n : Nat) : ℚ := (pts + min 10 (5 * Nat.log 10 (n + 1)) : Nat)

/-- Exact arithmetic with the logarithm rounded down to an integer. -/
def sampleFloat : FloatOps :=
  { round := id
    log10 := fun q => (Nat.log 10 ⌊q⌋₊ : Nat) }

/-- An engine whose case mappings change the ASCII letters only. -/
def asciiEngine : Builtins :=
  { toLowerCase := List.map asciiLowerChar
    toUpperCase := List.map asciiUpperChar
    addPopularity := samplePopularity }

/-- The Unicode lower-case mapping of the ASCII letters, of U+0130 (capital I with
dot above, to `i` followed by U+0307), of U+1E9E (capital sharp s, to U+00DF) and of
U+212A (Kelvin sign, to `k`); every other character is kept. -/
def latinLowerChar (c : Char) : List Char :=
  if c.toNat = 304 then [ 'i', Char.ofNat 775]
  else if c.toNat = 7838 then [Char.ofNat 223]
  else if c.toNat = 8490 then [ 'k']
  else [asciiLowerChar c]

/-- The Unicode upper-case mapping of the ASCII letters and of U+00DF (sharp s, to
`SS`); every other character is kept. -/
def latinUpperChar (c : Char) : List Char :=
  if c.toNat = 223 then [ 'S', 'S'] else [asciiUpperChar c]

/-- An engine with the case mappings `latinLowerChar` and `latinUpperChar`. -/
def latinEngine : Builtins :=
  { toLowerCase := fun s => s.flatMap latinLowerChar
    toUpperCase := fun s => s.flatMap latinUpperChar
    addPopularity := samplePopularity }

/-! # Properties -/

/-! ## The surname score -/

theorem max_tier_merge (P1 P2 A C : Prop) [Decidable P1] [Decidable P2] [Decidable A]
    [Decidable C] (acc : Nat) :
    max (max acc (if P1 then 50 else if P2 then 35 else 0))
        (if A then 50 else if C then 35 else 0) =
      max acc (if P1 ∨ A then 50 else if P2 ∨ C then 35 else 0) := by
  by_cases h1 : P1 <;> by_cases h2 : P2 <;> by_cases h3 : A <;> by_cases h4 : C <;>
    simp only [h1, h2, h3, h4, if_true, if_false, or_true, true_or, or_self] <;>
    simp only [max_def] <;> split_ifs <;> omega

/-- The contribution of one normalized surname candidate to `lastScore`. -/
theorem lastNameScore_foldl (tl : JSString) (qs : List JSString) (acc : Nat) :
    qs.foldl (fun lastScore ql =>
      if ql.isEmpty then lastScore
      else if tl = ql then max lastScore 50
      else if includes tl ql || includes ql tl then max lastScore 35
      else lastScore) acc =
    max acc (if ∃ ql ∈ qs, ql ≠ [] ∧ tl = ql then 50
      else if ∃ ql ∈ qs, ql ≠ [] ∧ (ql <:+: tl ∨ tl <:+: ql) then 35 else 0) := by
  induction qs generalizing acc with
  | nil => simp
  | cons q qs ih =>
    rw [List.foldl_cons, ih]
    have hstep : (if q.isEmpty then acc
        else if tl = q then max acc 50
        else if includes tl q || includes q tl then max acc 35
        else acc) =
        max acc (if q ≠ [] ∧ tl = q then 50
          else if q ≠ [] ∧ (q <:+: tl ∨ tl <:+: q) then 35 else 0) := by
      by_cases hq : q = []
      · have hqe : q.isEmpty = true := by rw [hq]; rfl
        have n1 : ¬ (q ≠ [] ∧ tl = q) := fun h => h.1 hq
        have n2 : ¬ (q ≠ [] ∧ (q <:+: tl ∨ tl <:+: q)) := fun h => h.1 hq
        rw [if_pos hqe, if_neg n1, if_neg n2]
        exact (Nat.max_zero acc).symm
      · have hqe : ¬ (q.isEmpty = true) := by
          cases q with
          | nil => exact absurd rfl hq
          | cons _ _ => simp
        rw [if_neg hqe]
        by_cases heq : tl = q
        · have p1 : q ≠ [] ∧ tl = q := ⟨hq, heq⟩
          rw [if_pos heq, if_pos p1]
        · have n1 : ¬ (q ≠ [] ∧ tl = q) := fun h => heq h.2
          rw [if_neg heq, if_neg n1]
          by_cases hin : q <:+: tl ∨ tl <:+: q
          · have h2 : (includes tl q || includes q tl) = true := by
              simpa [includes] using hin
            have p2 : q ≠ [] ∧ (q <:+: tl ∨ tl <:+: q) := ⟨hq, hin⟩
            rw [if_pos h2, if_pos p2]
          · have h2 : ¬ ((includes tl q || includes q tl) = true) := by
              simpa [includes] using hin
            have n2 : ¬ (q ≠ [] ∧ (q <:+: tl ∨ tl <:+: q)) := fun h => hin h.2
            rw [if_neg h2, if_neg n2]
            exact (Nat.max_zero acc).symm
    rw [hstep]
    have hA : (∃ ql ∈ q :: qs, ql ≠ [] ∧ tl = ql) ↔
        (q ≠ [] ∧ tl = q) ∨ ∃ ql ∈ qs, ql ≠ [] ∧ tl = ql := List.exists_mem_cons_iff _ _ _
    have hB : (∃ ql ∈ q :: qs, ql ≠ [] ∧ (ql <:+: tl ∨ tl <:+: ql)) ↔
        (q ≠ [] ∧ (q <:+: tl ∨ tl <:+: q)) ∨ ∃ ql ∈ qs, ql ≠ [] ∧ (ql <:+: tl ∨ tl <:+: ql) :=
      List.exists_mem_cons_iff _ _ _
    rw [if_congr hA rfl (if_congr hB rfl rfl)]
    exact max_tier_merge _ _ _ _ acc

theorem lastScore_eq_surnameBase (B : Builtins) (prof : ParsedProf) (t : Teacher) :
    lastScore B prof t = surnameBase B prof t := by
  unfold lastScore lastNameScore surnameBase tLastNorm
  rw [lastNameScore_foldl]
  simp

theorem lastScore_ne_zero_iff (B : Builtins) (prof : ParsedProf) (t : Teacher) :
    lastScore B prof t ≠ 0 ↔ passesGate B prof t := by
  rw [lastScore_eq_surnameBase]
  unfold surnameBase passesGate
  constructor
  · intro h
    split_ifs at h with h1 h2
    · obtain ⟨ql, hm, hne, he⟩ := h1
      exact ⟨ql, hm, hne, Or.inl he⟩
    · obtain ⟨ql, hm, hne, he⟩ := h2
      exact ⟨ql, hm, hne, Or.inr he⟩
    · exact absurd rfl h
  · rintro ⟨ql, hm, hne, he⟩
    split_ifs with h1 h2
    · decide
    · decide
    · rcases he with he | he
      · exact absurd ⟨ql, hm, hne, he⟩ h1
      · exact absurd ⟨ql, hm, hne, he⟩ h2

theorem passesGate_surnameRelated {B : Builtins} {prof : ParsedProf} {t : Teacher}
    (h : passesGate B prof t) : surnameRelated B prof t := by
  obtain ⟨ql, hm, _, he⟩ := h
  exact ⟨ql, hm, he⟩

/-! ## The message handler -/

theorem httpErrorMessage_text (status : Nat) (text : JSString) :
    JSError.text { name := "Error".toList, message := httpErrorMessage status text } =
      httpErrorMessage status text := by
  simp [JSError.text, httpErrorMessage]

/-- The run of the listener on a well-formed identity, by what the network does. -/
theorem onMessage_valid (B : Builtins) (net : SearchRequest → FetchResult) (msg : Message)
    (prof : ParsedProf) (htype : msg.type = "GET_RMP".toList) (hprof : msg.prof = some prof)
    (hskip : prof.skip = false) (hlast : prof.last.getD [] ≠ []) :
    onMessage B net msg =
      match searchTeacherAtSchool B net (getSchoolIdByName []) (prof.last.getD []) prof with
      | .error err =>
        { responses := [.failure err.text], requests := [searchRequestOf prof], fault := none }
      | .ok none =>
        { responses := [.failure "No teacher match".toList], requests := [searchRequestOf prof],
          fault := none }
      | .ok (some result) =>
        { responses := [.success result.avgRating result.avgDifficulty
            result.wouldTakeAgainPercent result.numRatings result.department
            result.profileUrl result.firstName result.lastName],
          requests := [searchRequestOf prof], fault := none } := by
  have hid : ∀ x, getSchoolIdByName x = getSchoolIdByName [] := fun _ => rfl
  have hne : (getSchoolIdByName []).isEmpty = false := rfl
  have hl : (prof.last.getD []).isEmpty = false := by
    cases h : prof.last.getD [] with
    | nil => exact absurd h hlast
    | cons _ _ => rfl
  unfold onMessage handlerBody
  simp only [htype, hprof, hskip, hl, hid _, hne, searchRequestOf]
  cases h : searchTeacherAtSchool B net (getSchoolIdByName []) (prof.last.getD []) prof with
  | error err => simp [h]
  | ok r => cases r <;> simp [h]

/-! ## The choice among candidates -/

/-- What the outer loop of `pickBestTeacherMatch` computes from `(best, bestScore)`:
either no later teacher beats `bestScore`, or the result is the first teacher whose
score is the greatest. -/
theorem foldl_pickStep (B : Builtins) (prof : ParsedProf) (l : List Teacher)
    (acc : Option Teacher × ℚ) :
    (l.foldl (pickStep B prof) acc = acc ∧
        ∀ t ∈ l, ∀ s, teacherScore B prof t = some s → s ≤ acc.2) ∨
      ∃ pre t post s, l = pre ++ t :: post ∧ l.foldl (pickStep B prof) acc = (some t, s) ∧
        teacherScore B prof t = some s ∧ acc.2 < s ∧
        (∀ x ∈ pre, ∀ sx, teacherScore B prof x = some sx → sx < s) ∧
        (∀ x ∈ post, ∀ sx, teacherScore B prof x = some sx → sx ≤ s) := by
  induction l generalizing acc with
  | nil => exact Or.inl ⟨rfl, by simp⟩
  | cons t l ih =>
    rw [List.foldl_cons]
    cases hs : teacherScore B prof t with
    | none =>
      have hstep : pickStep B prof acc t = acc := by simp [pickStep, hs]
      rw [hstep]
      rcases ih acc with ⟨h1, h2⟩ | ⟨pre, u, post, s, hl, hres, hu, hlt, hpre, hpost⟩
      · refine Or.inl ⟨h1, ?_⟩
        intro x hx sx hsx
        rcases List.mem_cons.1 hx with rfl | hx
        · rw [hs] at hsx; cases hsx
        · exact h2 x hx sx hsx
      · refine Or.inr ⟨t :: pre, u, post, s, by simp [hl], hres, hu, hlt, ?_, hpost⟩
        intro x hx sx hsx
        rcases List.mem_cons.1 hx with rfl | hx
        · rw [hs] at hsx; cases hsx
        · exact hpre x hx sx hsx
    | some st =>
      by_cases hgt : st > acc.2
      · have hstep : pickStep B prof acc t = (some t, st) := by simp [pickStep, hs, hgt]
        rw [hstep]
        rcases ih (some t, st) with ⟨h1, h2⟩ | ⟨pre, u, post, s, hl, hres, hu, hlt, hpre, hpost⟩
        · exact Or.inr ⟨[], t, l, st, rfl, h1, hs, hgt, by simp, h2⟩
        · refine Or.inr ⟨t :: pre, u, post, s, by simp [hl], hres, hu, lt_trans hgt hlt, ?_, hpost⟩
          intro x hx sx hsx
          rcases List.mem_cons.1 hx with rfl | hx
          · rw [hs] at hsx; cases hsx; exact hlt
          · exact hpre x hx sx hsx
      · have hstep : pickStep B prof acc t = acc := by simp [pickStep, hs, hgt]
        rw [hstep]
        have hle : st ≤ acc.2 := not_lt.1 hgt
        rcases ih acc with ⟨h1, h2⟩ | ⟨pre, u, post, s, hl, hres, hu, hlt, hpre, hpost⟩
        · refine Or.inl ⟨h1, ?_⟩
          intro x hx sx hsx
          rcases List.mem_cons.1 hx with rfl | hx
          · rw [hs] at hsx; cases hsx; exact hle
          · exact h2 x hx sx hsx
        · refine Or.inr ⟨t :: pre, u, post, s, by simp [hl], hres, hu, hlt, ?_, hpost⟩
          intro x hx sx hsx
          rcases List.mem_cons.1 hx with rfl | hx
          · rw [hs] at hsx; cases hsx; exact lt_of_le_of_lt hle hlt
          · exact hpre x hx sx hsx

theorem teacherScore_eq_some_iff (B : Builtins) (prof : ParsedProf) (t : Teacher) (s : ℚ) :
    teacherScore B prof t = some s ↔ passesGate B prof t ∧ s = totalScore B prof t := by
  unfold teacherScore totalScore
  rw [← lastScore_ne_zero_iff]
  by_cases h : lastScore B prof t = 0
  · simp [h]
  · simp [h, eq_comm]

theorem pickBestTeacherMatch_eq_foldl (B : Builtins) (edges : List (Option Teacher))
    (prof : ParsedProf) :
    pickBestTeacherMatch B edges prof =
      ((edges.filterMap id).foldl (pickStep B prof) (none, -1)).1 := by
  unfold pickBestTeacherMatch
  cases h : edges.filterMap id with
  | nil => simp
  | cons a l => simp

theorem isEmpty_eq_false_iff_ne {α : Type} (l : List α) : l.isEmpty = false ↔ l ≠ [] := by
  cases l <;> simp

theorem namePoints_eq (B : Builtins) (prof : ParsedProf) (t : Teacher) :
    namePoints B prof t =
      surnameBase B prof t + firstNameBonus B prof t + initialBonus B prof t := by
  unfold namePoints firstNameBonus initialBonus
  rw [lastScore_eq_surnameBase]
  simp only [Bool.and_eq_true, Bool.not_eq_true', isEmpty_eq_false_iff_ne, decide_eq_true_eq,
    and_assoc]
  split_ifs <;> rfl

theorem surnameBase_of_passesGate {B : Builtins} {prof : ParsedProf} {t : Teacher}
    (h : passesGate B prof t) : surnameBase B prof t = 50 ∨ surnameBase B prof t = 35 := by
  have h0 := (lastScore_ne_zero_iff B prof t).2 h
  rw [lastScore_eq_surnameBase] at h0
  unfold surnameBase at h0 ⊢
  split_ifs at h0 ⊢
  · exact Or.inl rfl
  · exact Or.inr rfl
  · exact absurd rfl h0

theorem namePoints_ge_of_passesGate {B : Builtins} {prof : ParsedProf} {t : Teacher}
    (h : passesGate B prof t) : 35 ≤ namePoints B prof t := by
  rw [namePoints_eq]
  rcases surnameBase_of_passesGate h with h1 | h1 <;> omega

theorem mem_filterMap_id {α : Type} (l : List (Option α)) (a : α) :
    a ∈ l.filterMap id ↔ some a ∈ l := by
  simp [List.mem_filterMap]

/-- A returned candidate is one of the edges and passed the surname gate. -/
theorem pickBestTeacherMatch_some (B : Builtins) (edges : List (Option Teacher))
    (prof : ParsedProf) (t : Teacher) (h : pickBestTeacherMatch B edges prof = some t) :
    some t ∈ edges ∧ passesGate B prof t := by
  rw [pickBestTeacherMatch_eq_foldl] at h
  rcases foldl_pickStep B prof (edges.filterMap id) (none, -1) with
    ⟨h1, _⟩ | ⟨pre, u, post, s, hl, hres, hu, _, _, _⟩
  · rw [h1] at h; cases h
  · rw [hres] at h
    obtain rfl : u = t := Option.some.inj h
    exact ⟨(mem_filterMap_id edges u).1 (by rw [hl]; simp),
      ((teacherScore_eq_some_iff B prof u s).1 hu).1⟩

/-- C4: whenever `pickBestTeacherMatch` returns a candidate, the candidate is one of
the edges and its normalized last name equals, contains, or is contained in one of
the normalized surname candidates of `buildLastNameCandidates(identity.last)`; so a
candidate without that relation is never returned, whatever its first name and its
number of ratings. -/
theorem pickBestTeacherMatch_surname_related (B : Builtins) (edges : List (Option Teacher))
    (prof : ParsedProf) (t : Teacher) (h : pickBestTeacherMatch B edges prof = some t) :
    some t ∈ edges ∧ surnameRelated B prof t := by
  rw [pickBestTeacherMatch_eq_foldl] at h
  rcases foldl_pickStep B prof (edges.filterMap id) (none, -1) with
    ⟨h1, _⟩ | ⟨pre, u, post, s, hl, hres, hu, _, _, _⟩
  · rw [h1] at h
    cases h
  · rw [hres] at h
    obtain rfl : u = t := Option.some.inj h
    have hgate : passesGate B prof u := ((teacherScore_eq_some_iff B prof u s).1 hu).1
    obtain ⟨ql, hmem, _, hrel⟩ := hgate
    exact ⟨(mem_filterMap_id edges u).1 (by rw [hl]; simp), ql, hmem, hrel⟩

theorem pickBestTeacherMatch_surname_related_witness :
    some smithJohn ∈ [some jones, none, some smithJohn] ∧
      surnameRelated asciiEngine smithProf smithJohn :=
  pickBestTeacherMatch_surname_related asciiEngine [some jones, none, some smithJohn] smithProf
    smithJohn (by decide)

/-- C5: provided the popularity term never brings a score of 35 points or more down
to -1 or below, `pickBestTeacherMatch` returns `null` exactly when no candidate
passes the surname gate (empty normalized surname candidates are skipped by the
gate); otherwise it returns a gate-passing candidate of the list whose total score is
strictly greater than that of every gate-passing candidate before it and at least
that of every gate-passing candidate after it.  The total score is the surname base
(50 or 35) plus 20 for an equal first name plus 10 for a matching initial, with the
popularity term added. -/
theorem pickBestTeacherMatch_first_maximum (B : Builtins)
    (hpop : ∀ pts n, 35 ≤ pts → -1 < B.addPopularity pts n)
    (edges : List (Option Teacher)) (prof : ParsedProf) :
    (pickBestTeacherMatch B edges prof = none ↔
        ∀ t, some t ∈ edges → ¬ passesGate B prof t) ∧
      (∀ r, pickBestTeacherMatch B edges prof = some r →
        ∃ pre post, edges.filterMap id = pre ++ r :: post ∧ passesGate B prof r ∧
          (∀ x ∈ pre, passesGate B prof x → totalScore B prof x < totalScore B prof r) ∧
          (∀ x ∈ post, passesGate B prof x → totalScore B prof x ≤ totalScore B prof r)) ∧
      (∀ t, passesGate B prof t →
        (surnameBase B prof t = 50 ∨ surnameBase B prof t = 35) ∧
          totalScore B prof t = B.addPopularity
            (surnameBase B prof t + firstNameBonus B prof t + initialBonus B prof t)
            t.numRatings) := by
  have hscore : ∀ t, passesGate B prof t → -1 < totalScore B prof t := fun t ht =>
    hpop _ _ (namePoints_ge_of_passesGate ht)
  refine ⟨?_, ?_, ?_⟩
  · rw [pickBestTeacherMatch_eq_foldl]
    rcases foldl_pickStep B prof (edges.filterMap id) (none, -1) with
      ⟨h1, h2⟩ | ⟨pre, u, post, s, hl, hres, hu, _, _, _⟩
    · rw [h1]
      refine ⟨fun _ t ht hg => ?_, fun _ => rfl⟩
      have := h2 t ((mem_filterMap_id edges t).2 ht) _
        ((teacherScore_eq_some_iff B prof t _).2 ⟨hg, rfl⟩)
      exact absurd (hscore t hg) (not_lt.2 this)
    · rw [hres]
      refine ⟨fun h => Option.noConfusion h, fun h => ?_⟩
      have hmem : some u ∈ edges := (mem_filterMap_id edges u).1 (by rw [hl]; simp)
      exact absurd ((teacherScore_eq_some_iff B prof u s).1 hu).1 (h u hmem)
  · intro r hr
    rw [pickBestTeacherMatch_eq_foldl] at hr
    rcases foldl_pickStep B prof (edges.filterMap id) (none, -1) with
      ⟨h1, _⟩ | ⟨pre, u, post, s, hl, hres, hu, _, hpre, hpost⟩
    · rw [h1] at hr; cases hr
    · rw [hres] at hr
      obtain rfl : u = r := Option.some.inj hr
      obtain ⟨hg, hs⟩ := (teacherScore_eq_some_iff B prof u s).1 hu
      refine ⟨pre, post, hl, hg, ?_, ?_⟩
      · intro x hx hgx
        rw [← hs]
        exact hpre x hx _ ((teacherScore_eq_some_iff B prof x _).2 ⟨hgx, rfl⟩)
      · intro x hx hgx
        rw [← hs]
        exact hpost x hx _ ((teacherScore_eq_some_iff B prof x _).2 ⟨hgx, rfl⟩)
  · intro t ht
    refine ⟨surnameBase_of_passesGate ht, ?_⟩
    unfold totalScore
    rw [namePoints_eq]

theorem samplePopularity_gt (pts n : Nat) : -1 < samplePopularity pts n := by
  unfold samplePopularity
  exact lt_of_lt_of_le (by norm_num) (Nat.cast_nonneg _)

theorem pickBestTeacherMatch_first_maximum_witness :
    (pickBestTeacherMatch asciiEngine [some jones, some smithJane, some smithJohn] smithProf = none ↔
        ∀ t, some t ∈ [some jones, some smithJane, some smithJohn] →
          ¬ passesGate asciiEngine smithProf t) ∧
      (∀ r, pickBestTeacherMatch asciiEngine [some jones, some smithJane, some smithJohn]
          smithProf = some r →
        ∃ pre post, [some jones, some smithJane, some smithJohn].filterMap id = pre ++ r :: post ∧
          passesGate asciiEngine smithProf r ∧
          (∀ x ∈ pre, passesGate asciiEngine smithProf x →
            totalScore asciiEngine smithProf x < totalScore asciiEngine smithProf r) ∧
          (∀ x ∈ post, passesGate asciiEngine smithProf x →
            totalScore asciiEngine smithProf x ≤ totalScore asciiEngine smithProf r)) ∧
      (∀ t, passesGate asciiEngine smithProf t →
        (surnameBase asciiEngine smithProf t = 50 ∨ surnameBase asciiEngine smithProf t = 35) ∧
          totalScore asciiEngine smithProf t = asciiEngine.addPopularity
            (surnameBase asciiEngine smithProf t + firstNameBonus asciiEngine smithProf t +
              initialBonus asciiEngine smithProf t) t.numRatings) :=
  pickBestTeacherMatch_first_maximum asciiEngine (fun pts n _ => samplePopularity_gt pts n)
    [some jones, some smithJane, some smithJohn] smithProf

theorem searchTeacherAtSchool_edges (B : Builtins) (net : SearchRequest → FetchResult)
    (prof : ParsedProf) (es : List (Option Teacher))
    (hnet : net (searchRequestOf prof) = .json (.edges es))
    (hnone : pickBestTeacherMatch B es prof = none) :
    searchTeacherAtSchool B net (getSchoolIdByName []) (prof.last.getD []) prof = .ok none := by
  unfold searchTeacherAtSchool gqlRequest
  unfold searchRequestOf at hnet
  rw [hnet]
  simp only [hnone]

/-- The run of the listener on an identity it rejects. -/
theorem onMessage_bad (B : Builtins) (net : SearchRequest → FetchResult)
    (msg : Message) (htype : msg.type = "GET_RMP".toList)
    (hbad : msg.prof = none ∨ ∃ prof, msg.prof = some prof ∧
      (prof.skip = true ∨ prof.last = none ∨ prof.last = some [])) :
    (onMessage B net msg).responses = [.failure "Bad professor name".toList] ∧
      (onMessage B net msg).requests = [] := by
  rcases hbad with h | ⟨prof, h, hp⟩
  · simp [onMessage, handlerBody, htype, h]
  · rcases hp with hp | hp | hp <;> simp [onMessage, handlerBody, htype, h, hp]

/-- C7: for every `GET_RMP` message whose `prof` is missing, has `skip` true, or has
a missing or empty `last`, the handler responds `{ok: false, error: "Bad professor
name"}` and issues no search request. -/
theorem bad_professor_fails_fast (B : Builtins) (net : SearchRequest → FetchResult)
    (msg : Message) (htype : msg.type = "GET_RMP".toList)
    (hbad : msg.prof = none ∨ ∃ prof, msg.prof = some prof ∧
      (prof.skip = true ∨ prof.last = none ∨ prof.last = some [])) :
    (onMessage B net msg).responses = [.failure "Bad professor name".toList] ∧
      (onMessage B net msg).requests = [] := by
  unfold onMessage handlerBody
  rcases hbad with h | ⟨prof, h, hp⟩
  · simp [htype, h]
  · rcases hp with hp | hp | hp <;> simp [htype, h, hp]

theorem bad_professor_fails_fast_witness :
    (onMessage asciiEngine (fun _ => .json (.edges [some jones]))
        { smithMessage with prof := some { smithProf with last := some [] } }).responses
        = [.failure "Bad professor name".toList] ∧
      (onMessage asciiEngine (fun _ => .json (.edges [some jones]))
        { smithMessage with prof := some { smithProf with last := some [] } }).requests = [] :=
  bad_professor_fails_fast asciiEngine _ _ rfl (Or.inr ⟨_, rfl, Or.inr (Or.inr rfl)⟩)

/-- C8: for every `GET_RMP` message and everything the external request can do, the
handler calls `sendResponse` exactly once and no fault leaves it; when the identity is
well formed and the request fails in transport or with a non-success status, the one
response is `{ok: false, error: <message>}` with the error's message. -/
theorem handler_responds_once (B : Builtins) (net : SearchRequest → FetchResult)
    (msg : Message) (htype : msg.type = "GET_RMP".toList) :
    (∃ r, (onMessage B net msg).responses = [r]) ∧ (onMessage B net msg).fault = none ∧
      ∀ prof, msg.prof = some prof → prof.skip = false → prof.last.getD [] ≠ [] →
        (∀ err, net (searchRequestOf prof) = .rejected err →
          (onMessage B net msg).responses = [.failure err.text]) ∧
        (∀ status text, net (searchRequestOf prof) = .httpError status text →
          (onMessage B net msg).responses = [.failure (httpErrorMessage status text)]) := by
  have hvalid : ∀ prof, msg.prof = some prof → prof.skip = false → prof.last.getD [] ≠ [] →
      _ := fun prof h1 h2 h3 => onMessage_valid B net msg prof htype h1 h2 h3
  refine ⟨?_, ?_, ?_⟩
  · cases hp : msg.prof with
    | none => exact ⟨_, (onMessage_bad B net msg htype (Or.inl hp)).1⟩
    | some prof =>
      by_cases hskip : prof.skip = true
      · exact ⟨_, (onMessage_bad B net msg htype
          (Or.inr ⟨prof, hp, Or.inl hskip⟩)).1⟩
      · by_cases hlast : prof.last.getD [] = []
        · refine ⟨_, (onMessage_bad B net msg htype
            (Or.inr ⟨prof, hp, Or.inr ?_⟩)).1⟩
          cases hl : prof.last with
          | none => exact Or.inl rfl
          | some l =>
            rw [hl] at hlast
            exact Or.inr (congrArg some hlast)
        · rw [hvalid prof hp (by simpa using hskip) hlast]
          cases searchTeacherAtSchool B net (getSchoolIdByName []) (prof.last.getD []) prof with
          | error err => exact ⟨_, rfl⟩
          | ok r => cases r <;> exact ⟨_, rfl⟩
  · cases hp : msg.prof with
    | none => simp [onMessage, handlerBody, htype, hp]
    | some prof =>
      unfold onMessage
      cases hf : (handlerBody B net msg).fault <;> simp [hf]
  · intro prof hp hskip hlast
    rw [hvalid prof hp hskip hlast]
    constructor
    · intro err hnet
      have : searchTeacherAtSchool B net (getSchoolIdByName []) (prof.last.getD []) prof
          = .error err := by
        unfold searchTeacherAtSchool gqlRequest
        unfold searchRequestOf at hnet
        rw [hnet]
      rw [this]
    · intro status text hnet
      have : searchTeacherAtSchool B net (getSchoolIdByName []) (prof.last.getD []) prof
          = .error { name := "Error".toList, message := httpErrorMessage status text } := by
        unfold searchTeacherAtSchool gqlRequest
        unfold searchRequestOf at hnet
        rw [hnet]
      rw [this]
      simp only [httpErrorMessage_text]

theorem handler_responds_once_witness :
    (∃ r, (onMessage asciiEngine (fun _ => .httpError 503 "busy".toList) smithMessage).responses
        = [r]) ∧
      (onMessage asciiEngine (fun _ => .httpError 503 "busy".toList) smithMessage).fault = none ∧
      ∀ prof, smithMessage.prof = some prof → prof.skip = false → prof.last.getD [] ≠ [] →
        (∀ err, (fun _ => FetchResult.httpError 503 "busy".toList) (searchRequestOf prof)
            = .rejected err →
          (onMessage asciiEngine (fun _ => .httpError 503 "busy".toList) smithMessage).responses
            = [.failure err.text]) ∧
        (∀ status text, (fun _ => FetchResult.httpError 503 "busy".toList) (searchRequestOf prof)
            = .httpError status text →
          (onMessage asciiEngine (fun _ => .httpError 503 "busy".toList) smithMessage).responses
            = [.failure (httpErrorMessage status text)]) :=
  handler_responds_once asciiEngine (fun _ => .httpError 503 "busy".toList) smithMessage rfl

/-- C9 (as stated, refuted): for the valid identity `smithProf`, a search that returns
no record and a search that returns one record failing the surname gate get the same
response from the handler. -/
theorem no_candidates_same_as_no_relevant_match :
    pickBestTeacherMatch asciiEngine [some jones] smithProf = none ∧
      lastScore asciiEngine smithProf jones = 0 ∧
      (onMessage asciiEngine (fun _ => .json (.edges [])) smithMessage).responses =
        (onMessage asciiEngine (fun _ => .json (.edges [some jones])) smithMessage).responses := by
  decide

/-- C9 (amended): for a valid identity, when the search returns records none of which
passes the surname gate, or no record at all, the handler responds `{ok: false, error:
"No teacher match"}` in both cases. -/
theorem no_match_response (B : Builtins) (net : SearchRequest → FetchResult) (msg : Message)
    (prof : ParsedProf) (es : List (Option Teacher)) (htype : msg.type = "GET_RMP".toList)
    (hprof : msg.prof = some prof) (hskip : prof.skip = false) (hlast : prof.last.getD [] ≠ [])
    (hnet : net (searchRequestOf prof) = .json (.edges es))
    (hgate : ∀ t, some t ∈ es → ¬ passesGate B prof t) :
    (onMessage B net msg).responses = [.failure "No teacher match".toList] := by
  have hnone : pickBestTeacherMatch B es prof = none := by
    cases h : pickBestTeacherMatch B es prof with
    | none => rfl
    | some t =>
      obtain ⟨hm, hg⟩ := pickBestTeacherMatch_some B es prof t h
      exact absurd hg (hgate t hm)
  rw [onMessage_valid B net msg prof htype hprof hskip hlast,
    searchTeacherAtSchool_edges B net prof es hnet hnone]

theorem no_match_response_witness :
    (onMessage asciiEngine (fun _ => .json (.edges [some jones])) smithMessage).responses =
      [.failure "No teacher match".toList] :=
  no_match_response asciiEngine _ smithMessage smithProf [some jones] rfl rfl rfl (by decide) rfl
    (by
      intro t ht
      have : t = jones := by simpa using ht
      subst this
      rw [← lastScore_ne_zero_iff]
      decide)

/-! ## The session cache -/

theorem Session.WellFormed.empty : Session.empty.WellFormed where
  callback_pending := by intro p k h; simp [Session.empty] at h
  unsettled_pending := by intro p h; simp [Session.empty] at h
  sent_nodup := by simp [Session.empty]
  sent_known := by intro k h; simp [Session.empty] at h
  settled_cached := by intro p k r h; simp [Session.empty] at h
  inFlight_known := by intro k p h; simp [Session.empty] at h
  fresh := by intro p _; simp [Session.empty]

theorem requestRatingCached_cached (B : Builtins) (s : Session) (prof : ParsedProf)
    (env : CallEnv) (r : Option Response) (h : s.rmpCache (profKey B prof) = some r) :
    requestRatingCached B s prof env = (.resolved r, s) := by
  simp [requestRatingCached, h]

theorem requestRatingCached_inFlight (B : Builtins) (s : Session) (prof : ParsedProf)
    (env : CallEnv) (p : Nat) (h : s.rmpCache (profKey B prof) = none)
    (hf : s.inFlight (profKey B prof) = some p) :
    requestRatingCached B s prof env = (.promise p, s) := by
  simp [requestRatingCached, h, hf]

/-- A key that is neither cached nor in flight has no registered callback and was
never sent. -/
theorem Session.WellFormed.not_sent {s : Session} (h : s.WellFormed) {key : JSString}
    (hc : s.rmpCache key = none) (hf : s.inFlight key = none) :
    (∀ p, (p, key) ∉ s.callbacks) ∧ key ∉ s.sendCalls.map Prod.fst := by
  have h1 : ∀ p, (p, key) ∉ s.callbacks := by
    intro p hp
    have := (h.callback_pending p key hp).2.1
    rw [hf] at this
    cases this
  refine ⟨h1, fun hk => ?_⟩
  rcases h.sent_known key hk with h2 | ⟨p, hp⟩
  · exact h2 hc
  · exact h1 p hp

/-- The short-circuit taken when the runtime id is absent, and the path on which
`sendMessage` throws, keep the invariant. -/
theorem Session.WellFormed.complete_fresh {s s' : Session} (h : s.WellFormed) (key : JSString)
    (resp : Option Response) (sent : List (JSString × ParsedProf))
    (hc : s.rmpCache key = none) (hf : s.inFlight key = none)
    (hsent : sent = [] ∨ ∃ prof, sent = [(key, prof)])
    (e1 : ∀ k, s'.rmpCache k = if k = key then some resp else s.rmpCache k)
    (e2 : ∀ k, s'.inFlight k = if k = key then some s.nextPromise else s.inFlight k)
    (e3 : s'.nextPromise = s.nextPromise + 1)
    (e4 : ∀ q, s'.keyOf q = if q = s.nextPromise then some key else s.keyOf q)
    (e5 : ∀ q, s'.settled q = if q = s.nextPromise then some resp else s.settled q)
    (e6 : s'.sendCalls = sent ++ s.sendCalls)
    (e7 : s'.callbacks = s.callbacks) : s'.WellFormed := by
  obtain ⟨hnocb, hnosent⟩ := h.not_sent hc hf
  have hmem : ∀ k, k ∈ s'.sendCalls.map Prod.fst ↔
      (k = key ∧ sent ≠ []) ∨ k ∈ s.sendCalls.map Prod.fst := by
    intro k
    rw [e6, List.map_append, List.mem_append]
    rcases hsent with rfl | ⟨prof, rfl⟩
    · constructor
      · rintro (h1 | h1)
        · cases h1
        · exact Or.inr h1
      · rintro (⟨_, h1⟩ | h1)
        · exact absurd rfl h1
        · exact Or.inr h1
    · constructor
      · rintro (h1 | h1)
        · rw [List.map_singleton, List.mem_singleton] at h1
          exact Or.inl ⟨h1, List.cons_ne_nil _ _⟩
        · exact Or.inr h1
      · rintro (⟨h1, _⟩ | h1)
        · left
          rw [List.map_singleton, List.mem_singleton]
          exact h1
        · exact Or.inr h1
  constructor
  · intro p k hp
    rw [e7] at hp
    obtain ⟨h1, h2, h3, h4, h5, h6⟩ := h.callback_pending p k hp
    have hk : k ≠ key := fun e => hnocb p (e ▸ hp)
    have hpn : p ≠ s.nextPromise := Nat.ne_of_lt h5
    rw [e1, e2, e3, e4, e5, if_neg hk, if_neg hk, if_neg hpn, if_neg hpn]
    exact ⟨h1, h2, h3, h4, Nat.lt_succ_of_lt h5, (hmem k).2 (Or.inr h6)⟩
  · intro p hp hs
    rw [e3] at hp
    rw [e5] at hs
    rw [e7]
    by_cases hpn : p = s.nextPromise
    · rw [if_pos hpn] at hs
      cases hs
    · rw [if_neg hpn] at hs
      exact h.unsettled_pending p (by omega) hs
  · rw [e6]
    rcases hsent with rfl | ⟨prof, rfl⟩
    · exact h.sent_nodup
    · rw [List.singleton_append, List.map_cons, List.nodup_cons]
      exact ⟨hnosent, h.sent_nodup⟩
  · intro k hk
    rw [e1, e7]
    rcases (hmem k).1 hk with ⟨rfl, _⟩ | hk
    · left
      rw [if_pos rfl]
      exact Option.some_ne_none _
    · rcases h.sent_known k hk with h1 | h1
      · left
        by_cases e : k = key
        · rw [if_pos e]
          exact Option.some_ne_none _
        · rw [if_neg e]
          exact h1
      · exact Or.inr h1
  · intro p k r hk hs
    rw [e4] at hk
    rw [e5] at hs
    rw [e1]
    by_cases hpn : p = s.nextPromise
    · rw [if_pos hpn] at hk hs
      cases hk
      cases hs
      rw [if_pos rfl]
    · rw [if_neg hpn] at hk hs
      have := h.settled_cached p k r hk hs
      have hkk : k ≠ key := by
        intro e
        rw [e, hc] at this
        cases this
      rw [if_neg hkk]
      exact this
  · intro k p hk
    rw [e2] at hk
    rw [e3, e4]
    by_cases e : k = key
    · rw [if_pos e] at hk
      cases hk
      rw [if_pos rfl, e]
      exact ⟨Nat.lt_succ_self _, rfl⟩
    · rw [if_neg e] at hk
      obtain ⟨h1, h2⟩ := h.inFlight_known k p hk
      rw [if_neg (Nat.ne_of_lt h1)]
      exact ⟨Nat.lt_succ_of_lt h1, h2⟩
  · intro p hp
    rw [e3] at hp
    have hpn : p ≠ s.nextPromise := by omega
    rw [e4, e5, if_neg hpn, if_neg hpn]
    exact h.fresh p (by omega)

/-- Registering a callback for a fresh key keeps the invariant. -/
theorem Session.WellFormed.send_fresh {s s' : Session} (h : s.WellFormed) (key : JSString)
    (prof : ParsedProf)
    (hc : s.rmpCache key = none) (hf : s.inFlight key = none)
    (e1 : s'.rmpCache = s.rmpCache)
    (e2 : ∀ k, s'.inFlight k = if k = key then some s.nextPromise else s.inFlight k)
    (e3 : s'.nextPromise = s.nextPromise + 1)
    (e4 : ∀ q, s'.keyOf q = if q = s.nextPromise then some key else s.keyOf q)
    (e5 : s'.settled = s.settled)
    (e6 : s'.sendCalls = (key, prof) :: s.sendCalls)
    (e7 : s'.callbacks = (s.nextPromise, key) :: s.callbacks) : s'.WellFormed := by
  obtain ⟨hnocb, hnosent⟩ := h.not_sent hc hf
  obtain ⟨hfs, hfk⟩ := h.fresh s.nextPromise (Nat.le_refl _)
  constructor
  · intro p k hp
    rw [e7, List.mem_cons] at hp
    rw [e1, e2, e3, e4, e5, e6, List.map_cons, List.mem_cons]
    rcases hp with hp | hp
    · cases hp
      rw [if_pos rfl, if_pos rfl]
      exact ⟨hc, rfl, hfs, rfl, Nat.lt_succ_self _, Or.inl rfl⟩
    · obtain ⟨h1, h2, h3, h4, h5, h6⟩ := h.callback_pending p k hp
      have hk : k ≠ key := fun e => hnocb p (e ▸ hp)
      have hpn : p ≠ s.nextPromise := Nat.ne_of_lt h5
      rw [if_neg hk, if_neg hpn]
      exact ⟨h1, h2, h3, h4, Nat.lt_succ_of_lt h5, Or.inr h6⟩
  · intro p hp hs
    rw [e3] at hp
    rw [e5] at hs
    rw [e7]
    by_cases hpn : p = s.nextPromise
    · exact ⟨key, by rw [hpn]; exact List.mem_cons_self _ _⟩
    · obtain ⟨k, hk⟩ := h.unsettled_pending p (by omega) hs
      exact ⟨k, List.mem_cons_of_mem _ hk⟩
  · rw [e6, List.map_cons, List.nodup_cons]
    exact ⟨hnosent, h.sent_nodup⟩
  · intro k hk
    rw [e6, List.map_cons, List.mem_cons] at hk
    rw [e1, e7]
    rcases hk with hk | hk
    · exact Or.inr ⟨s.nextPromise, by rw [hk]; exact List.mem_cons_self _ _⟩
    · rcases h.sent_known k hk with h1 | ⟨p, h1⟩
      · exact Or.inl h1
      · exact Or.inr ⟨p, List.mem_cons_of_mem _ h1⟩
  · intro p k r hk hs
    rw [e4] at hk
    rw [e5] at hs
    rw [e1]
    by_cases hpn : p = s.nextPromise
    · rw [hpn, hfs] at hs
      cases hs
    · rw [if_neg hpn] at hk
      exact h.settled_cached p k r hk hs
  · intro k p hk
    rw [e2] at hk
    rw [e3, e4]
    by_cases e : k = key
    · rw [if_pos e] at hk
      cases hk
      rw [if_pos rfl, e]
      exact ⟨Nat.lt_succ_self _, rfl⟩
    · rw [if_neg e] at hk
      obtain ⟨h1, h2⟩ := h.inFlight_known k p hk
      rw [if_neg (Nat.ne_of_lt h1)]
      exact ⟨Nat.lt_succ_of_lt h1, h2⟩
  · intro p hp
    rw [e3] at hp
    have hpn : p ≠ s.nextPromise := by omega
    rw [e4, e5, if_neg hpn]
    exact h.fresh p (by omega)

/-- The state and the promise of a call for a key that is neither cached nor in
flight. -/
theorem requestRatingCached_fresh (B : Builtins) (s : Session) (prof : ParsedProf)
    (env : CallEnv) (hc : s.rmpCache (profKey B prof) = none)
    (hf : s.inFlight (profKey B prof) = none) :
    (requestRatingCached B s prof env).1 = .promise s.nextPromise ∧
      (requestRatingCached B s prof env).2.nextPromise = s.nextPromise + 1 ∧
      (∀ k, (requestRatingCached B s prof env).2.inFlight k =
        if k = profKey B prof then some s.nextPromise else s.inFlight k) ∧
      (∀ q, (requestRatingCached B s prof env).2.keyOf q =
        if q = s.nextPromise then some (profKey B prof) else s.keyOf q) := by
  unfold requestRatingCached
  simp only [hc, hf]
  refine ⟨trivial, ?_, ?_, ?_⟩
  · cases env.runtimeId <;> cases env.sendThrows <;> rfl
  · intro k
    cases env.runtimeId <;> cases env.sendThrows <;>
      by_cases hk : k = profKey B prof <;> simp [Session.complete, JSMap.set, JSMap.delete, hk]
  · intro q
    cases env.runtimeId <;> cases env.sendThrows <;> rfl

theorem requestRatingCached_wellFormed (B : Builtins) (s : Session) (prof : ParsedProf)
    (env : CallEnv) (h : s.WellFormed) : (requestRatingCached B s prof env).2.WellFormed := by
  cases hc : s.rmpCache (profKey B prof) with
  | some r => rw [requestRatingCached_cached B s prof env r hc]; exact h
  | none =>
    cases hf : s.inFlight (profKey B prof) with
    | some p => rw [requestRatingCached_inFlight B s prof env p hc hf]; exact h
    | none =>
      obtain ⟨-, e3, e2, e4⟩ := requestRatingCached_fresh B s prof env hc hf
      have hfs := (h.fresh s.nextPromise (Nat.le_refl _)).1
      cases hid : env.runtimeId with
      | false =>
        refine h.complete_fresh (profKey B prof)
          (some (.failure "Extension context invalidated".toList)) [] hc hf (Or.inl rfl)
          ?_ e2 e3 e4 ?_ ?_ ?_
        · intro k
          simp [requestRatingCached, hc, hf, hid, Session.complete, JSMap.set]
        · intro q
          simp [requestRatingCached, hc, hf, hid, Session.complete, hfs]
        · simp [requestRatingCached, hc, hf, hid, Session.complete]
        · simp [requestRatingCached, hc, hf, hid, Session.complete]
      | true =>
        cases hth : env.sendThrows with
        | some e =>
          refine h.complete_fresh (profKey B prof) (some (.failure e.text))
            [(profKey B prof, prof)] hc hf (Or.inr ⟨prof, rfl⟩) ?_ e2 e3 e4 ?_ ?_ ?_
          · intro k
            simp [requestRatingCached, hc, hf, hid, hth, Session.complete, JSMap.set]
          · intro q
            simp [requestRatingCached, hc, hf, hid, hth, Session.complete, hfs]
          · simp [requestRatingCached, hc, hf, hid, hth, Session.complete]
          · simp [requestRatingCached, hc, hf, hid, hth, Session.complete]
        | none =>
          refine h.send_fresh (profKey B prof) prof hc hf ?_ e2 e3 e4 ?_ ?_ ?_
          · simp [requestRatingCached, hc, hf, hid, hth]
          · simp [requestRatingCached, hc, hf, hid, hth]
          · simp [requestRatingCached, hc, hf, hid, hth]
          · simp [requestRatingCached, hc, hf, hid, hth]

/-- Running the message callback of a registered promise keeps the invariant. -/
theorem Session.WellFormed.reply_pending {s s' : Session} (h : s.WellFormed) (p : Nat)
    (key : JSString) (resp : Option Response) (hcb : (p, key) ∈ s.callbacks)
    (e1 : ∀ k, s'.rmpCache k = if k = key then some resp else s.rmpCache k)
    (e2 : ∀ k, s'.inFlight k = if k = key then none else s.inFlight k)
    (e3 : s'.nextPromise = s.nextPromise)
    (e4 : s'.keyOf = s.keyOf)
    (e5 : ∀ q, s'.settled q = if q = p then some resp else s.settled q)
    (e6 : s'.sendCalls = s.sendCalls)
    (e7 : ∀ cb, cb ∈ s'.callbacks ↔ cb ∈ s.callbacks ∧ cb.1 ≠ p) : s'.WellFormed := by
  obtain ⟨c1, c2, c3, c4, c5, c6⟩ := h.callback_pending p key hcb
  constructor
  · intro q k hq
    obtain ⟨hq, hqp⟩ := (e7 (q, k)).1 hq
    obtain ⟨h1, h2, h3, h4, h5, h6⟩ := h.callback_pending q k hq
    have hk : k ≠ key := by
      intro e
      rw [e, c2] at h2
      exact hqp (Option.some.inj h2).symm
    rw [e1, e2, e3, e4, e5, e6, if_neg hk, if_neg hk, if_neg hqp]
    exact ⟨h1, h2, h3, h4, h5, h6⟩
  · intro q hq hs
    rw [e3] at hq
    rw [e5] at hs
    by_cases hqp : q = p
    · rw [if_pos hqp] at hs
      cases hs
    · rw [if_neg hqp] at hs
      obtain ⟨k, hk⟩ := h.unsettled_pending q hq hs
      exact ⟨k, (e7 (q, k)).2 ⟨hk, hqp⟩⟩
  · rw [e6]
    exact h.sent_nodup
  · intro k hk
    rw [e6] at hk
    rw [e1]
    by_cases e : k = key
    · left
      rw [if_pos e]
      exact Option.some_ne_none _
    · rw [if_neg e]
      rcases h.sent_known k hk with h1 | ⟨q, h1⟩
      · exact Or.inl h1
      · right
        refine ⟨q, (e7 (q, k)).2 ⟨h1, ?_⟩⟩
        intro hqp
        have := (h.callback_pending q k h1).2.2.2.1
        rw [show q = p from hqp, c4] at this
        exact e (Option.some.inj this).symm
  · intro q k r hk hs
    rw [e4] at hk
    rw [e5] at hs
    rw [e1]
    by_cases hqp : q = p
    · rw [if_pos hqp] at hs
      rw [hqp, c4] at hk
      cases hk
      cases hs
      rw [if_pos rfl]
    · rw [if_neg hqp] at hs
      have := h.settled_cached q k r hk hs
      have hkk : k ≠ key := by
        intro e
        rw [e, c1] at this
        cases this
      rw [if_neg hkk]
      exact this
  · intro k q hk
    rw [e2] at hk
    rw [e3, e4]
    by_cases e : k = key
    · rw [if_pos e] at hk
      cases hk
    · rw [if_neg e] at hk
      exact h.inFlight_known k q hk
  · intro q hq
    rw [e3] at hq
    have hqp : q ≠ p := by omega
    rw [e4, e5, if_neg hqp]
    exact h.fresh q hq

/-- The callback found for promise `p` is a registered callback of `p`. -/
theorem find_callback {s : Session} {p : Nat} {cb : Nat × JSString}
    (h : s.callbacks.find? (fun cb => cb.1 == p) = some cb) :
    cb.1 = p ∧ cb ∈ s.callbacks := by
  have h1 := List.find?_some h
  exact ⟨by simpa using h1, List.mem_of_find?_eq_some h⟩

theorem messageCallback_wellFormed (s : Session) (p : Nat) (resp : Option Response)
    (lastError : Option JSString) (h : s.WellFormed) :
    (messageCallback s p resp lastError).WellFormed := by
  unfold messageCallback
  cases hfind : s.callbacks.find? (fun cb => cb.1 == p) with
  | none => exact h
  | some cb =>
    obtain ⟨q, key⟩ := cb
    obtain ⟨hq, hmem⟩ := find_callback hfind
    simp only at hq
    subst hq
    have hs := (h.callback_pending q key hmem).2.2.1
    refine h.reply_pending q key (finalResp resp lastError) hmem ?_ ?_ rfl rfl ?_ rfl ?_
    · intro k
      simp [Session.complete, JSMap.set]
    · intro k
      simp [Session.complete, JSMap.delete]
    · intro r
      simp [Session.complete, hs]
    · intro cb
      simp [Session.complete, List.mem_filter]

theorem Session.step_wellFormed (B : Builtins) (s : Session) (e : Event) (h : s.WellFormed) :
    (s.step B e).WellFormed := by
  cases e with
  | request prof env => exact requestRatingCached_wellFormed B s prof env h
  | reply p resp lastError => exact messageCallback_wellFormed s p resp lastError h

theorem Session.run_wellFormed (B : Builtins) (evs : List Event) (s : Session)
    (h : s.WellFormed) : (s.run B evs).WellFormed := by
  induction evs generalizing s with
  | nil => exact h
  | cons e evs ih => exact ih _ (Session.step_wellFormed B s e h)

/-- A cached value is never replaced. -/
theorem Session.step_rmpCache (B : Builtins) (s : Session) (e : Event) (h : s.WellFormed)
    (key : JSString) (r : Option Response) (hc : s.rmpCache key = some r) :
    (s.step B e).rmpCache key = some r := by
  cases e with
  | request prof env =>
    show (requestRatingCached B s prof env).2.rmpCache key = some r
    cases hc' : s.rmpCache (profKey B prof) with
    | some r' => rw [requestRatingCached_cached B s prof env r' hc']; exact hc
    | none =>
      have hk : key ≠ profKey B prof := by
        intro e
        rw [e, hc'] at hc
        cases hc
      cases hf : s.inFlight (profKey B prof) with
      | some p => rw [requestRatingCached_inFlight B s prof env p hc' hf]; exact hc
      | none =>
        unfold requestRatingCached
        simp only [hc', hf]
        cases env.runtimeId <;> cases env.sendThrows <;>
          simp [Session.complete, JSMap.set, hk, hc]
  | reply p resp lastError =>
    show (messageCallback s p resp lastError).rmpCache key = some r
    unfold messageCallback
    cases hfind : s.callbacks.find? (fun cb => cb.1 == p) with
    | none => exact hc
    | some cb =>
      obtain ⟨q, k⟩ := cb
      obtain ⟨_, hmem⟩ := find_callback hfind
      have hk : key ≠ k := by
        intro e
        rw [e, (h.callback_pending q k hmem).1] at hc
        cases hc
      simp [Session.complete, JSMap.set, hk, hc]

theorem Session.run_rmpCache (B : Builtins) (evs : List Event) (s : Session)
    (h : s.WellFormed) (key : JSString) (r : Option Response) (hc : s.rmpCache key = some r) :
    (s.run B evs).rmpCache key = some r := by
  induction evs generalizing s with
  | nil => exact hc
  | cons e evs ih =>
    exact ih _ (Session.step_wellFormed B s e h) (Session.step_rmpCache B s e h key r hc)

/-- The key of a promise never changes, and promise identities are not reused. -/
theorem Session.step_keyOf (B : Builtins) (s : Session) (e : Event) (h : s.WellFormed)
    (p : Nat) (key : JSString) (hk : s.keyOf p = some key) :
    (s.step B e).keyOf p = some key := by
  have hp : p < s.nextPromise := by
    by_contra hge
    rw [(h.fresh p (Nat.le_of_not_lt hge)).2] at hk
    cases hk
  cases e with
  | request prof env =>
    show (requestRatingCached B s prof env).2.keyOf p = some key
    cases hc' : s.rmpCache (profKey B prof) with
    | some r' => rw [requestRatingCached_cached B s prof env r' hc']; exact hk
    | none =>
      cases hf : s.inFlight (profKey B prof) with
      | some q => rw [requestRatingCached_inFlight B s prof env q hc' hf]; exact hk
      | none =>
        rw [(requestRatingCached_fresh B s prof env hc' hf).2.2.2 p, if_neg (Nat.ne_of_lt hp)]
        exact hk
  | reply q resp lastError =>
    show (messageCallback s q resp lastError).keyOf p = some key
    unfold messageCallback
    cases hfind : s.callbacks.find? (fun cb => cb.1 == q) with
    | none => exact hk
    | some cb => exact hk

theorem Session.run_keyOf (B : Builtins) (evs : List Event) (s : Session)
    (h : s.WellFormed) (p : Nat) (key : JSString) (hk : s.keyOf p = some key) :
    (s.run B evs).keyOf p = some key := by
  induction evs generalizing s with
  | nil => exact hk
  | cons e evs ih =>
    exact ih _ (Session.step_wellFormed B s e h) (Session.step_keyOf B s e h p key hk)

/-- The callback found for a promise with a registered callback is that callback. -/
theorem Session.WellFormed.find_callback_of_mem {s : Session} (h : s.WellFormed) {p : Nat}
    {key : JSString} (hcb : (p, key) ∈ s.callbacks) :
    s.callbacks.find? (fun cb => cb.1 == p) = some (p, key) := by
  cases hfind : s.callbacks.find? (fun cb => cb.1 == p) with
  | none =>
    have := List.find?_eq_none.1 hfind (p, key) hcb
    simp at this
  | some cb =>
    obtain ⟨q, k⟩ := cb
    obtain ⟨hq, hmem⟩ := find_callback hfind
    simp only at hq
    subst hq
    have h1 := (h.callback_pending q k hmem).2.2.2.1
    have h2 := (h.callback_pending q key hcb).2.2.2.1
    rw [h1] at h2
    rw [Option.some.inj h2]

/-- The state after the message callback of a registered promise. -/
theorem messageCallback_pending {s : Session} (h : s.WellFormed) {p : Nat} {key : JSString}
    (hcb : (p, key) ∈ s.callbacks) (resp : Option Response) (lastError : Option JSString) :
    (messageCallback s p resp lastError).rmpCache key = some (finalResp resp lastError) ∧
      (messageCallback s p resp lastError).settled p = some (finalResp resp lastError) := by
  unfold messageCallback
  rw [h.find_callback_of_mem hcb]
  simp [Session.complete, JSMap.set, (h.callback_pending p key hcb).2.2.1]

/-- A completing event stores its response in the cache. -/
theorem Completes.cached {B : Builtins} {s : Session} {e : Event} {key : JSString}
    {r : Option Response} (h : s.WellFormed) (hdone : Completes B s e key r) :
    (s.step B e).rmpCache key = some r := by
  cases hdone with
  | invalidated prof env hcache hflight hid =>
    show (requestRatingCached B s prof env).2.rmpCache _ = _
    simp [requestRatingCached, hcache, hflight, hid, Session.complete, JSMap.set]
  | threw prof env err hcache hflight hid hthrow =>
    show (requestRatingCached B s prof env).2.rmpCache _ = _
    simp [requestRatingCached, hcache, hflight, hid, hthrow, Session.complete, JSMap.set]
  | lastError p _ resp message hcb =>
    exact (messageCallback_pending h hcb resp (some message)).1
  | replied p _ _ hcb =>
    exact (messageCallback_pending h hcb r none).1

/-- When no key was sent twice, a key was sent at most once, and once if at all. -/
theorem sendCount_of_nodup (s : Session) (key : JSString)
    (h : (s.sendCalls.map Prod.fst).Nodup) :
    s.sendCount key ≤ 1 ∧ (key ∈ s.sendCalls.map Prod.fst → s.sendCount key = 1) := by
  unfold Session.sendCount
  generalize s.sendCalls = l at h
  induction l with
  | nil => exact ⟨Nat.zero_le _, fun hm => absurd hm (List.not_mem_nil _)⟩
  | cons c l ih =>
    rw [List.map_cons, List.nodup_cons] at h
    obtain ⟨ih1, ih2⟩ := ih h.2
    by_cases hc : c.1 = key
    · have hnot : key ∉ l.map Prod.fst := hc ▸ h.1
      have hzero : (l.filter fun call => decide (call.1 = key)).length = 0 := by
        rw [List.length_eq_zero, List.filter_eq_nil_iff]
        intro a ha hd
        exact hnot (List.mem_map.2 ⟨a, ha, of_decide_eq_true hd⟩)
      rw [List.filter_cons_of_pos (by simpa using hc), List.length_cons, hzero]
      exact ⟨Nat.le_refl _, fun _ => rfl⟩
    · rw [List.filter_cons_of_neg (by simpa using hc)]
      refine ⟨ih1, fun hm => ih2 ?_⟩
      rw [List.map_cons, List.mem_cons] at hm
      rcases hm with hm | hm
      · exact absurd hm.symm hc
      · exact hm

/-- The promise a call returns was created for the call's key. -/
theorem requestRatingCached_promise (B : Builtins) (s : Session) (prof : ParsedProf)
    (env : CallEnv) (h : s.WellFormed) (p : Nat)
    (hp : (requestRatingCached B s prof env).1 = .promise p) :
    (requestRatingCached B s prof env).2.keyOf p = some (profKey B prof) := by
  cases hc : s.rmpCache (profKey B prof) with
  | some r =>
    rw [requestRatingCached_cached B s prof env r hc] at hp
    cases hp
  | none =>
    cases hf : s.inFlight (profKey B prof) with
    | some q =>
      rw [requestRatingCached_inFlight B s prof env q hc hf] at hp ⊢
      cases hp
      exact (h.inFlight_known _ _ hf).2
    | none =>
      obtain ⟨e1, _, _, e4⟩ := requestRatingCached_fresh B s prof env hc hf
      rw [e1] at hp
      cases hp
      rw [e4, if_pos rfl]

/-- C2: starting from empty maps, over every sequence of calls of
`requestRatingCached` and message callbacks, `chrome.runtime.sendMessage` is invoked
at most once for each key.  When a call returned a promise that is still unsettled,
a later call with the same key returns that same promise and leaves the state as it
is, exactly one message has been sent for the key, and the message callback settles
that one promise with the final response. -/
theorem requests_coalesced (B : Builtins) :
    (∀ (evs : List Event) (key : JSString),
      (Session.empty.run B evs).sendCount key ≤ 1) ∧
    (∀ (evs₁ : List Event) (prof₁ : ParsedProf) (env₁ : CallEnv) (p : Nat),
      (requestRatingCached B (Session.empty.run B evs₁) prof₁ env₁).1 = .promise p →
      ∀ (evs₂ : List Event),
        ((requestRatingCached B (Session.empty.run B evs₁) prof₁ env₁).2.run B evs₂).settled p
          = none →
        ∀ (prof₂ : ParsedProf) (env₂ : CallEnv), profKey B prof₂ = profKey B prof₁ →
          requestRatingCached B
              ((requestRatingCached B (Session.empty.run B evs₁) prof₁ env₁).2.run B evs₂)
              prof₂ env₂ =
            (.promise p,
              (requestRatingCached B (Session.empty.run B evs₁) prof₁ env₁).2.run B evs₂) ∧
          ((requestRatingCached B (Session.empty.run B evs₁) prof₁ env₁).2.run B
              evs₂).sendCount (profKey B prof₁) = 1 ∧
          ∀ (resp : Option Response) (lastError : Option JSString),
            (messageCallback
                ((requestRatingCached B (Session.empty.run B evs₁) prof₁ env₁).2.run B evs₂)
                p resp lastError).settled p = some (finalResp resp lastError)) := by
  constructor
  · intro evs key
    exact (sendCount_of_nodup _ key
      (Session.run_wellFormed B evs _ Session.WellFormed.empty).sent_nodup).1
  · intro evs₁ prof₁ env₁ p hp evs₂ hs prof₂ env₂ hkey
    have h0 := Session.run_wellFormed B evs₁ _ Session.WellFormed.empty
    have h1 := requestRatingCached_wellFormed B _ prof₁ env₁ h0
    have h2 := Session.run_wellFormed B evs₂ _ h1
    have hk := Session.run_keyOf B evs₂ _ h1 p _
      (requestRatingCached_promise B _ prof₁ env₁ h0 p hp)
    generalize (requestRatingCached B (Session.empty.run B evs₁) prof₁ env₁).2.run B evs₂ = s₂
      at hs h2 hk ⊢
    have hlt : p < s₂.nextPromise := by
      by_contra hge
      rw [(h2.fresh p (Nat.le_of_not_lt hge)).2] at hk
      cases hk
    obtain ⟨k, hcb⟩ := h2.unsettled_pending p hlt hs
    obtain ⟨c1, c2, _, c4, _, c6⟩ := h2.callback_pending p k hcb
    rw [hk] at c4
    obtain rfl : profKey B prof₁ = k := Option.some.inj c4
    refine ⟨?_, ?_, ?_⟩
    · exact requestRatingCached_inFlight B s₂ prof₂ env₂ p (by rw [hkey]; exact c1)
        (by rw [hkey]; exact c2)
    · exact (sendCount_of_nodup _ _ h2.sent_nodup).2 c6
    · intro resp lastError
      exact (messageCallback_pending h2 hcb resp lastError).2

theorem requests_coalesced_witness :
    requestRatingCached asciiEngine
        ((requestRatingCached asciiEngine (Session.empty.run asciiEngine []) smithProf
          liveEnv).2.run asciiEngine [])
        { smithProf with first := none } deadEnv =
      (.promise 0,
        (requestRatingCached asciiEngine (Session.empty.run asciiEngine []) smithProf
          liveEnv).2.run asciiEngine []) ∧
    ((requestRatingCached asciiEngine (Session.empty.run asciiEngine []) smithProf
        liveEnv).2.run asciiEngine []).sendCount (profKey asciiEngine smithProf) = 1 ∧
    ∀ (resp : Option Response) (lastError : Option JSString),
      (messageCallback
          ((requestRatingCached asciiEngine (Session.empty.run asciiEngine []) smithProf
            liveEnv).2.run asciiEngine [])
          0 resp lastError).settled 0 = some (finalResp resp lastError) :=
  (requests_coalesced asciiEngine).2 [] smithProf liveEnv 0 rfl [] rfl
    { smithProf with first := none } deadEnv rfl

/-- C3: once an event has completed a lookup for a key with a response (the
short-circuit taken when the runtime id is absent, an exception thrown by
`sendMessage`, or the message callback with or without `chrome.runtime.lastError`,
whatever the response), every later call of `requestRatingCached` for an identity
with that key returns a promise resolved with exactly that response and leaves the
state, hence the list of sent messages, unchanged. -/
theorem completed_lookup_never_retried (B : Builtins) (evs₁ : List Event) (e : Event)
    (key : JSString) (r : Option Response)
    (hdone : Completes B (Session.empty.run B evs₁) e key r)
    (evs₂ : List Event) (prof : ParsedProf) (env : CallEnv) (hkey : profKey B prof = key) :
    requestRatingCached B (((Session.empty.run B evs₁).step B e).run B evs₂) prof env =
      (.resolved r, ((Session.empty.run B evs₁).step B e).run B evs₂) := by
  have h0 := Session.run_wellFormed B evs₁ _ Session.WellFormed.empty
  have h1 := Session.step_wellFormed B _ e h0
  have hc := Session.run_rmpCache B evs₂ _ h1 key r (hdone.cached h0)
  exact requestRatingCached_cached B _ prof env r (by rw [hkey]; exact hc)

theorem completed_lookup_never_retried_witness :
    requestRatingCached asciiEngine
        (((Session.empty.run asciiEngine []).step asciiEngine
          (.request smithProf deadEnv)).run asciiEngine [.request smithProf liveEnv])
        smithProf liveEnv =
      (.resolved (some (.failure "Extension context invalidated".toList)),
        ((Session.empty.run asciiEngine []).step asciiEngine
          (.request smithProf deadEnv)).run asciiEngine [.request smithProf liveEnv]) :=
  completed_lookup_never_retried asciiEngine [] (.request smithProf deadEnv) _ _
    (Completes.invalidated smithProf deadEnv rfl rfl rfl) [.request smithProf liveEnv]
    smithProf liveEnv rfl

/-! ## The name parser -/

theorem split_eq (sep : Char) (s : JSString) :
    split sep s = s.takeWhile (fun c => c != sep) ::
      (match s.dropWhile (fun c => c != sep) with
        | [] => []
        | _ :: rest => split sep rest) := by
  induction s with
  | nil => rfl
  | cons c cs ih =>
    by_cases h : c = sep
    · subst h
      simp [split]
    · have hb : (c != sep) = true := by simpa using h
      rw [split, if_neg h, ih]
      simp only [List.takeWhile_cons, List.dropWhile_cons, hb, if_true]

theorem split_getD_zero (sep : Char) (s : JSString) :
    (split sep s).getD 0 [] = s.takeWhile (fun c => c != sep) := by
  rw [split_eq]; rfl

theorem dropWhile_ne_of_mem (sep : Char) (s : JSString) (h : sep ∈ s) :
    s.dropWhile (fun c => c != sep) = sep :: (s.dropWhile (fun c => c != sep)).drop 1 := by
  induction s with
  | nil => cases h
  | cons c cs ih =>
    by_cases hc : c = sep
    · subst hc
      simp
    · have hb : (c != sep) = true := by simpa using hc
      simp only [List.dropWhile_cons, hb, if_true]
      rcases List.mem_cons.1 h with h | h
      · exact absurd h.symm hc
      · exact ih h

theorem split_getD_one (sep : Char) (s : JSString) (h : sep ∈ s) :
    (split sep s).getD 1 [] =
      ((s.dropWhile (fun c => c != sep)).drop 1).takeWhile (fun c => c != sep) := by
  rw [split_eq, dropWhile_ne_of_mem sep s h]
  simp only [List.drop_succ_cons, List.drop_zero]
  rw [split_eq]
  rfl

/-! ### Whitespace in a cleaned name -/

theorem takeWhile_not_concat {p : Char → Bool} (l : JSString) (x : Char) (hx : p x = true) :
    (l ++ [x]).takeWhile (fun c => !p c) = l.takeWhile (fun c => !p c) := by
  induction l with
  | nil => simp [List.takeWhile_cons, hx]
  | cons c l ih =>
    rw [List.cons_append, List.takeWhile_cons, List.takeWhile_cons, ih]

theorem takeWhile_dropWhile_concat {p : Char → Bool} (l : JSString) (x : Char)
    (hx : p x = true) :
    ((l ++ [x]).dropWhile p).takeWhile (fun c => !p c) =
      (l.dropWhile p).takeWhile (fun c => !p c) := by
  induction l with
  | nil => simp [List.dropWhile_cons, hx]
  | cons c l ih =>
    rw [List.cons_append, List.dropWhile_cons, List.dropWhile_cons]
    by_cases hc : p c = true
    · rw [if_pos hc, if_pos hc, ih]
    · rw [if_neg hc, if_neg hc, ← List.cons_append, takeWhile_not_concat _ _ hx]

/-- The first run of a string is not affected by removing the trailing characters
that satisfy `p`. -/
theorem firstRun_rdropWhile (p : Char → Bool) (s : JSString) :
    ((s.rdropWhile p).dropWhile p).takeWhile (fun c => !p c) =
      (s.dropWhile p).takeWhile (fun c => !p c) := by
  induction s using List.reverseRecOn with
  | nil => rfl
  | append_singleton l x ih =>
    by_cases hx : p x = true
    · rw [List.rdropWhile_concat_pos _ _ _ hx, ih, takeWhile_dropWhile_concat _ _ hx]
    · rw [List.rdropWhile_concat_neg _ _ _ hx]

theorem trim_eq (s : JSString) : trim s = (s.dropWhile isWhiteSpace).rdropWhile isWhiteSpace :=
  rfl

theorem firstWord_trim (s : JSString) : firstWord (trim s) = firstWord s := by
  unfold firstWord
  rw [trim_eq, firstRun_rdropWhile]
  congr 1
  induction s with
  | nil => rfl
  | cons c cs ih =>
    rw [List.dropWhile_cons]
    by_cases hc : isWhiteSpace c = true
    · rw [if_pos hc, ih]
    · rw [if_neg hc, List.dropWhile_cons, if_neg hc]

theorem SpaceOnly.restrict {s t : JSString} (h : SpaceOnly s) (hsub : ∀ c ∈ t, c ∈ s) :
    SpaceOnly t := fun c hc => h c (hsub c hc)

theorem SpaceOnly.tail {c : Char} {s : JSString} (h : SpaceOnly (c :: s)) : SpaceOnly s :=
  h.restrict fun _ hc => List.mem_cons_of_mem _ hc

theorem isWhiteSpace_space : isWhiteSpace ' ' = true := by decide

theorem SpaceOnly.isWhiteSpace_eq {s : JSString} (h : SpaceOnly s) {c : Char} (hc : c ∈ s) :
    isWhiteSpace c = (c == ' ') := by
  by_cases hs : c = ' '
  · subst hs
    rfl
  · have : isWhiteSpace c ≠ true := fun hw => hs (h c hc hw)
    simp [hs, this]

theorem takeWhile_congr_mem {p q : Char → Bool} (s : JSString) (h : ∀ c ∈ s, p c = q c) :
    s.takeWhile p = s.takeWhile q := by
  induction s with
  | nil => rfl
  | cons c cs ih =>
    rw [List.takeWhile_cons, List.takeWhile_cons, h c (List.mem_cons_self _ _),
      ih fun d hd => h d (List.mem_cons_of_mem _ hd)]

theorem collapseAux_spaceOnly (b : Bool) (s : JSString) : SpaceOnly (collapseAux b s) := by
  induction s generalizing b with
  | nil => intro c hc; cases hc
  | cons c cs ih =>
    unfold collapseAux
    by_cases hw : isWhiteSpace c = true
    · rw [if_pos hw]
      cases b
      · intro d hd hws
        rcases List.mem_cons.1 hd with rfl | hd
        · rfl
        · exact ih true d hd hws
      · exact ih true
    · rw [if_neg hw]
      intro d hd hws
      rcases List.mem_cons.1 hd with rfl | hd
      · exact absurd hws hw
      · exact ih false d hd hws

theorem mem_trim {s : JSString} {c : Char} (h : c ∈ trim s) : c ∈ s := by
  unfold trim at h
  rw [List.mem_reverse] at h
  have h1 := (List.dropWhile_sublist _).subset h
  rw [List.mem_reverse] at h1
  exact (List.dropWhile_sublist _).subset h1

theorem cleanProfessorDisplayName_spaceOnly (raw : JSString) :
    SpaceOnly (cleanProfessorDisplayName raw) := by
  intro c hc hw
  have h1 := mem_trim hc
  unfold replaceNbsp at h1
  obtain ⟨d, hd, rfl⟩ := List.mem_map.1 h1
  by_cases h160 : (d.toNat == 160) = true
  · rw [if_pos h160]
  · rw [if_neg h160] at hw ⊢
    exact collapseAux_spaceOnly false raw d hd hw

/-- The first piece that `s.split(" ").filter(Boolean)` yields is the first
whitespace-delimited token, when the only whitespace in `s` is the plain space. -/
theorem tokens_headD {s : JSString} (h : SpaceOnly s) : (tokens s).headD [] = firstWord s := by
  induction s with
  | nil => rfl
  | cons c cs ih =>
    by_cases hc : c = ' '
    · subst hc
      have : tokens (' ' :: cs) = tokens cs := by
        simp [tokens, split]
      rw [this, ih h.tail]
      simp [firstWord, List.dropWhile_cons, isWhiteSpace_space]
    · have hw : isWhiteSpace c = false := by
        rw [h.isWhiteSpace_eq (List.mem_cons_self _ _)]
        simpa using hc
      have h1 : tokens (c :: cs) =
          (c :: cs.takeWhile (fun d => d != ' ')) ::
            (match cs.dropWhile (fun d => d != ' ') with
              | [] => []
              | _ :: rest => split ' ' rest).filter (fun t => !t.isEmpty) := by
        unfold tokens
        rw [split, if_neg hc, split_eq]
        simp
      rw [h1]
      simp only [List.headD_cons, firstWord, List.dropWhile_cons, hw, Bool.false_eq_true,
        if_false, List.takeWhile_cons, Bool.not_false, if_true]
      congr 1
      apply takeWhile_congr_mem
      intro d hd
      rw [h.tail.isWhiteSpace_eq hd]
      simp [bne]

theorem getD_map_trim (l : List JSString) (i : Nat) :
    (l.map trim).getD i [] = trim (l.getD i []) := by
  induction l generalizing i with
  | nil => rfl
  | cons a l ih =>
    cases i with
    | zero => rfl
    | succ i => simpa using ih i

theorem mem_beforeComma {s : JSString} {c : Char} (h : c ∈ beforeComma s) : c ∈ s :=
  (List.takeWhile_sublist _).subset h

theorem mem_afterComma {s : JSString} {c : Char} (h : c ∈ afterComma s) : c ∈ s :=
  (List.dropWhile_sublist _).subset ((List.drop_sublist _ _).subset h)

/-- C10 (as stated, refuted): the cleaned name `Smith, John,Jr` contains a comma and
is not a placeholder, yet `first` is `John`, not the first whitespace-delimited token
`John,Jr` of everything after the first comma. -/
theorem comma_form_second_comma :
    ',' ∈ cleanProfessorDisplayName "Smith, John,Jr".toList ∧
      asciiEngine.toLowerCase (cleanProfessorDisplayName "Smith, John,Jr".toList) ∉ SKIP_NAMES ∧
      (parseProfessorName asciiEngine "Smith, John,Jr".toList).map (fun p => p.first) =
        some (some "John".toList) ∧
      firstWord (afterComma (cleanProfessorDisplayName "Smith, John,Jr".toList)) =
        "John,Jr".toList := by
  decide

/-- C10 (amended): for every raw string whose cleaned form contains a comma and is
not a placeholder, `parseProfessorName` yields `last` = everything before the first
comma, trimmed; `first` = the first whitespace-delimited token of the text between the
first comma and the next comma (or the end of the string); `skip` false and `display`
the cleaned string; and `firstInitial` = the first character of `first`, upper-cased,
when that character lies in the Basic Multilingual Plane, where the code unit taken
by `slice(0, 1)` is the character. -/
theorem parse_comma_form (B : Builtins) (raw : JSString)
    (hcomma : ',' ∈ cleanProfessorDisplayName raw)
    (hplace : B.toLowerCase (cleanProfessorDisplayName raw) ∉ SKIP_NAMES) :
    ∃ fi, parseProfessorName B raw = some
        { skip := false
          display := cleanProfessorDisplayName raw
          first := some (firstWord (beforeComma (afterComma (cleanProfessorDisplayName raw))))
          firstInitial := some fi
          last := some (trim (beforeComma (cleanProfessorDisplayName raw))) } ∧
      ((∀ c ∈ (firstWord (beforeComma (afterComma (cleanProfessorDisplayName raw)))).take 1,
          c.toNat < 65536) →
        fi = B.toUpperCase
          ((firstWord (beforeComma (afterComma (cleanProfessorDisplayName raw)))).take 1)) := by
  have hne : (cleanProfessorDisplayName raw).isEmpty = false := by
    cases h : cleanProfessorDisplayName raw with
    | nil => rw [h] at hcomma; cases hcomma
    | cons _ _ => rfl
  have hseg : SpaceOnly (trim (beforeComma (afterComma (cleanProfessorDisplayName raw)))) :=
    (cleanProfessorDisplayName_spaceOnly raw).restrict fun c hc =>
      mem_afterComma (mem_beforeComma (mem_trim hc))
  have htok : (tokens (trim (beforeComma (afterComma (cleanProfessorDisplayName raw))))).headD []
      = firstWord (beforeComma (afterComma (cleanProfessorDisplayName raw))) := by
    rw [tokens_headD hseg, firstWord_trim]
  refine ⟨B.toUpperCase
    ((firstWord (beforeComma (afterComma (cleanProfessorDisplayName raw)))).take 1), ?_,
    fun _ => rfl⟩
  unfold parseProfessorName
  simp only [hne, Bool.false_eq_true, if_false, hplace, hcomma, if_true, getD_map_trim,
    split_getD_zero, split_getD_one _ _ hcomma]
  unfold beforeComma afterComma at htok
  rw [htok]
  rfl

theorem parse_comma_form_witness :
    parseProfessorName asciiEngine "Smith,  J.".toList = some
      { skip := false, display := "Smith, J.".toList, first := some "J.".toList,
        firstInitial := some "J".toList, last := some "Smith".toList } := by
  obtain ⟨fi, h1, h2⟩ :=
    parse_comma_form asciiEngine "Smith,  J.".toList (by decide) (by decide)
  rw [h2 (by decide)] at h1
  exact h1

/-! ## Case-insensitivity of the cache key on ASCII names -/

theorem toNat_ofNat_add (n : Nat) (h1 : 65 ≤ n) (h2 : n ≤ 90) :
    (Char.ofNat (n + 32)).toNat = n + 32 := by
  interval_cases n <;> rfl

theorem toNat_ofNat_sub (n : Nat) (h1 : 97 ≤ n) (h2 : n ≤ 122) :
    (Char.ofNat (n - 32)).toNat = n - 32 := by
  interval_cases n <;> rfl

theorem char_eq_of_toNat {c d : Char} (h : c.toNat = d.toNat) : c = d := by
  rw [← Char.ofNat_toNat c, ← Char.ofNat_toNat d, h]

theorem toNat_asciiLowerChar (c : Char) :
    (asciiLowerChar c).toNat = if 65 ≤ c.toNat ∧ c.toNat ≤ 90 then c.toNat + 32 else c.toNat := by
  unfold asciiLowerChar
  split_ifs with h
  · exact toNat_ofNat_add _ h.1 h.2
  · rfl

theorem toNat_asciiUpperChar (c : Char) :
    (asciiUpperChar c).toNat =
      if 97 ≤ c.toNat ∧ c.toNat ≤ 122 then c.toNat - 32 else c.toNat := by
  unfold asciiUpperChar
  split_ifs with h
  · exact toNat_ofNat_sub _ h.1 h.2
  · rfl

theorem asciiLower_upper (c : Char) : asciiLowerChar (asciiUpperChar c) = asciiLowerChar c := by
  apply char_eq_of_toNat
  rw [toNat_asciiLowerChar, toNat_asciiLowerChar, toNat_asciiUpperChar]
  split_ifs <;> omega

theorem asciiLower_lower (c : Char) : asciiLowerChar (asciiLowerChar c) = asciiLowerChar c := by
  apply char_eq_of_toNat
  rw [toNat_asciiLowerChar, toNat_asciiLowerChar]
  split_ifs <;> omega

theorem isWhiteSpace_of_letter_range (c : Char) (h1 : 65 ≤ c.toNat) (h2 : c.toNat ≤ 122) :
    isWhiteSpace c = false := by
  unfold isWhiteSpace
  generalize c.toNat = n at h1 h2
  interval_cases n <;> rfl

theorem isAsciiLetter_upper_range (c : Char) (h1 : 65 ≤ c.toNat) (h2 : c.toNat ≤ 90) :
    isAsciiLetter c = true := by
  unfold isAsciiLetter
  generalize c.toNat = n at h1 h2
  interval_cases n <;> rfl

theorem isAsciiLetter_lower_range (c : Char) (h1 : 97 ≤ c.toNat) (h2 : c.toNat ≤ 122) :
    isAsciiLetter c = true := by
  unfold isAsciiLetter
  generalize c.toNat = n at h1 h2
  interval_cases n <;> rfl

theorem asciiLowerChar_transparent : Transparent asciiLowerChar where
  white c := by
    by_cases h : 65 ≤ c.toNat ∧ c.toNat ≤ 90
    · have h3 := toNat_asciiLowerChar c
      rw [if_pos h] at h3
      rw [isWhiteSpace_of_letter_range c h.1 (by omega),
        isWhiteSpace_of_letter_range _ (by omega) (by omega)]
    · unfold asciiLowerChar
      rw [if_neg h]
  letter c := by
    by_cases h : 65 ≤ c.toNat ∧ c.toNat ≤ 90
    · have h3 := toNat_asciiLowerChar c
      rw [if_pos h] at h3
      rw [isAsciiLetter_upper_range c h.1 h.2,
        isAsciiLetter_lower_range _ (by omega) (by omega)]
    · unfold asciiLowerChar
      rw [if_neg h]
  fixed c d hd := by
    constructor
    · intro h
      have := congrArg Char.toNat h
      rw [toNat_asciiLowerChar] at this
      apply char_eq_of_toNat
      split_ifs at this <;> omega
    · intro h
      subst h
      apply char_eq_of_toNat
      rw [toNat_asciiLowerChar]
      split_ifs <;> omega

theorem collapseAux_map {f : Char → Char} (hf : Transparent f) (b : Bool) (s : JSString) :
    collapseAux b (s.map f) = (collapseAux b s).map f := by
  have hsp : f ' ' = ' ' := (hf.fixed _ _ (Or.inl (by decide))).2 rfl
  induction s generalizing b with
  | nil => rfl
  | cons c cs ih =>
    rw [List.map_cons, collapseAux, collapseAux, hf.white, ih, ih]
    by_cases hw : isWhiteSpace c = true
    · rw [if_pos hw, if_pos hw]
      cases b
      · simp [hsp]
      · simp
    · rw [if_neg hw, if_neg hw, List.map_cons]

theorem dropWhile_isWhiteSpace_map {f : Char → Char} (hf : Transparent f) (s : JSString) :
    (s.map f).dropWhile isWhiteSpace = (s.dropWhile isWhiteSpace).map f := by
  induction s with
  | nil => rfl
  | cons c cs ih =>
    rw [List.map_cons, List.dropWhile_cons, List.dropWhile_cons, hf.white, ih]
    split_ifs <;> rfl

theorem trim_map {f : Char → Char} (hf : Transparent f) (s : JSString) :
    trim (s.map f) = (trim s).map f := by
  unfold trim
  rw [dropWhile_isWhiteSpace_map hf, ← List.map_reverse, dropWhile_isWhiteSpace_map hf,
    List.map_reverse]

theorem split_map {f : Char → Char} (hf : Transparent f) (sep : Char) (hsep : sep.toNat < 65)
    (s : JSString) : split sep (s.map f) = (split sep s).map (List.map f) := by
  induction s with
  | nil => rfl
  | cons c cs ih =>
    rw [List.map_cons, split, split, ih]
    by_cases hc : c = sep
    · rw [if_pos hc, if_pos ((hf.fixed c sep (Or.inl hsep)).2 hc)]
      rfl
    · rw [if_neg hc, if_neg (fun h => hc ((hf.fixed c sep (Or.inl hsep)).1 h))]
      cases split sep cs <;> rfl

theorem tokens_map {f : Char → Char} (hf : Transparent f) (s : JSString) :
    tokens (s.map f) = (tokens s).map (List.map f) := by
  unfold tokens
  rw [split_map hf ' ' (by decide), List.filter_map]
  congr 1
  apply List.filter_congr
  intro t _
  cases t <;> rfl

theorem joinSpace_cons_cons (t u : JSString) (us : List JSString) :
    joinSpace (t :: u :: us) = t ++ ' ' :: joinSpace (u :: us) := by
  rw [joinSpace]
  intro h
  cases h

theorem joinSpace_map {f : Char → Char} (hf : Transparent f) (ts : List JSString) :
    joinSpace (ts.map (List.map f)) = (joinSpace ts).map f := by
  have hsp : f ' ' = ' ' := (hf.fixed _ _ (Or.inl (by decide))).2 rfl
  induction ts with
  | nil => rfl
  | cons t ts ih =>
    cases ts with
    | nil => rfl
    | cons u us =>
      rw [List.map_cons, List.map_cons, joinSpace_cons_cons, ← List.map_cons, ih,
        joinSpace_cons_cons, List.map_append, List.map_cons, hsp]

theorem erase_dot_map {f : Char → Char} (hf : Transparent f) (s : JSString) :
    (s.map f).erase '.' = (s.erase '.').map f := by
  induction s with
  | nil => rfl
  | cons c cs ih =>
    rw [List.map_cons, List.erase_cons, List.erase_cons, ih]
    by_cases hc : c = '.'
    · have : f c = '.' := (hf.fixed c _ (Or.inl (by decide))).2 hc
      rw [this, hc]
      simp
    · have : f c ≠ '.' := fun h => hc ((hf.fixed c _ (Or.inl (by decide))).1 h)
      simp [hc, this]

theorem any_isAsciiLetter_map {f : Char → Char} (hf : Transparent f) (s : JSString) :
    (s.map f).any isAsciiLetter = s.any isAsciiLetter := by
  induction s with
  | nil => rfl
  | cons c cs ih => rw [List.map_cons, List.any_cons, List.any_cons, hf.letter, ih]

theorem mem_map_fixed {f : Char → Char} (hf : Transparent f) (d : Char) (hd : d.toNat < 65)
    (s : JSString) : d ∈ s.map f ↔ d ∈ s := by
  rw [List.mem_map]
  constructor
  · rintro ⟨c, hc, h⟩
    rw [← (hf.fixed c d (Or.inl hd)).1 h]
    exact hc
  · intro h
    exact ⟨d, h, (hf.fixed d d (Or.inl hd)).2 rfl⟩

theorem headD_map_map (f : Char → Char) (l : List JSString) :
    (l.map (List.map f)).headD [] = (l.headD []).map f := by
  cases l <;> rfl

theorem getD_map_map (f : Char → Char) (l : List JSString) (i : Nat) :
    (l.map (List.map f)).getD i [] = (l.getD i []).map f := by
  induction l generalizing i with
  | nil => rfl
  | cons a l ih =>
    cases i with
    | zero => rfl
    | succ i => simpa using ih i

/-- The cache key of the ASCII engine, written with the lower-cased fields. -/
theorem profKey_asciiEngine (p : ParsedProf) :
    profKey asciiEngine p =
      trim ((p.firstInitial.getD []).map asciiLowerChar) ++
        '|' :: (trim ((p.last.getD []).map asciiLowerChar) ++
          '|' :: trim (collapseWhitespace (p.display.map asciiLowerChar))) := by
  have hf := asciiLowerChar_transparent
  have hbar : asciiLowerChar '|' = '|' := (hf.fixed _ _ (Or.inr (by decide))).2 rfl
  unfold profKey collapseWhitespace
  simp only [asciiEngine, List.map_append, List.map_cons, hbar, trim_map hf, collapseAux_map hf]

/-- The pieces of two names that are equal after lower-casing are equal after
lower-casing. -/
theorem lowered_pieces {na nb : JSString}
    (h : na.map asciiLowerChar = nb.map asciiLowerChar) :
    (tokens na).map (List.map asciiLowerChar) = (tokens nb).map (List.map asciiLowerChar) ∧
      (split ',' na).map (List.map asciiLowerChar) =
        (split ',' nb).map (List.map asciiLowerChar) ∧
      (',' ∈ na ↔ ',' ∈ nb) ∧ na.isEmpty = nb.isEmpty := by
  have hf := asciiLowerChar_transparent
  refine ⟨?_, ?_, ?_, ?_⟩
  · rw [← tokens_map hf, ← tokens_map hf, h]
  · rw [← split_map hf _ (by decide), ← split_map hf _ (by decide), h]
  · rw [← mem_map_fixed hf _ (by decide) na, ← mem_map_fixed hf _ (by decide) nb, h]
  · have := congrArg List.length h
    rw [List.length_map, List.length_map] at this
    cases na <;> cases nb <;> simp_all

theorem profKey_asciiEngine_congr {p q : ParsedProf}
    (h1 : (p.firstInitial.getD []).map asciiLowerChar =
      (q.firstInitial.getD []).map asciiLowerChar)
    (h2 : (p.last.getD []).map asciiLowerChar = (q.last.getD []).map asciiLowerChar)
    (h3 : p.display.map asciiLowerChar = q.display.map asciiLowerChar) :
    profKey asciiEngine p = profKey asciiEngine q := by
  rw [profKey_asciiEngine, profKey_asciiEngine, h1, h2, h3]

theorem map_lower_upper (s : JSString) :
    (s.map asciiUpperChar).map asciiLowerChar = s.map asciiLowerChar := by
  rw [List.map_map]
  apply List.map_congr_left
  intro c _
  exact asciiLower_upper c

theorem lowered_lastPart (n : JSString) :
    (((split ',' n).map trim).getD 0 []).map asciiLowerChar =
      trim (((split ',' n).map (List.map asciiLowerChar)).getD 0 []) := by
  rw [getD_map_trim, getD_map_map, trim_map asciiLowerChar_transparent]

theorem lowered_firstToken (n : JSString) :
    ((tokens (((split ',' n).map trim).getD 1 [])).headD []).map asciiLowerChar =
      (tokens (trim (((split ',' n).map (List.map asciiLowerChar)).getD 1 []))).headD [] := by
  rw [getD_map_trim, getD_map_map, trim_map asciiLowerChar_transparent,
    tokens_map asciiLowerChar_transparent, headD_map_map]

theorem lowered_head (n : JSString) :
    ((tokens n).headD []).map asciiLowerChar =
      ((tokens n).map (List.map asciiLowerChar)).headD [] := by
  rw [headD_map_map]

theorem lowered_rest (n : JSString) :
    (joinSpace ((tokens n).drop 1)).map asciiLowerChar =
      joinSpace (((tokens n).map (List.map asciiLowerChar)).drop 1) := by
  rw [← List.map_drop, joinSpace_map asciiLowerChar_transparent]

/-- On the ASCII engine, names equal after lower-casing get equal keys. -/
theorem parse_key_asciiEngine (a b : JSString)
    (h : (cleanProfessorDisplayName a).map asciiLowerChar =
      (cleanProfessorDisplayName b).map asciiLowerChar) :
    (parseProfessorName asciiEngine a).map (profKey asciiEngine) =
      (parseProfessorName asciiEngine b).map (profKey asciiEngine) := by
  unfold parseProfessorName
  generalize cleanProfessorDisplayName a = na at h ⊢
  generalize cleanProfessorDisplayName b = nb at h ⊢
  obtain ⟨hT, hS, hC, hE⟩ := lowered_pieces h
  have hlow : ∀ n, asciiEngine.toLowerCase n = n.map asciiLowerChar := fun _ => rfl
  have hup : ∀ n, asciiEngine.toUpperCase n = n.map asciiUpperChar := fun _ => rfl
  have hhead : ((tokens na).headD []).map asciiLowerChar =
      ((tokens nb).headD []).map asciiLowerChar := by
    rw [lowered_head, lowered_head, hT]
  have herase : (((tokens na).headD []).erase '.').map asciiLowerChar =
      (((tokens nb).headD []).erase '.').map asciiLowerChar := by
    rw [← erase_dot_map asciiLowerChar_transparent, ← erase_dot_map asciiLowerChar_transparent,
      hhead]
  have hlen : (((tokens na).headD []).erase '.').length =
      (((tokens nb).headD []).erase '.').length := by
    have := congrArg List.length herase
    rwa [List.length_map, List.length_map] at this
  have hany : (((tokens na).headD []).erase '.').any isAsciiLetter =
      (((tokens nb).headD []).erase '.').any isAsciiLetter := by
    rw [← any_isAsciiLetter_map asciiLowerChar_transparent (((tokens na).headD []).erase '.'),
      herase, any_isAsciiLetter_map asciiLowerChar_transparent]
  have htwo : (tokens na).length = (tokens nb).length := by
    have := congrArg List.length hT
    rwa [List.length_map, List.length_map] at this
  simp only [hlow, hup, hE, h, hC, hlen, hany, htwo]
  by_cases h1 : nb.isEmpty = true
  · simp only [h1, if_true, Option.map_none']
  · simp only [h1, Bool.false_eq_true, if_false]
    by_cases h2 : nb.map asciiLowerChar ∈ SKIP_NAMES
    · simp only [h2, if_true, Option.map_some']
      exact congrArg some (profKey_asciiEngine_congr rfl rfl h)
    · simp only [h2, if_false]
      by_cases h3 : ',' ∈ nb
      · simp only [h3, if_true, Option.map_some']
        refine congrArg some (profKey_asciiEngine_congr ?_ ?_ h)
        · simp only [Option.getD_some]
          rw [map_lower_upper, map_lower_upper, List.map_take, List.map_take,
            lowered_firstToken, lowered_firstToken, hS]
        · simp only [Option.getD_some]
          rw [lowered_lastPart, lowered_lastPart, hS]
      · simp only [h3, if_false]
        split_ifs
        · simp only [Option.map_some']
          refine congrArg some (profKey_asciiEngine_congr ?_ ?_ h)
          · simp only [Option.getD_some]
            rw [map_lower_upper, map_lower_upper, herase]
          · simp only [Option.getD_some]
            rw [lowered_rest, lowered_rest, hT]
        · simp only [Option.map_some']
          refine congrArg some (profKey_asciiEngine_congr ?_ ?_ h)
          · simp only [Option.getD_some]
            rw [map_lower_upper, map_lower_upper, List.map_take, List.map_take, hhead]
          · simp only [Option.getD_some]
            rw [lowered_rest, lowered_rest, hT]
        · simp only [Option.map_some']
          exact congrArg some (profKey_asciiEngine_congr rfl h h)

/-! ### Engines that agree with the ASCII case mappings -/

theorem IsAscii.substring {s t : JSString} (h : IsAscii s) (hsub : ∀ c ∈ t, c ∈ s) :
    IsAscii t := fun c hc => h c (hsub c hc)

theorem mem_split {sep : Char} {s p : JSString} {c : Char} (hp : p ∈ split sep s)
    (hc : c ∈ p) : c ∈ s := by
  induction s generalizing p with
  | nil =>
    simp only [split, List.mem_singleton] at hp
    subst hp
    cases hc
  | cons d ds ih =>
    rw [split] at hp
    by_cases hd : d = sep
    · rw [if_pos hd, List.mem_cons] at hp
      rcases hp with rfl | hp
      · cases hc
      · exact List.mem_cons_of_mem _ (ih hp hc)
    · rw [if_neg hd] at hp
      cases hs : split sep ds with
      | nil =>
        rw [hs] at hp
        simp only [List.mem_singleton] at hp
        subst hp
        rw [List.mem_singleton] at hc
        rw [hc]
        exact List.mem_cons_self _ _
      | cons q qs =>
        rw [hs] at hp ih
        rcases List.mem_cons.1 hp with rfl | hp
        · rcases List.mem_cons.1 hc with rfl | hc
          · exact List.mem_cons_self _ _
          · exact List.mem_cons_of_mem _ (ih (List.mem_cons_self _ _) hc)
        · exact List.mem_cons_of_mem _ (ih (List.mem_cons_of_mem _ hp) hc)

theorem mem_tokens {s t : JSString} {c : Char} (ht : t ∈ tokens s) (hc : c ∈ t) : c ∈ s :=
  mem_split (List.mem_filter.1 ht).1 hc

theorem mem_getD {l : List JSString} {i : Nat} {c : Char} (hc : c ∈ l.getD i []) :
    ∃ p ∈ l, c ∈ p := by
  induction l generalizing i with
  | nil => cases hc
  | cons a l ih =>
    cases i with
    | zero => exact ⟨a, List.mem_cons_self _ _, hc⟩
    | succ i =>
      obtain ⟨p, hp, h⟩ := ih (i := i) (by simpa using hc)
      exact ⟨p, List.mem_cons_of_mem _ hp, h⟩

theorem mem_headD {l : List JSString} {c : Char} (hc : c ∈ l.headD []) : ∃ p ∈ l, c ∈ p := by
  cases l with
  | nil => cases hc
  | cons a l => exact ⟨a, List.mem_cons_self _ _, hc⟩

theorem mem_joinSpace {ts : List JSString} {c : Char} (hc : c ∈ joinSpace ts) :
    c = ' ' ∨ ∃ t ∈ ts, c ∈ t := by
  induction ts with
  | nil => cases hc
  | cons t ts ih =>
    cases ts with
    | nil => exact Or.inr ⟨t, List.mem_cons_self _ _, hc⟩
    | cons u us =>
      rw [joinSpace_cons_cons, List.mem_append, List.mem_cons] at hc
      rcases hc with hc | rfl | hc
      · exact Or.inr ⟨t, List.mem_cons_self _ _, hc⟩
      · exact Or.inl rfl
      · rcases ih hc with h | ⟨v, hv, h⟩
        · exact Or.inl h
        · exact Or.inr ⟨v, List.mem_cons_of_mem _ hv, h⟩

theorem mem_collapseAux {b : Bool} {s : JSString} {c : Char} (hc : c ∈ collapseAux b s) :
    c = ' ' ∨ c ∈ s := by
  induction s generalizing b with
  | nil => cases hc
  | cons d ds ih =>
    rw [collapseAux] at hc
    split_ifs at hc
    · rcases ih hc with h | h
      · exact Or.inl h
      · exact Or.inr (List.mem_cons_of_mem _ h)
    · rcases List.mem_cons.1 hc with h | hc
      · exact Or.inl h
      · rcases ih hc with h | h
        · exact Or.inl h
        · exact Or.inr (List.mem_cons_of_mem _ h)
    · rcases List.mem_cons.1 hc with h | hc
      · exact Or.inr (h ▸ List.mem_cons_self _ _)
      · rcases ih hc with h | h
        · exact Or.inl h
        · exact Or.inr (List.mem_cons_of_mem _ h)

theorem IsAscii.map_upper {s : JSString} (h : IsAscii s) : IsAscii (s.map asciiUpperChar) := by
  intro c hc
  obtain ⟨d, hd, rfl⟩ := List.mem_map.1 hc
  have := h d hd
  rw [toNat_asciiUpperChar]
  split_ifs <;> omega

theorem IsAscii.trimmed {s : JSString} (h : IsAscii s) : IsAscii (trim s) :=
  h.substring fun _ hc => mem_trim hc

theorem IsAscii.key {fi last display : JSString} (h1 : IsAscii fi) (h2 : IsAscii last)
    (h3 : IsAscii display) :
    IsAscii (trim fi ++ '|' :: (trim last ++ '|' :: trim (collapseWhitespace display))) := by
  intro c hc
  rw [List.mem_append, List.mem_cons, List.mem_append, List.mem_cons] at hc
  rcases hc with hc | rfl | hc | rfl | hc
  · exact h1.trimmed c hc
  · decide
  · exact h2.trimmed c hc
  · decide
  · rcases mem_collapseAux (mem_trim hc) with rfl | hc
    · decide
    · exact h3 c hc

/-- The fields of a parsed ASCII name are ASCII strings. -/
theorem parse_asciiEngine_isAscii (a : JSString) (p : ParsedProf)
    (ha : IsAscii (cleanProfessorDisplayName a))
    (hp : parseProfessorName asciiEngine a = some p) :
    IsAscii (p.firstInitial.getD []) ∧ IsAscii (p.last.getD []) ∧ IsAscii p.display := by
  have hnil : IsAscii [] := fun c hc => absurd hc (List.not_mem_nil c)
  have htok : ∀ s, IsAscii s → IsAscii ((tokens s).headD []) := fun s hs =>
    hs.substring fun c hc => by
      obtain ⟨t, ht, h⟩ := mem_headD hc
      exact mem_tokens ht h
  have hrest : ∀ s, IsAscii s → IsAscii (joinSpace ((tokens s).drop 1)) := fun s hs c hc => by
    rcases mem_joinSpace hc with rfl | ⟨t, ht, h⟩
    · decide
    · exact hs c (mem_tokens (List.mem_of_mem_drop ht) h)
  have hpart : ∀ i, IsAscii (((split ',' (cleanProfessorDisplayName a)).map trim).getD i []) :=
    fun i => by
      rw [getD_map_trim]
      exact (ha.substring fun c hc => by
        obtain ⟨q, hq, h⟩ := mem_getD hc
        exact mem_split hq h).trimmed
  have hup : ∀ n, asciiEngine.toUpperCase n = n.map asciiUpperChar := fun _ => rfl
  unfold parseProfessorName at hp
  simp only [hup] at hp
  split_ifs at hp <;> cases hp
  · exact ⟨hnil, hnil, ha⟩
  · exact ⟨((htok _ (hpart 1)).substring fun c hc => List.mem_of_mem_take hc).map_upper,
      hpart 0, ha⟩
  · exact ⟨((htok _ ha).substring fun c hc => List.mem_of_mem_erase hc).map_upper,
      hrest _ ha, ha⟩
  · exact ⟨((htok _ ha).substring fun c hc => List.mem_of_mem_take hc).map_upper,
      hrest _ ha, ha⟩
  · exact ⟨hnil, ha, ha⟩

/-- An engine that agrees with the ASCII case mappings parses ASCII names as the
ASCII engine does. -/
theorem parse_eq_asciiEngine (B : Builtins) (hB : AsciiCasing B) (a : JSString)
    (ha : IsAscii (cleanProfessorDisplayName a)) :
    parseProfessorName B a = parseProfessorName asciiEngine a := by
  have htok : ∀ s, IsAscii s → IsAscii ((tokens s).headD []) := fun s hs =>
    hs.substring fun c hc => by
      obtain ⟨t, ht, h⟩ := mem_headD hc
      exact mem_tokens ht h
  have hpart : ∀ i, IsAscii (((split ',' (cleanProfessorDisplayName a)).map trim).getD i []) :=
    fun i => by
      rw [getD_map_trim]
      exact (ha.substring fun c hc => by
        obtain ⟨q, hq, h⟩ := mem_getD hc
        exact mem_split hq h).trimmed
  have h1 := hB.lower _ ha
  have h2 : B.toUpperCase
      (((tokens (((split ',' (cleanProfessorDisplayName a)).map trim).getD 1 [])).headD []).take 1)
      = _ := hB.upper _ ((htok _ (hpart 1)).substring fun c hc => List.mem_of_mem_take hc)
  have h3 : B.toUpperCase (((tokens (cleanProfessorDisplayName a)).headD []).erase '.') = _ :=
    hB.upper _ ((htok _ ha).substring fun c hc => List.mem_of_mem_erase hc)
  have h4 : B.toUpperCase (((tokens (cleanProfessorDisplayName a)).headD []).take 1) = _ :=
    hB.upper _ ((htok _ ha).substring fun c hc => List.mem_of_mem_take hc)
  unfold parseProfessorName
  simp only [h1, h2, h3, h4]
  rfl

theorem profKey_eq_asciiEngine (B : Builtins) (hB : AsciiCasing B) (p : ParsedProf)
    (h1 : IsAscii (p.firstInitial.getD [])) (h2 : IsAscii (p.last.getD []))
    (h3 : IsAscii p.display) : profKey B p = profKey asciiEngine p := by
  unfold profKey
  rw [hB.lower _ (IsAscii.key h1 h2 h3)]
  rfl

/-- For an engine known only to act on ASCII strings as the ASCII case mappings:
raw strings whose cleaned forms consist of ASCII characters and are equal after
lower-casing parse to `null` both, or to identities with equal keys. -/
theorem parse_key_equal_on_ascii (B : Builtins) (hB : AsciiCasing B) (a b : JSString)
    (ha : IsAscii (cleanProfessorDisplayName a)) (hb : IsAscii (cleanProfessorDisplayName b))
    (h : B.toLowerCase (cleanProfessorDisplayName a) =
      B.toLowerCase (cleanProfessorDisplayName b)) :
    (parseProfessorName B a = none ∧ parseProfessorName B b = none) ∨
      ∃ pa pb, parseProfessorName B a = some pa ∧ parseProfessorName B b = some pb ∧
        profKey B pa = profKey B pb := by
  rw [hB.lower _ ha, hB.lower _ hb] at h
  have hkey := parse_key_asciiEngine a b h
  rw [parse_eq_asciiEngine B hB a ha, parse_eq_asciiEngine B hB b hb]
  cases hpa : parseProfessorName asciiEngine a with
  | none =>
    cases hpb : parseProfessorName asciiEngine b with
    | none => exact Or.inl ⟨rfl, rfl⟩
    | some pb =>
      rw [hpa, hpb] at hkey
      cases hkey
  | some pa =>
    cases hpb : parseProfessorName asciiEngine b with
    | none =>
      rw [hpa, hpb] at hkey
      cases hkey
    | some pb =>
      rw [hpa, hpb] at hkey
      obtain ⟨a1, a2, a3⟩ := parse_asciiEngine_isAscii a pa ha hpa
      obtain ⟨b1, b2, b3⟩ := parse_asciiEngine_isAscii b pb hb hpb
      refine Or.inr ⟨pa, pb, rfl, rfl, ?_⟩
      rw [profKey_eq_asciiEngine B hB pa a1 a2 a3, profKey_eq_asciiEngine B hB pb b1 b2 b3]
      exact Option.some.inj hkey

/-! ## Compound surnames -/

theorem mem_setAdd_self (out : List JSString) (x : JSString) : x ∈ setAdd out x := by
  unfold setAdd
  split_ifs with h
  · exact h
  · exact List.mem_append_right _ (List.mem_singleton_self x)

theorem mem_setAdd_of_mem {out : List JSString} {x y : JSString} (h : y ∈ out) :
    y ∈ setAdd out x := by
  unfold setAdd
  split_ifs
  · exact h
  · exact List.mem_append_left _ h

theorem not_mem_of_mem_split {sep : Char} {s p : JSString} (hp : p ∈ split sep s) :
    sep ∉ p := by
  induction s generalizing p with
  | nil =>
    simp only [split, List.mem_singleton] at hp
    subst hp
    exact List.not_mem_nil _
  | cons d ds ih =>
    rw [split] at hp
    by_cases hd : d = sep
    · rw [if_pos hd, List.mem_cons] at hp
      rcases hp with rfl | hp
      · exact List.not_mem_nil _
      · exact ih hp
    · rw [if_neg hd] at hp
      cases hs : split sep ds with
      | nil =>
        rw [hs] at hp
        simp only [List.mem_singleton] at hp
        subst hp
        intro h
        rw [List.mem_singleton] at h
        exact hd h.symm
      | cons q qs =>
        rw [hs] at hp ih
        rcases List.mem_cons.1 hp with rfl | hp
        · intro h
          rcases List.mem_cons.1 h with h | h
          · exact hd h.symm
          · exact ih (List.mem_cons_self _ _) h
        · exact ih (List.mem_cons_of_mem _ hp)

theorem trim_eq_self {s : JSString} (h : ∀ c ∈ s, isWhiteSpace c = false) : trim s = s := by
  have hd : ∀ l : JSString, (∀ c ∈ l, isWhiteSpace c = false) → l.dropWhile isWhiteSpace = l := by
    intro l hl
    cases l with
    | nil => rfl
    | cons c cs =>
      rw [List.dropWhile_cons, hl c (List.mem_cons_self _ _)]
      rfl
  unfold trim
  rw [hd s h, hd s.reverse (fun c hc => h c (List.mem_reverse.1 hc)), List.reverse_reverse]

theorem cleanedSurname_spaceOnly (last : Option JSString) : SpaceOnly (cleanedSurname last) :=
  (collapseAux_spaceOnly false _).restrict fun _ hc => (List.mem_filter.1 hc).1

/-- A token of a string whose only whitespace is the plain space is not changed by
`trim`. -/
theorem trim_token {s w : JSString} (hs : SpaceOnly s) (hw : w ∈ tokens s) : trim w = w := by
  apply trim_eq_self
  intro c hc
  have hsp : c ≠ ' ' := fun h => not_mem_of_mem_split (List.mem_filter.1 hw).1 (h ▸ hc)
  cases hws : isWhiteSpace c with
  | false => rfl
  | true => exact absurd (hs c (mem_tokens hw hc) hws) hsp

theorem getLastD_mem {l : List JSString} (h : l ≠ []) : l.getLastD [] ∈ l := by
  cases l with
  | nil => exact absurd rfl h
  | cons a l =>
    rw [List.getLastD_cons]
    induction l generalizing a with
    | nil => exact List.mem_cons_self _ _
    | cons b l ih =>
      rw [List.getLastD_cons]
      exact List.mem_cons_of_mem _ (ih b (List.cons_ne_nil _ _))

theorem headD_mem {l : List JSString} (h : l ≠ []) : l.headD [] ∈ l := by
  cases l with
  | nil => exact absurd rfl h
  | cons a l => exact List.mem_cons_self _ _

/-- With two or more words in the cleaned surname, the final word and the first
word are surname candidates. -/
theorem mem_buildLastNameCandidates (last : Option JSString)
    (h : 2 ≤ (surnameParts last).length) :
    (surnameParts last).getLastD [] ∈ buildLastNameCandidates last ∧
      (surnameParts last).headD [] ∈ buildLastNameCandidates last := by
  have hne : (cleanedSurname last).isEmpty = false := by
    cases hc : cleanedSurname last with
    | nil =>
      unfold surnameParts at h
      rw [hc] at h
      simp [tokens, split] at h
    | cons _ _ => rfl
  unfold buildLastNameCandidates
  simp only [hne, Bool.false_eq_true, if_false, h, if_true]
  exact ⟨mem_setAdd_of_mem (mem_setAdd_self _ _), mem_setAdd_self _ _⟩

theorem pickBestTeacherMatch_single (B : Builtins) (prof : ParsedProf) (t : Teacher)
    (hg : passesGate B prof t) (hs : -1 < totalScore B prof t) :
    pickBestTeacherMatch B [some t] prof = some t := by
  have h1 : teacherScore B prof t = some (totalScore B prof t) :=
    (teacherScore_eq_some_iff B prof t _).2 ⟨hg, rfl⟩
  rw [pickBestTeacherMatch_eq_foldl]
  simp [pickStep, h1, hs]

theorem isLowerAZ_asciiLowerChar {c : Char} (h : isAsciiLetter c = true) :
    isLowerAZ (asciiLowerChar c) = true := by
  unfold isLowerAZ
  rw [toNat_asciiLowerChar]
  unfold isAsciiLetter at h
  simp only [Bool.or_eq_true, Bool.and_eq_true, decide_eq_true_eq] at h ⊢
  split_ifs <;> omega

/-- The ASCII engine normalizes a string with an ASCII letter to a non-empty string. -/
theorem normalize_asciiEngine_ne_nil (s : JSString) (h : ∃ c ∈ s, isAsciiLetter c = true) :
    normalize asciiEngine s ≠ [] := by
  obtain ⟨c, hc, hl⟩ := h
  intro hnil
  have hmem : asciiLowerChar c ∈ normalize asciiEngine s :=
    List.mem_filter.2 ⟨List.mem_map.2 ⟨c, hc, rfl⟩, isLowerAZ_asciiLowerChar hl⟩
  rw [hnil] at hmem
  cases hmem

/-- When a non-empty normalized surname candidate equals the teacher's normalized
surname, the teacher passes the gate with base 50 and wins when alone. -/
theorem exact_surname_wins (B : Builtins)
    (hpop : ∀ pts n, 35 ≤ pts → -1 < B.addPopularity pts n) (prof : ParsedProf) (t : Teacher)
    (hex : ∃ ql ∈ qLastCandidates B prof, ql ≠ [] ∧ tLastNorm B t = ql) :
    passesGate B prof t ∧ lastScore B prof t = 50 ∧
      pickBestTeacherMatch B [some t] prof = some t := by
  have hgate : passesGate B prof t := by
    obtain ⟨ql, h1, h2, h3⟩ := hex
    exact ⟨ql, h1, h2, Or.inl h3⟩
  refine ⟨hgate, ?_, ?_⟩
  · rw [lastScore_eq_surnameBase]
    unfold surnameBase
    rw [if_pos hex]
  · exact pickBestTeacherMatch_single B prof t hgate
      (hpop _ _ (namePoints_ge_of_passesGate hgate))

theorem split_ne_nil (sep : Char) (s : JSString) : split sep s ≠ [] := by
  rw [split_eq]
  exact List.cons_ne_nil _ _

theorem removePeriodsCommas_cons (c : Char) (cs : JSString) :
    removePeriodsCommas (c :: cs) =
      if (c != '.' && c != ',') = true then c :: removePeriodsCommas cs
      else removePeriodsCommas cs := by
  unfold removePeriodsCommas
  rw [List.filter_cons]

theorem split_removePeriodsCommas (s : JSString) :
    split ' ' (removePeriodsCommas s) = (split ' ' s).map removePeriodsCommas := by
  induction s with
  | nil => rfl
  | cons c cs ih =>
    by_cases hc : c = ' '
    · subst hc
      rw [removePeriodsCommas_cons, if_pos (by decide), split, if_pos rfl, split, if_pos rfl, ih]
      rfl
    · rw [split, if_neg hc]
      cases hs : split ' ' cs with
      | nil => exact absurd hs (split_ne_nil _ _)
      | cons p ps =>
        rw [hs] at ih
        by_cases hk : (c != '.' && c != ',') = true
        · rw [removePeriodsCommas_cons, if_pos hk, split, if_neg hc, ih]
          simp only [List.map_cons]
          rw [removePeriodsCommas_cons, if_pos hk]
        · rw [removePeriodsCommas_cons, if_neg hk, ih]
          simp only [List.map_cons]
          rw [removePeriodsCommas_cons, if_neg hk]

theorem filter_nonempty_map (f : JSString → JSString) (hf : f [] = []) (l : List JSString) :
    (l.map f).filter (fun t => !t.isEmpty) =
      ((l.filter fun t => !t.isEmpty).map f).filter fun t => !t.isEmpty := by
  induction l with
  | nil => rfl
  | cons a l ih =>
    cases a with
    | nil =>
      simp only [List.map_cons, hf, List.filter_cons, List.isEmpty_nil, Bool.not_true,
        Bool.false_eq_true, if_false]
      exact ih
    | cons c cs =>
      simp only [List.map_cons, List.filter_cons, List.isEmpty_cons, Bool.not_false, if_true]
      rw [ih]

/-- The words of the cleaned surname are the words of the surname with their
periods and commas removed, those left empty dropped. -/
theorem surnameParts_eq (last : Option JSString) :
    surnameParts last =
      ((surnameWords last).map removePeriodsCommas).filter fun t => !t.isEmpty := by
  unfold surnameParts surnameWords cleanedSurname tokens
  rw [split_removePeriodsCommas, filter_nonempty_map removePeriodsCommas rfl]

theorem getLastD_filter_map (f : JSString → JSString) (l : List JSString) (hl : l ≠ [])
    (hne : f (l.getLastD []) ≠ []) :
    ((l.map f).filter fun t => !t.isEmpty).getLastD [] = f (l.getLastD []) := by
  induction l using List.reverseRecOn with
  | nil => exact absurd rfl hl
  | append_singleton l x _ =>
    rw [List.getLastD_concat] at hne ⊢
    have hx : (!(f x).isEmpty) = true := by
      cases h : f x with
      | nil => exact absurd h hne
      | cons _ _ => rfl
    rw [List.map_append, List.filter_append, List.map_singleton, List.filter_singleton,
      hx]
    exact List.getLastD_concat _ _ _

theorem headD_filter_map (f : JSString → JSString) (l : List JSString)
    (hne : f (l.headD []) ≠ []) :
    ((l.map f).filter fun t => !t.isEmpty).headD [] = f (l.headD []) ∨ l = [] := by
  cases l with
  | nil => exact Or.inr rfl
  | cons a l =>
    left
    have hx : (!(f a).isEmpty) = true := by
      cases h : f a with
      | nil => exact absurd h hne
      | cons _ _ => rfl
    simp only [List.map_cons, List.filter_cons, hx, if_true, List.headD_cons]

theorem split_concat (s : JSString) :
    (split ' ' s).foldr (fun p acc => p ++ acc) [] = s.filter fun c => c != ' ' := by
  induction s with
  | nil => rfl
  | cons c cs ih =>
    by_cases hc : c = ' '
    · subst hc
      rw [split, if_pos rfl, List.foldr_cons, ih]
      rfl
    · rw [split, if_neg hc]
      cases hs : split ' ' cs with
      | nil => exact absurd hs (split_ne_nil _ _)
      | cons p ps =>
        rw [hs] at ih
        have hk : (c != ' ') = true := by simpa using hc
        simp only [List.foldr_cons, List.cons_append, List.filter_cons, hk, if_true] at ih ⊢
        rw [ih]

theorem tokens_concat (s : JSString) :
    (tokens s).foldr (fun p acc => p ++ acc) [] = s.filter fun c => c != ' ' := by
  rw [← split_concat]
  unfold tokens
  induction split ' ' s with
  | nil => rfl
  | cons a l ih =>
    cases a with
    | nil =>
      simp only [List.filter_cons, List.isEmpty_nil, Bool.not_true, Bool.false_eq_true,
        if_false, List.foldr_cons, List.nil_append]
      exact ih
    | cons c cs =>
      simp only [List.filter_cons, List.isEmpty_cons, Bool.not_false, if_true, List.foldr_cons]
      rw [ih]

theorem mem_removePeriodsCommas {s : JSString} {c : Char} :
    c ∈ removePeriodsCommas s ↔ c ∈ s ∧ (c != '.' && c != ',') = true :=
  List.mem_filter

theorem removePeriodsCommas_ne_nil {w : JSString} (h : ∃ c ∈ w, isAsciiLetter c = true) :
    removePeriodsCommas w ≠ [] := by
  obtain ⟨c, hc, hl⟩ := h
  have hk : (c != '.' && c != ',') = true := by
    have h1 : c ≠ '.' := fun e => by rw [e] at hl; exact absurd hl (by decide)
    have h2 : c ≠ ',' := fun e => by rw [e] at hl; exact absurd hl (by decide)
    simp [h1, h2]
  intro hnil
  have := mem_removePeriodsCommas.2 ⟨hc, hk⟩
  rw [hnil] at this
  cases this

/-- Removing periods and commas from a word does not change its normalization, for
an engine that ignores periods, commas and spaces when it normalizes. -/
theorem normalize_removePeriodsCommas (B : Builtins)
    (hpunct : ∀ s, normalize B (s.filter fun c => c != '.' && c != ',' && c != ' ') =
      normalize B s)
    (w : JSString) :
    normalize B (removePeriodsCommas w) = normalize B w := by
  rw [← hpunct (removePeriodsCommas w), ← hpunct w]
  congr 1
  unfold removePeriodsCommas
  rw [List.filter_filter]
  apply List.filter_congr
  intro c _
  cases h1 : (c != '.') <;> cases h2 : (c != ',') <;> cases h3 : (c != ' ') <;> rfl

/-- A cleaned surname with a single word normalizes as that word. -/
theorem normalize_cleanedSurname (B : Builtins)
    (hpunct : ∀ s, normalize B (s.filter fun c => c != '.' && c != ',' && c != ' ') =
      normalize B s)
    (last : Option JSString) (y : JSString) (hy : surnameParts last = [y]) :
    normalize B (cleanedSurname last) = normalize B y := by
  have h1 : (cleanedSurname last).filter (fun c => c != ' ') = y := by
    rw [← tokens_concat]
    unfold surnameParts at hy
    rw [hy]
    simp
  rw [← hpunct (cleanedSurname last), ← h1]
  congr 1
  apply List.filter_congr
  intro c hc
  have := (mem_removePeriodsCommas.1 hc).2
  show (c != '.' && c != ',' && c != ' ') = (c != ' ')
  rw [this, Bool.true_and]

theorem cleanedSurname_mem (last : Option JSString) (h : surnameParts last ≠ []) :
    cleanedSurname last ∈ buildLastNameCandidates last := by
  have hne : (cleanedSurname last).isEmpty = false := by
    cases hc : cleanedSurname last with
    | nil =>
      unfold surnameParts at h
      rw [hc] at h
      exact absurd rfl h
    | cons _ _ => rfl
  unfold buildLastNameCandidates
  simp only [hne, Bool.false_eq_true, if_false]
  split_ifs
  · exact mem_setAdd_of_mem (mem_setAdd_of_mem (List.mem_singleton_self _))
  · exact List.mem_singleton_self _

/-- The final word and the first word of a surname of two or more words, when they
contain an ASCII letter, normalize as one of the surname candidates does. -/
theorem surnameWord_candidate (B : Builtins)
    (hpunct : ∀ s, normalize B (s.filter fun c => c != '.' && c != ',' && c != ' ') =
      normalize B s)
    (last : Option JSString) (w : JSString)
    (hwords : 2 ≤ (surnameWords last).length)
    (hw : w = (surnameWords last).getLastD [] ∨ w = (surnameWords last).headD [])
    (hasLetter : ∃ c ∈ w, isAsciiLetter c = true) :
    ∃ cand ∈ buildLastNameCandidates last, normalize B cand = normalize B w := by
  have hW : surnameWords last ≠ [] := by
    intro h
    rw [h] at hwords
    exact absurd hwords (by decide)
  have hfw := removePeriodsCommas_ne_nil hasLetter
  have hnorm := normalize_removePeriodsCommas B hpunct w
  have hpart : removePeriodsCommas w = (surnameParts last).getLastD [] ∨
      removePeriodsCommas w = (surnameParts last).headD [] := by
    rw [surnameParts_eq]
    rcases hw with rfl | rfl
    · exact Or.inl (getLastD_filter_map _ _ hW hfw).symm
    · rcases headD_filter_map removePeriodsCommas (surnameWords last) hfw with h | h
      · exact Or.inr h.symm
      · exact absurd h hW
  have hP : surnameParts last ≠ [] := by
    intro h
    rw [h] at hpart
    rcases hpart with h1 | h1 <;> exact hfw h1
  by_cases h2 : 2 ≤ (surnameParts last).length
  · obtain ⟨m1, m2⟩ := mem_buildLastNameCandidates last h2
    rcases hpart with h | h
    · exact ⟨_, m1, by rw [← h, hnorm]⟩
    · exact ⟨_, m2, by rw [← h, hnorm]⟩
  · obtain ⟨y, hy⟩ : ∃ y, surnameParts last = [y] := by
      cases hl : surnameParts last with
      | nil => exact absurd hl hP
      | cons a l =>
        cases l with
        | nil => exact ⟨a, rfl⟩
        | cons b l =>
          rw [hl] at h2
          exact absurd (by simp) h2
    have hyw : y = removePeriodsCommas w := by
      rw [hy] at hpart
      rcases hpart with h | h <;> exact h.symm
    exact ⟨_, cleanedSurname_mem last hP, by
      rw [normalize_cleanedSurname B hpunct last y hy, hyw, hnorm]⟩

/-- The ASCII engine ignores periods, commas and spaces when it normalizes. -/
theorem normalize_asciiEngine_punct (s : JSString) :
    normalize asciiEngine (s.filter fun c => c != '.' && c != ',' && c != ' ') =
      normalize asciiEngine s := by
  have hf := asciiLowerChar_transparent
  show ((s.filter _).map asciiLowerChar).filter isLowerAZ =
    (s.map asciiLowerChar).filter isLowerAZ
  induction s with
  | nil => rfl
  | cons c cs ih =>
    by_cases hk : (c != '.' && c != ',' && c != ' ') = true
    · simp only [List.filter_cons, hk, if_true, List.map_cons]
      rw [ih]
    · have hc : c = '.' ∨ c = ',' ∨ c = ' ' := by
        by_contra hne
        apply hk
        simp only [not_or] at hne
        simp [hne.1, hne.2.1, hne.2.2]
      have hlow : asciiLowerChar c = c := by
        rcases hc with rfl | rfl | rfl <;> decide
      have haz : isLowerAZ c = false := by
        rcases hc with rfl | rfl | rfl <;> decide
      simp only [List.filter_cons, hk, Bool.false_eq_true, if_false, List.map_cons, hlow, haz]
      exact ih

/-- C6: for an identity whose surname has two or more words, a candidate record whose
`lastName` is exactly the final word, or exactly the first word, of that surname
(read either before or after `buildLastNameCandidates` removes periods and commas),
where the word contains an ASCII letter, passes the surname gate with the exact-match
base of 50, and `pickBestTeacherMatch` returns it when it is the only candidate.  The
engine is assumed to normalize a string with an ASCII letter to a non-empty string, to
ignore periods, commas and spaces when it normalizes, and to keep a score of 35 points
or more above -1 when it adds the popularity term. -/
theorem compound_surname_word_matches (B : Builtins)
    (hletter : ∀ s, (∃ c ∈ s, isAsciiLetter c = true) → normalize B s ≠ [])
    (hpunct : ∀ s, normalize B (s.filter fun c => c != '.' && c != ',' && c != ' ') =
      normalize B s)
    (hpop : ∀ pts n, 35 ≤ pts → -1 < B.addPopularity pts n)
    (prof : ParsedProf) (t : Teacher) (w : JSString)
    (hword :
      (2 ≤ (surnameWords prof.last).length ∧
        (w = (surnameWords prof.last).getLastD [] ∨ w = (surnameWords prof.last).headD [])) ∨
      (2 ≤ (surnameParts prof.last).length ∧
        (w = (surnameParts prof.last).getLastD [] ∨ w = (surnameParts prof.last).headD [])))
    (hasLetter : ∃ c ∈ w, isAsciiLetter c = true)
    (ht : t.lastName = some w) :
    passesGate B prof t ∧ lastScore B prof t = 50 ∧
      pickBestTeacherMatch B [some t] prof = some t := by
  apply exact_surname_wins B hpop prof t
  rcases hword with ⟨hwords, hw⟩ | ⟨hwords, hw⟩
  · have hne : surnameWords prof.last ≠ [] := by
      intro h
      rw [h] at hwords
      exact absurd hwords (by decide)
    have hmem : w ∈ surnameWords prof.last := by
      rcases hw with rfl | rfl
      · exact getLastD_mem hne
      · exact headD_mem hne
    have htrim : trim w = w := trim_token (collapseAux_spaceOnly false _) hmem
    obtain ⟨cand, hcand, hn⟩ := surnameWord_candidate B hpunct prof.last w hwords hw hasLetter
    refine ⟨normalize B cand, List.mem_map.2 ⟨cand, hcand, rfl⟩, ?_, ?_⟩
    · rw [hn]
      exact hletter w hasLetter
    · unfold tLastNorm
      rw [ht, Option.getD_some, htrim, hn]
  · have hne : surnameParts prof.last ≠ [] := by
      intro h
      rw [h] at hwords
      exact absurd hwords (by decide)
    have hmem : w ∈ surnameParts prof.last := by
      rcases hw with rfl | rfl
      · exact getLastD_mem hne
      · exact headD_mem hne
    have htrim : trim w = w := trim_token (cleanedSurname_spaceOnly prof.last) hmem
    have hcand : w ∈ buildLastNameCandidates prof.last := by
      rcases hw with rfl | rfl
      · exact (mem_buildLastNameCandidates prof.last hwords).1
      · exact (mem_buildLastNameCandidates prof.last hwords).2
    refine ⟨normalize B w, List.mem_map.2 ⟨w, hcand, rfl⟩, hletter w hasLetter, ?_⟩
    unfold tLastNorm
    rw [ht, Option.getD_some, htrim]

theorem compound_surname_word_matches_witness :
    passesGate asciiEngine hamedaniProf hamedani ∧
      lastScore asciiEngine hamedaniProf hamedani = 50 ∧
      pickBestTeacherMatch asciiEngine [some hamedani] hamedaniProf = some hamedani :=
  compound_surname_word_matches asciiEngine normalize_asciiEngine_ne_nil
    normalize_asciiEngine_punct (fun pts n _ => samplePopularity_gt pts n) hamedaniProf hamedani
    "Hamedani".toList (Or.inl ⟨by decide, Or.inl (by decide)⟩) ⟨'H', by decide, by decide⟩ rfl

/-! ## The forms of a name without a comma -/

theorem tokens_nil : tokens [] = [] := rfl

theorem isEmpty_of_tokens_ne {s : JSString} (h : tokens s ≠ []) : s.isEmpty = false := by
  cases s with
  | nil => exact absurd tokens_nil h
  | cons _ _ => rfl

/-- The first word of every placeholder has three characters or more. -/
theorem placeholder_firstToken :
    ∀ s ∈ SKIP_NAMES, 3 ≤ ((tokens s).headD []).length := by
  decide

/-- A name whose first token has at most two characters is not sent to a
placeholder by the ASCII lower-casing. -/
theorem not_placeholder_of_short {n : JSString} (h : ((tokens n).headD []).length ≤ 2) :
    n.map asciiLowerChar ∉ SKIP_NAMES := by
  intro hmem
  have h3 := placeholder_firstToken _ hmem
  rw [tokens_map asciiLowerChar_transparent, headD_map_map, List.length_map] at h3
  omega

theorem isAsciiLetter_ne_dot {x : Char} (hx : isAsciiLetter x = true) : x ≠ '.' := by
  rintro rfl
  exact absurd hx (by decide)

/-- C13: provided the engine lower-cases the empty string to the empty string,
`parseProfessorName` returns an identity with `skip` true exactly when the cleaned
string, lower-cased, is one of the placeholders of `SKIP_NAMES`; the result is then
`{ skip: true, display: cleaned }` without `first`, `firstInitial` or `last`, and
every other identity it returns has `skip` false. -/
theorem parse_skip_iff_placeholder (B : Builtins) (hnil : B.toLowerCase [] = [])
    (raw : JSString) :
    ((∃ p, parseProfessorName B raw = some p ∧ p.skip = true) ↔
        B.toLowerCase (cleanProfessorDisplayName raw) ∈ SKIP_NAMES) ∧
      (B.toLowerCase (cleanProfessorDisplayName raw) ∈ SKIP_NAMES →
        parseProfessorName B raw = some
          { skip := true, display := cleanProfessorDisplayName raw, first := none,
            firstInitial := none, last := none }) ∧
      (∀ p, parseProfessorName B raw = some p →
        B.toLowerCase (cleanProfessorDisplayName raw) ∉ SKIP_NAMES → p.skip = false) := by
  have hskipped : B.toLowerCase (cleanProfessorDisplayName raw) ∈ SKIP_NAMES →
      parseProfessorName B raw = some
        { skip := true, display := cleanProfessorDisplayName raw, first := none,
          firstInitial := none, last := none } := by
    intro hmem
    have hne : (cleanProfessorDisplayName raw).isEmpty = false := by
      cases h : cleanProfessorDisplayName raw with
      | nil =>
        rw [h, hnil] at hmem
        exact absurd hmem (by decide)
      | cons _ _ => rfl
    unfold parseProfessorName
    simp only [hne, Bool.false_eq_true, if_false, hmem, if_true]
  have hother : ∀ p, parseProfessorName B raw = some p →
      B.toLowerCase (cleanProfessorDisplayName raw) ∉ SKIP_NAMES → p.skip = false := by
    intro p hp hmem
    unfold parseProfessorName at hp
    simp only [hmem, if_false] at hp
    split_ifs at hp <;> first
      | exact Option.noConfusion hp
      | (obtain rfl := Option.some.inj hp; rfl)
  refine ⟨⟨?_, ?_⟩, hskipped, hother⟩
  · rintro ⟨p, hp, hs⟩
    by_contra hmem
    rw [hother p hp hmem] at hs
    cases hs
  · intro hmem
    exact ⟨_, hskipped hmem, rfl⟩

theorem parse_skip_iff_placeholder_witness :
    ((∃ p, parseProfessorName asciiEngine " The  Staff".toList = some p ∧ p.skip = true) ↔
        asciiEngine.toLowerCase (cleanProfessorDisplayName " The  Staff".toList) ∈ SKIP_NAMES) ∧
      (asciiEngine.toLowerCase (cleanProfessorDisplayName " The  Staff".toList) ∈ SKIP_NAMES →
        parseProfessorName asciiEngine " The  Staff".toList = some
          { skip := true, display := cleanProfessorDisplayName " The  Staff".toList,
            first := none, firstInitial := none, last := none }) ∧
      (∀ p, parseProfessorName asciiEngine " The  Staff".toList = some p →
        asciiEngine.toLowerCase (cleanProfessorDisplayName " The  Staff".toList) ∉ SKIP_NAMES →
          p.skip = false) :=
  parse_skip_iff_placeholder asciiEngine rfl " The  Staff".toList

/-- C11 (as stated, refuted): the cleaned names `Ö Smith` and `É. Smith` have no
comma and begin with a token that is a single alphabetic character (U+00D6, U+00C9),
the second followed by a period; yet `first` is that token, not the empty string,
because the code recognises an initial with `/[A-Za-z]/`. -/
theorem accented_letter_not_an_initial :
    ',' ∉ cleanProfessorDisplayName "Ö Smith".toList ∧
      tokens (cleanProfessorDisplayName "Ö Smith".toList) =
        [[Char.ofNat 214], "Smith".toList] ∧
      parseProfessorName asciiEngine "Ö Smith".toList = some
        { skip := false, display := "Ö Smith".toList, first := some [Char.ofNat 214],
          firstInitial := some [Char.ofNat 214], last := some "Smith".toList } ∧
      ',' ∉ cleanProfessorDisplayName "É. Smith".toList ∧
      tokens (cleanProfessorDisplayName "É. Smith".toList) =
        [[Char.ofNat 201, '.'], "Smith".toList] ∧
      parseProfessorName asciiEngine "É. Smith".toList = some
        { skip := false, display := "É. Smith".toList, first := some [Char.ofNat 201, '.'],
          firstInitial := some [Char.ofNat 201], last := some "Smith".toList } := by
  decide

/-- C11 (amended): provided the engine lower-cases to a placeholder only the strings
that the ASCII lower-casing sends to it, for every raw string whose cleaned form has
no comma and whose first token is a single letter `x` of `A-Z` or `a-z`, optionally
followed by a period, `parseProfessorName` yields `first` empty, `firstInitial` = `x`
upper-cased, and `last` = the remaining tokens joined by single spaces, with `skip`
false and `display` the cleaned string. -/
theorem parse_initial_form (B : Builtins)
    (hskip : ∀ s, B.toLowerCase s ∈ SKIP_NAMES → s.map asciiLowerChar ∈ SKIP_NAMES)
    (raw : JSString) (x : Char)
    (hcomma : ',' ∉ cleanProfessorDisplayName raw)
    (hx : isAsciiLetter x = true)
    (htok : (tokens (cleanProfessorDisplayName raw)).headD [] = [x] ∨
      (tokens (cleanProfessorDisplayName raw)).headD [] = [x, '.']) :
    parseProfessorName B raw = some
      { skip := false
        display := cleanProfessorDisplayName raw
        first := some []
        firstInitial := some (B.toUpperCase [x])
        last := some (joinSpace ((tokens (cleanProfessorDisplayName raw)).drop 1)) } := by
  have hne : (cleanProfessorDisplayName raw).isEmpty = false := by
    apply isEmpty_of_tokens_ne
    intro h
    rw [h] at htok
    rcases htok with h | h <;> cases h
  have hplace : B.toLowerCase (cleanProfessorDisplayName raw) ∉ SKIP_NAMES := by
    intro hmem
    refine not_placeholder_of_short ?_ (hskip _ hmem)
    rcases htok with h | h <;> rw [h] <;> simp
  have herase : ((tokens (cleanProfessorDisplayName raw)).headD []).erase '.' = [x] := by
    have hdot := isAsciiLetter_ne_dot hx
    rcases htok with h | h <;> rw [h] <;> simp [List.erase_cons, hdot]
  unfold parseProfessorName
  simp only [hne, Bool.false_eq_true, if_false, hplace, hcomma, herase, List.length_singleton,
    beq_self_eq_true, List.any_cons, hx, List.any_nil, Bool.or_false, Bool.and_self, if_true]

theorem parse_initial_form_witness :
    parseProfessorName asciiEngine "j.  Smith Jones".toList = some
      { skip := false
        display := cleanProfessorDisplayName "j.  Smith Jones".toList
        first := some []
        firstInitial := some (asciiEngine.toUpperCase [ 'j'])
        last := some (joinSpace
          ((tokens (cleanProfessorDisplayName "j.  Smith Jones".toList)).drop 1)) } :=
  parse_initial_form asciiEngine (fun _ h => h) "j.  Smith Jones".toList 'j' (by decide)
    (by decide) (Or.inr (by decide))

/-- C12 (as stated, refuted): the cleaned name `.J Smith` has no comma, is not a
placeholder, has two tokens, and its first token `.J` is neither a single character
nor a character followed by a period; yet `first` is empty and `firstInitial` is
`J`, because `firstTok.replace(".", "")` removes a leading period as well. -/
theorem leading_period_read_as_initial :
    ',' ∉ cleanProfessorDisplayName ".J Smith".toList ∧
      asciiEngine.toLowerCase (cleanProfessorDisplayName ".J Smith".toList) ∉ SKIP_NAMES ∧
      tokens (cleanProfessorDisplayName ".J Smith".toList) = [".J".toList, "Smith".toList] ∧
      (∀ x : Char, ".J".toList ≠ [x] ∧ ".J".toList ≠ [x, '.']) ∧
      parseProfessorName asciiEngine ".J Smith".toList = some
        { skip := false, display := ".J Smith".toList, first := some [],
          firstInitial := some "J".toList, last := some "Smith".toList } := by
  refine ⟨by decide, by decide, by decide, ?_, by decide⟩
  intro x
  constructor
  · intro h
    cases h
  · intro h
    have h2 : 'J' = '.' := by
      have := List.cons.inj h
      exact List.head_eq_of_cons_eq this.2
    exact absurd h2 (by decide)

/-- C12 (amended): for every raw string whose cleaned form has no comma, is not a
placeholder, has two or more tokens, and whose first token, with its first period
removed, is not a single letter of `A-Z` or `a-z`, `parseProfessorName` yields
`first` = the first token, `last` = the remaining tokens joined by single spaces,
`skip` false and `display` the cleaned string; and `firstInitial` = the first
character of the first token, upper-cased, when that character lies in the Basic
Multilingual Plane, where the code unit taken by `slice(0, 1)` is the character. -/
theorem parse_first_last_form (B : Builtins) (raw : JSString)
    (hcomma : ',' ∉ cleanProfessorDisplayName raw)
    (hplace : B.toLowerCase (cleanProfessorDisplayName raw) ∉ SKIP_NAMES)
    (htwo : 2 ≤ (tokens (cleanProfessorDisplayName raw)).length)
    (hinit : ¬ ∃ x, isAsciiLetter x = true ∧
      ((tokens (cleanProfessorDisplayName raw)).headD []).erase '.' = [x]) :
    ∃ fi, parseProfessorName B raw = some
        { skip := false
          display := cleanProfessorDisplayName raw
          first := some ((tokens (cleanProfessorDisplayName raw)).headD [])
          firstInitial := some fi
          last := some (joinSpace ((tokens (cleanProfessorDisplayName raw)).drop 1)) } ∧
      ((∀ c ∈ ((tokens (cleanProfessorDisplayName raw)).headD []).take 1, c.toNat < 65536) →
        fi = B.toUpperCase (((tokens (cleanProfessorDisplayName raw)).headD []).take 1)) := by
  have hne : (cleanProfessorDisplayName raw).isEmpty = false := by
    apply isEmpty_of_tokens_ne
    intro h
    rw [h] at htwo
    simp at htwo
  have hno : ((((tokens (cleanProfessorDisplayName raw)).headD []).erase '.').length == 1 &&
      (((tokens (cleanProfessorDisplayName raw)).headD []).erase '.').any isAsciiLetter) =
        false := by
    rw [Bool.eq_false_iff]
    intro h
    rw [Bool.and_eq_true, beq_iff_eq] at h
    obtain ⟨x, hx⟩ := List.length_eq_one.1 h.1
    apply hinit
    refine ⟨x, ?_, hx⟩
    have h2 := h.2
    rw [hx] at h2
    simpa using h2
  refine ⟨B.toUpperCase (((tokens (cleanProfessorDisplayName raw)).headD []).take 1), ?_,
    fun _ => rfl⟩
  unfold parseProfessorName
  simp only [hne, Bool.false_eq_true, if_false, hplace, hcomma, hno, htwo, if_true]

theorem parse_first_last_form_witness :
    parseProfessorName asciiEngine "John  Smith".toList = some
      { skip := false, display := "John Smith".toList, first := some "John".toList,
        firstInitial := some "J".toList, last := some "Smith".toList } := by
  obtain ⟨fi, h1, h2⟩ :=
    parse_first_last_form asciiEngine "John  Smith".toList (by decide) (by decide) (by decide)
      (by
        rintro ⟨x, _, h⟩
        have h1 : ((tokens (cleanProfessorDisplayName "John  Smith".toList)).headD []).erase
            '.' = "John".toList := by decide
        rw [h1] at h
        cases h)
  rw [h2 (by decide)] at h1
  exact h1

/-! ## The surname of a parsed name -/

theorem trim_head_not_white {s r : JSString} {c : Char} (h : trim s = c :: r) :
    isWhiteSpace c = false := by
  rw [trim_eq] at h
  have hpre : (c :: r) <+: s.dropWhile isWhiteSpace := by
    rw [← h]
    exact List.rdropWhile_prefix _ _
  obtain ⟨t, ht⟩ := hpre
  have hnot := List.head_dropWhile_not isWhiteSpace s
  cases hd : s.dropWhile isWhiteSpace with
  | nil => rw [hd] at ht; cases ht
  | cons d ds =>
    rw [hd] at ht
    obtain rfl : c = d := (List.cons.inj ht).1
    have := hnot (by rw [hd]; exact List.cons_ne_nil _ _)
    simp only [hd, List.head_cons] at this
    simpa using this

theorem trim_cons_ne_nil {c : Char} {l : JSString} (hc : isWhiteSpace c = false) :
    trim (c :: l) ≠ [] := by
  rw [trim_eq, List.dropWhile_cons, hc]
  simp only [Bool.false_eq_true, if_false]
  intro h
  rw [List.rdropWhile_eq_nil_iff] at h
  have := h c (List.mem_cons_self _ _)
  rw [hc] at this
  cases this

theorem token_ne_nil {s t : JSString} (h : t ∈ tokens s) : t ≠ [] := by
  have := (List.mem_filter.1 h).2
  intro ht
  rw [ht] at this
  cases this

theorem joinSpace_ne_nil {ts : List JSString} (hne : ts ≠ []) (h : ∀ t ∈ ts, t ≠ []) :
    joinSpace ts ≠ [] := by
  cases ts with
  | nil => exact absurd rfl hne
  | cons t us =>
    have ht := h t (List.mem_cons_self _ _)
    cases us with
    | nil => exact ht
    | cons u vs =>
      rw [joinSpace_cons_cons]
      intro h0
      exact ht (List.append_eq_nil.1 h0).1

theorem rest_ne_nil {s : JSString} (h : 2 ≤ (tokens s).length) :
    joinSpace ((tokens s).drop 1) ≠ [] := by
  apply joinSpace_ne_nil
  · intro h0
    have := congrArg List.length h0
    rw [List.length_drop] at this
    simp only [List.length_nil] at this
    omega
  · intro t ht
    exact token_ne_nil (List.mem_of_mem_drop ht)

/-- C17 (as stated, refuted): the cleaned name `, John` has two tokens and
`parseProfessorName` returns an identity that is not skipped, whose `last` is empty. -/
theorem empty_last_before_comma :
    (tokens (cleanProfessorDisplayName ", John".toList)).length = 2 ∧
      parseProfessorName asciiEngine ", John".toList = some
        { skip := false, display := ", John".toList, first := some "John".toList,
          firstInitial := some "J".toList, last := some [] } := by
  decide

/-- C17 (amended): for every raw string for which `parseProfessorName` returns an
identity that is not skipped, `last` is present and non-empty unless the cleaned name
is a single token or begins with a comma. -/
theorem last_nonempty_of_parsed (B : Builtins) (raw : JSString) (p : ParsedProf)
    (hp : parseProfessorName B raw = some p) (hskip : p.skip = false)
    (hmulti : (tokens (cleanProfessorDisplayName raw)).length ≠ 1)
    (hhead : (cleanProfessorDisplayName raw).head? ≠ some ',') :
    ∃ l, p.last = some l ∧ l ≠ [] := by
  unfold parseProfessorName at hp
  cases hn : cleanProfessorDisplayName raw with
  | nil =>
    rw [hn] at hp
    exact Option.noConfusion hp
  | cons c r =>
    have hc : isWhiteSpace c = false := trim_head_not_white hn
    have hcc : c ≠ ',' := by
      intro h
      rw [hn, h] at hhead
      exact hhead rfl
    have hne : (cleanProfessorDisplayName raw).isEmpty = false := by rw [hn]; rfl
    simp only [hne, Bool.false_eq_true, if_false] at hp
    split_ifs at hp with h1 h2 h3 h4
    · obtain rfl := Option.some.inj hp
      cases hskip
    · obtain rfl := Option.some.inj hp
      refine ⟨_, rfl, ?_⟩
      rw [getD_map_trim, split_getD_zero, hn, List.takeWhile_cons]
      have hb : (c != ',') = true := by simpa using hcc
      rw [if_pos hb]
      exact trim_cons_ne_nil hc
    · obtain rfl := Option.some.inj hp
      refine ⟨_, rfl, rest_ne_nil ?_⟩
      have htok : tokens (cleanProfessorDisplayName raw) ≠ [] := by
        intro h0
        rw [h0] at h3
        simp at h3
      have : (tokens (cleanProfessorDisplayName raw)).length ≠ 0 := by
        rwa [Ne, List.length_eq_zero]
      omega
    · obtain rfl := Option.some.inj hp
      exact ⟨_, rfl, rest_ne_nil h4⟩
    · obtain rfl := Option.some.inj hp
      refine ⟨_, rfl, ?_⟩
      rw [hn]
      exact List.cons_ne_nil _ _

theorem last_nonempty_of_parsed_witness :
    ∃ l, smithProf.last = some l ∧ l ≠ [] :=
  last_nonempty_of_parsed asciiEngine " John  Smith".toList smithProf (by decide) rfl
    (by decide) (by decide)

/-! ## The list of surname candidates -/

theorem setAdd_nodup {out : List JSString} (x : JSString) (h : out.Nodup) :
    (setAdd out x).Nodup := by
  unfold setAdd
  split_ifs with hx
  · exact h
  · rw [List.nodup_append]
    refine ⟨h, List.nodup_singleton _, ?_⟩
    intro a ha hb
    rw [List.mem_singleton] at hb
    exact hx (hb ▸ ha)

theorem mem_setAdd_iff {out : List JSString} {x y : JSString} :
    y ∈ setAdd out x ↔ y ∈ out ∨ y = x := by
  unfold setAdd
  split_ifs with hx
  · constructor
    · exact Or.inl
    · rintro (h | rfl)
      · exact h
      · exact hx
  · simp

/-- C14 (as stated, refuted): for the surname `. Smith` the cleaned surname is
` Smith` (the period is removed after trimming), its only word is `Smith`, and the
result is the one-element list holding ` Smith`, which does not contain the word. -/
theorem candidates_miss_the_word :
    cleanedSurname (some ". Smith".toList) = " Smith".toList ∧
      surnameParts (some ". Smith".toList) = ["Smith".toList] ∧
      buildLastNameCandidates (some ". Smith".toList) = [" Smith".toList] ∧
      "Smith".toList ∉ buildLastNameCandidates (some ". Smith".toList) := by
  decide

/-- C14 (amended): `buildLastNameCandidates` returns a duplicate-free list; it is
empty when the cleaned surname (trimmed, whitespace collapsed, periods and commas
removed) is empty; when the cleaned surname has two or more words its elements are
exactly the cleaned surname, its final word and its first word; and otherwise it is
the one-element list holding the cleaned surname. -/
theorem buildLastNameCandidates_elements (last : Option JSString) :
    (buildLastNameCandidates last).Nodup ∧
      (cleanedSurname last = [] → buildLastNameCandidates last = []) ∧
      (2 ≤ (surnameParts last).length → ∀ x, x ∈ buildLastNameCandidates last ↔
        x = cleanedSurname last ∨ x = (surnameParts last).getLastD [] ∨
          x = (surnameParts last).headD []) ∧
      (cleanedSurname last ≠ [] → (surnameParts last).length < 2 →
        buildLastNameCandidates last = [cleanedSurname last]) := by
  refine ⟨?_, ?_, ?_, ?_⟩
  · unfold buildLastNameCandidates
    simp only
    split_ifs
    · exact List.nodup_nil
    · exact setAdd_nodup _ (setAdd_nodup _ (List.nodup_singleton _))
    · exact List.nodup_singleton _
  · intro h
    unfold buildLastNameCandidates
    simp [h]
  · intro h x
    have hne : (cleanedSurname last).isEmpty = false := by
      cases hc : cleanedSurname last with
      | nil =>
        unfold surnameParts at h
        rw [hc] at h
        simp [tokens, split] at h
      | cons _ _ => rfl
    unfold buildLastNameCandidates
    simp only [hne, Bool.false_eq_true, if_false, h, if_true, mem_setAdd_iff,
      List.mem_singleton, or_assoc]
  · intro hne h
    have hne2 : (cleanedSurname last).isEmpty = false := (isEmpty_eq_false_iff_ne _).2 hne
    unfold buildLastNameCandidates
    simp only [hne2, Bool.false_eq_true, if_false, Nat.not_le.2 h]

theorem buildLastNameCandidates_elements_witness :
    "Hamedani".toList ∈ buildLastNameCandidates (some " Sadoghi  Hamedani, Jr.".toList) ↔
      "Hamedani".toList = cleanedSurname (some " Sadoghi  Hamedani, Jr.".toList) ∨
        "Hamedani".toList = (surnameParts (some " Sadoghi  Hamedani, Jr.".toList)).getLastD [] ∨
        "Hamedani".toList = (surnameParts (some " Sadoghi  Hamedani, Jr.".toList)).headD [] :=
  (buildLastNameCandidates_elements (some " Sadoghi  Hamedani, Jr.".toList)).2.2.1 (by decide)
    "Hamedani".toList

/-! ## The popularity term -/

theorem FloatOps.Sound.round_zero {F : FloatOps} (hS : F.Sound) : F.round 0 = 0 := by
  simpa using hS.round_nat 0 (by norm_num)

theorem FloatOps.Sound.round_one {F : FloatOps} (hS : F.Sound) : F.round 1 = 1 := by
  simpa using hS.round_nat 1 (by norm_num)

theorem FloatOps.Sound.one_le_round {F : FloatOps} (hS : F.Sound) (n : Nat) :
    1 ≤ F.round (n + 1) := by
  have h := hS.round_mono 1 (n + 1) (by simp)
  rwa [hS.round_one] at h

theorem FloatOps.Sound.bonus_nonneg {F : FloatOps} (hS : F.Sound) (n : Nat) :
    0 ≤ F.bonus n := by
  unfold FloatOps.bonus
  refine le_min (by norm_num) ?_
  have hlog : 0 ≤ F.log10 (F.round (n + 1)) := by
    have h := hS.log10_mono 1 (F.round (n + 1)) (by norm_num) (hS.one_le_round n)
    rwa [hS.log10_one] at h
  have h := hS.round_mono 0 (F.log10 (F.round (n + 1)) * 5) (by positivity)
  rwa [hS.round_zero] at h

theorem FloatOps.bonus_le (F : FloatOps) (n : Nat) : F.bonus n ≤ 10 :=
  min_le_left _ _

theorem FloatOps.Sound.bonus_mono {F : FloatOps} (hS : F.Sound) {n m : Nat} (h : n ≤ m) :
    F.bonus n ≤ F.bonus m := by
  unfold FloatOps.bonus
  refine min_le_min le_rfl (hS.round_mono _ _ ?_)
  refine mul_le_mul_of_nonneg_right ?_ (by norm_num)
  refine hS.log10_mono _ _ (lt_of_lt_of_le (by norm_num) (hS.one_le_round n)) ?_
  refine hS.round_mono _ _ ?_
  have : (n : ℚ) ≤ m := by exact_mod_cast h
  linarith

theorem FloatOps.Sound.addPopularity_mono {F : FloatOps} (hS : F.Sound) (pts : Nat) {n m : Nat}
    (h : n ≤ m) : F.addPopularity pts n ≤ F.addPopularity pts m := by
  unfold FloatOps.addPopularity
  exact hS.round_mono _ _ (by linarith [hS.bonus_mono h])

theorem FloatOps.Sound.le_addPopularity {F : FloatOps} (hS : F.Sound) {pts : Nat}
    (hpts : pts ≤ 2 ^ 53) (n : Nat) : (pts : ℚ) ≤ F.addPopularity pts n := by
  unfold FloatOps.addPopularity
  have h := hS.round_mono pts (pts + F.bonus n) (by linarith [hS.bonus_nonneg n])
  rwa [hS.round_nat pts hpts] at h

theorem FloatOps.Sound.addPopularity_le {F : FloatOps} (hS : F.Sound) {pts : Nat}
    (hpts : pts + 10 ≤ 2 ^ 53) (n : Nat) : F.addPopularity pts n ≤ (pts : ℚ) + 10 := by
  unfold FloatOps.addPopularity
  have h := hS.round_mono (pts + F.bonus n) ((pts + 10 : Nat) : ℚ)
    (by push_cast; linarith [F.bonus_le n])
  rw [hS.round_nat (pts + 10) hpts] at h
  exact_mod_cast h

theorem namePoints_le (B : Builtins) (prof : ParsedProf) (t : Teacher) :
    namePoints B prof t ≤ 80 := by
  rw [namePoints_eq]
  unfold surnameBase firstNameBonus initialBonus
  split_ifs <;> omega

theorem sampleFloat_sound : sampleFloat.Sound where
  round_mono _ _ h := h
  round_nat _ _ := rfl
  log10_mono a b _ h := by
    show ((Nat.log 10 ⌊a⌋₊ : Nat) : ℚ) ≤ ((Nat.log 10 ⌊b⌋₊ : Nat) : ℚ)
    exact_mod_cast Nat.log_mono_right (Nat.floor_mono h)
  log10_one := by
    show ((Nat.log 10 ⌊(1 : ℚ)⌋₊ : Nat) : ℚ) = 0
    simp

theorem sampleFloat_addPopularity (pts n : Nat) :
    asciiEngine.addPopularity pts n = sampleFloat.addPopularity pts n := by
  show samplePopularity pts n = sampleFloat.addPopularity pts n
  unfold samplePopularity FloatOps.addPopularity FloatOps.bonus sampleFloat
  simp only [id]
  have h : ⌊((n : ℚ) + 1)⌋₊ = n + 1 := by
    have : ((n : ℚ) + 1) = ((n + 1 : Nat) : ℚ) := by push_cast; rfl
    rw [this, Nat.floor_natCast]
  rw [h]
  push_cast
  rw [mul_comm]

/-- C15: with double-precision arithmetic whose rounding is monotone and exact on
small integers and whose `Math.log10` is monotone, two candidates that pass the
surname gate with the same surname base, first-name bonus and initial bonus are
both scored, and the one with strictly more ratings gets a score at least that of
the other; the popularity term `min(10, log10(numRatings + 1) * 5)` itself is
non-decreasing in `numRatings`. -/
theorem score_monotone_in_numRatings (B : Builtins) (F : FloatOps) (hS : F.Sound)
    (hF : ∀ pts n, B.addPopularity pts n = F.addPopularity pts n)
    (prof : ParsedProf) (a b : Teacher)
    (ha : passesGate B prof a) (hb : passesGate B prof b)
    (hbase : surnameBase B prof a = surnameBase B prof b)
    (hfirst : firstNameBonus B prof a = firstNameBonus B prof b)
    (hinit : initialBonus B prof a = initialBonus B prof b)
    (hlt : a.numRatings < b.numRatings) :
    (∃ sa sb, teacherScore B prof a = some sa ∧ teacherScore B prof b = some sb ∧ sa ≤ sb) ∧
      F.bonus a.numRatings ≤ F.bonus b.numRatings ∧
      ∀ n m : Nat, n ≤ m → F.bonus n ≤ F.bonus m := by
  refine ⟨⟨totalScore B prof a, totalScore B prof b,
    (teacherScore_eq_some_iff B prof a _).2 ⟨ha, rfl⟩,
    (teacherScore_eq_some_iff B prof b _).2 ⟨hb, rfl⟩, ?_⟩,
    hS.bonus_mono (le_of_lt hlt), fun n m h => hS.bonus_mono h⟩
  unfold totalScore
  rw [namePoints_eq, namePoints_eq, hbase, hfirst, hinit, hF, hF]
  exact hS.addPopularity_mono _ (le_of_lt hlt)

theorem score_monotone_in_numRatings_witness :
    (∃ sa sb, teacherScore asciiEngine smithProf smithJohn = some sa ∧
        teacherScore asciiEngine smithProf { smithJohn with numRatings := 99 } = some sb ∧
        sa ≤ sb) ∧
      sampleFloat.bonus smithJohn.numRatings ≤ sampleFloat.bonus 99 ∧
      ∀ n m : Nat, n ≤ m → sampleFloat.bonus n ≤ sampleFloat.bonus m :=
  score_monotone_in_numRatings asciiEngine sampleFloat sampleFloat_sound
    sampleFloat_addPopularity smithProf smithJohn { smithJohn with numRatings := 99 }
    ((lastScore_ne_zero_iff _ _ _).1 (by decide)) ((lastScore_ne_zero_iff _ _ _).1 (by decide))
    (by decide) (by decide) (by decide) (by decide)

/-- C16 (as stated, refuted): for the identity `John Smith`, the record `Kim Smith`
with no ratings has 50 name-match points and the record `Jane Smithson` with 99
ratings has 45, both pass the surname gate, and `pickBestTeacherMatch` returns
`Jane Smithson` in either order: 45 + 10 beats 50 + 0. -/
theorem popularity_outweighs_name_match :
    passesGate asciiEngine smithProf smithKim ∧ passesGate asciiEngine smithProf smithsonJane ∧
      surnameBase asciiEngine smithProf smithKim + firstNameBonus asciiEngine smithProf smithKim +
        initialBonus asciiEngine smithProf smithKim = 50 ∧
      surnameBase asciiEngine smithProf smithsonJane +
        firstNameBonus asciiEngine smithProf smithsonJane +
        initialBonus asciiEngine smithProf smithsonJane = 45 ∧
      pickBestTeacherMatch asciiEngine [some smithKim, some smithsonJane] smithProf =
        some smithsonJane ∧
      pickBestTeacherMatch asciiEngine [some smithsonJane, some smithKim] smithProf =
        some smithsonJane := by
  have hlog : Nat.log 10 100 = 2 := by
    rw [Nat.log_eq_iff (Or.inl (by norm_num))]
    norm_num
  have hK : teacherScore asciiEngine smithProf smithKim = some 50 := by
    have h1 : lastScore asciiEngine smithProf smithKim = 50 := by decide
    have h2 : namePoints asciiEngine smithProf smithKim = 50 := by decide
    unfold teacherScore
    rw [h1, h2]
    simp [asciiEngine, samplePopularity, smithKim]
  have hJ : teacherScore asciiEngine smithProf smithsonJane = some 55 := by
    have h1 : lastScore asciiEngine smithProf smithsonJane = 35 := by decide
    have h2 : namePoints asciiEngine smithProf smithsonJane = 45 := by decide
    unfold teacherScore
    rw [h1, h2]
    simp [asciiEngine, samplePopularity, smithsonJane, hlog]
  refine ⟨(lastScore_ne_zero_iff _ _ _).1 (by decide), (lastScore_ne_zero_iff _ _ _).1 (by decide),
    by decide, by decide, ?_, ?_⟩
  · rw [pickBestTeacherMatch_eq_foldl]
    simp [pickStep, hK, hJ]
    norm_num
  · rw [pickBestTeacherMatch_eq_foldl]
    simp [pickStep, hK, hJ]
    norm_num

/-- C16 (amended): with double-precision arithmetic whose rounding is monotone and
exact on small integers and whose `Math.log10` is monotone, the popularity bonus
`min(10, log10(numRatings + 1) * 5)` lies between 0 and 10, and it outweighs a
difference in name-match points of at most 10: if candidate `a` of the edge list
passes the surname gate and its name-match points (surname base plus first-name
bonus plus initial bonus) exceed those of `b` by more than 10, then
`pickBestTeacherMatch` does not return `b`, whatever the numbers of ratings. -/
theorem popularity_bonus_bounded (B : Builtins) (F : FloatOps) (hS : F.Sound)
    (hF : ∀ pts n, B.addPopularity pts n = F.addPopularity pts n)
    (prof : ParsedProf) (edges : List (Option Teacher)) (a b : Teacher)
    (hmem : some a ∈ edges) (ha : passesGate B prof a)
    (hgap : surnameBase B prof b + firstNameBonus B prof b + initialBonus B prof b + 10 <
      surnameBase B prof a + firstNameBonus B prof a + initialBonus B prof a) :
    (∀ n, 0 ≤ F.bonus n ∧ F.bonus n ≤ 10) ∧ pickBestTeacherMatch B edges prof ≠ some b := by
  refine ⟨fun n => ⟨hS.bonus_nonneg n, F.bonus_le n⟩, ?_⟩
  intro hres
  rw [← namePoints_eq, ← namePoints_eq] at hgap
  have hscore_a : teacherScore B prof a = some (totalScore B prof a) :=
    (teacherScore_eq_some_iff B prof a _).2 ⟨ha, rfl⟩
  have hle : totalScore B prof a ≤ totalScore B prof b := by
    rw [pickBestTeacherMatch_eq_foldl] at hres
    rcases foldl_pickStep B prof (edges.filterMap id) (none, -1) with
      ⟨h1, _⟩ | ⟨pre, u, post, s, hl, hfold, hu, _, hpre, hpost⟩
    · rw [h1] at hres; cases hres
    · rw [hfold] at hres
      obtain rfl : u = b := Option.some.inj hres
      obtain ⟨_, hs⟩ := (teacherScore_eq_some_iff B prof u s).1 hu
      have hin : a ∈ pre ++ u :: post := by
        rw [← hl]
        exact (mem_filterMap_id edges a).2 hmem
      rw [← hs]
      rcases List.mem_append.1 hin with h | h
      · exact le_of_lt (hpre a h _ hscore_a)
      · rcases List.mem_cons.1 h with h | h
        · rw [h, hs]
        · exact hpost a h _ hscore_a
  have h80a := namePoints_le B prof a
  have h80b := namePoints_le B prof b
  have h1 : (namePoints B prof a : ℚ) ≤ totalScore B prof a := by
    unfold totalScore
    rw [hF]
    exact hS.le_addPopularity (le_trans h80a (by norm_num)) _
  have h2 : totalScore B prof b ≤ (namePoints B prof b : ℚ) + 10 := by
    unfold totalScore
    rw [hF]
    exact hS.addPopularity_le (le_trans (Nat.add_le_add_right h80b 10) (by norm_num)) _
  have h3 : ((namePoints B prof b + 10 : Nat) : ℚ) < (namePoints B prof a : ℚ) := by
    exact_mod_cast hgap
  push_cast at h3
  linarith

theorem popularity_bonus_bounded_witness :
    (∀ n, 0 ≤ sampleFloat.bonus n ∧ sampleFloat.bonus n ≤ 10) ∧
      pickBestTeacherMatch asciiEngine [some smithsonJane, some smithJohn] smithProf ≠
        some smithsonJane :=
  popularity_bonus_bounded asciiEngine sampleFloat sampleFloat_sound sampleFloat_addPopularity
    smithProf [some smithsonJane, some smithJohn] smithJohn smithsonJane (by decide)
    ((lastScore_ne_zero_iff _ _ _).1 (by decide)) (by decide)

/-! ## Records without a usable surname -/

/-- C20: for an identity with a surname candidate that normalizes to a non-empty
string, a record whose `lastName` normalizes to the empty string passes the surname
gate with base score 35 (the empty string is contained in every candidate), and
`pickBestTeacherMatch` returns it when it is the only candidate; the popularity
term is assumed to keep a score of 35 points or more above -1. -/
theorem empty_surname_record_matches (B : Builtins)
    (hpop : ∀ pts n, 35 ≤ pts → -1 < B.addPopularity pts n) (prof : ParsedProf) (t : Teacher)
    (hcand : ∃ s ∈ buildLastNameCandidates prof.last, normalize B s ≠ [])
    (hempty : normalize B (trim (t.lastName.getD [])) = []) :
    passesGate B prof t ∧ lastScore B prof t = 35 ∧ surnameBase B prof t = 35 ∧
      pickBestTeacherMatch B [some t] prof = some t := by
  obtain ⟨s, hs, hne⟩ := hcand
  have hmem : normalize B s ∈ qLastCandidates B prof := List.mem_map.2 ⟨s, hs, rfl⟩
  have ht : tLastNorm B t = [] := hempty
  have hgate : passesGate B prof t :=
    ⟨normalize B s, hmem, hne, Or.inr (Or.inr (by rw [ht]; exact List.nil_infix))⟩
  have hbase : surnameBase B prof t = 35 := by
    unfold surnameBase
    have h50 : ¬ ∃ ql ∈ qLastCandidates B prof, ql ≠ [] ∧ tLastNorm B t = ql := by
      rintro ⟨ql, _, h1, h2⟩
      exact h1 (by rw [← h2, ht])
    rw [if_neg h50, if_pos ⟨normalize B s, hmem, hne, Or.inr (by rw [ht]; exact List.nil_infix)⟩]
  refine ⟨hgate, ?_, hbase, ?_⟩
  · rw [lastScore_eq_surnameBase, hbase]
  · exact pickBestTeacherMatch_single B prof t hgate
      (hpop _ _ (namePoints_ge_of_passesGate hgate))

theorem empty_surname_record_matches_witness :
    passesGate asciiEngine smithProf noSurname ∧ lastScore asciiEngine smithProf noSurname = 35 ∧
      surnameBase asciiEngine smithProf noSurname = 35 ∧
      pickBestTeacherMatch asciiEngine [some noSurname] smithProf = some noSurname :=
  empty_surname_record_matches asciiEngine (fun pts n _ => samplePopularity_gt pts n)
    smithProf noSurname ⟨"Smith".toList, by decide, by decide⟩ (by decide)

/-! ## The pending marker after a synchronous completion -/

/-- C18 (divergence): when a call of `requestRatingCached` for a key in neither map
completes inside the promise executor (the runtime id is absent, or `sendMessage`
throws), the executor's `inFlight.delete(key)` runs before the trailing
`inFlight.set(key, p)`, so after the call the key is in `rmpCache` and still in
`inFlight`. -/
theorem sync_completion_keeps_pending (B : Builtins) (s : Session) (parsedProf : ParsedProf)
    (env : CallEnv)
    (hcache : s.rmpCache (profKey B parsedProf) = none)
    (hflight : s.inFlight (profKey B parsedProf) = none)
    (hsync : env.runtimeId = false ∨ env.sendThrows ≠ none) :
    (requestRatingCached B s parsedProf env).2.rmpCache (profKey B parsedProf) ≠ none ∧
      (requestRatingCached B s parsedProf env).2.inFlight (profKey B parsedProf) =
        some s.nextPromise := by
  unfold requestRatingCached
  simp only [hcache, hflight]
  rcases hsync with h | h
  · simp [h, Session.complete, JSMap.set]
  · cases hid : env.runtimeId with
    | false => simp [Session.complete, JSMap.set]
    | true =>
      cases hthrow : env.sendThrows with
      | none => exact absurd hthrow h
      | some e => simp [Session.complete, JSMap.set]

theorem sync_completion_keeps_pending_witness :
    (requestRatingCached asciiEngine Session.empty smithProf deadEnv).2.rmpCache
        (profKey asciiEngine smithProf) ≠ none ∧
      (requestRatingCached asciiEngine Session.empty smithProf deadEnv).2.inFlight
        (profKey asciiEngine smithProf) = some Session.empty.nextPromise :=
  sync_completion_keeps_pending asciiEngine Session.empty smithProf deadEnv rfl rfl
    (Or.inl rfl)

/-! ## The shape of a cleaned name -/

theorem SpaceOnly.not_white {s : JSString} (h : SpaceOnly s) {c : Char} (hc : c ∈ s)
    (hne : c ≠ ' ') : isWhiteSpace c = false := by
  cases hw : isWhiteSpace c with
  | false => rfl
  | true => exact absurd (h c hc hw) hne

theorem not_white_ne_space {c : Char} (h : isWhiteSpace c = false) : c ≠ ' ' := by
  rintro rfl
  exact absurd h (by decide)

theorem trim_fixed {s : JSString} (hhead : ∀ c r, s = c :: r → isWhiteSpace c = false)
    (hlast : ∀ r c, s = r ++ [c] → isWhiteSpace c = false) : trim s = s := by
  have h1 : s.dropWhile isWhiteSpace = s := by
    cases s with
    | nil => rfl
    | cons c r =>
      rw [List.dropWhile_cons, hhead c r rfl]
      rfl
  rw [trim_eq, h1, List.rdropWhile_eq_self_iff]
  intro hl
  rw [hlast _ _ (List.dropLast_append_getLast hl).symm]
  exact Bool.false_ne_true

theorem trim_last_not_white {s r : JSString} {c : Char} (h : trim s = r ++ [c]) :
    isWhiteSpace c = false := by
  rw [trim_eq] at h
  have hne : (s.dropWhile isWhiteSpace).rdropWhile isWhiteSpace ≠ [] := by
    rw [h]
    exact List.append_ne_nil_of_right_ne_nil _ (List.cons_ne_nil _ _)
  have := List.rdropWhile_last_not (p := isWhiteSpace) (l := s.dropWhile isWhiteSpace) hne
  have hl : ((s.dropWhile isWhiteSpace).rdropWhile isWhiteSpace).getLast hne = c := by
    simp only [h, List.getLast_append_singleton]
  rw [hl] at this
  simpa using this

theorem trim_within (s : JSString) : trim s <:+: s := by
  rw [trim_eq]
  exact (List.rdropWhile_prefix _ _).isInfix.trans (List.dropWhile_suffix _).isInfix

theorem trim_trim (s : JSString) : trim (trim s) = trim s :=
  trim_fixed (fun _ _ h => trim_head_not_white h) (fun _ _ h => trim_last_not_white h)

theorem collapseAux_chain (b : Bool) (s : JSString) :
    (collapseAux b s).Chain' (fun a b => ¬ (a = ' ' ∧ b = ' ')) ∧
      (b = true → ∀ c r, collapseAux b s = c :: r → isWhiteSpace c = false) := by
  induction s generalizing b with
  | nil => exact ⟨List.chain'_nil, fun _ c r h => by cases h⟩
  | cons c cs ih =>
    unfold collapseAux
    by_cases hw : isWhiteSpace c = true
    · rw [if_pos hw]
      cases b with
      | true => exact ih true
      | false =>
        refine ⟨(ih true).1.cons' ?_, fun h => by cases h⟩
        intro y hy hsp
        cases hout : collapseAux true cs with
        | nil => rw [hout] at hy; cases hy
        | cons d ds =>
          rw [hout] at hy
          obtain rfl : d = y := by simpa using hy
          have := (ih true).2 rfl d ds hout
          rw [hsp.2] at this
          exact absurd this (by decide)
    · rw [if_neg hw]
      have hc : isWhiteSpace c = false := by simpa using hw
      refine ⟨(ih false).1.cons' ?_, ?_⟩
      · intro y _ hsp
        rw [hsp.1] at hc
        exact absurd hc (by decide)
      · intro _ d r h
        obtain rfl : c = d := (List.cons.inj h).1
        exact hc

theorem replaceNbsp_collapseAux (b : Bool) (s : JSString) :
    replaceNbsp (collapseAux b s) = collapseAux b s := by
  unfold replaceNbsp
  conv_rhs => rw [← List.map_id (collapseAux b s)]
  apply List.map_congr_left
  intro c hc
  by_cases h160 : (c.toNat == 160) = true
  · rw [if_pos h160]
    have hw : isWhiteSpace c = true := by
      have : c.toNat = 160 := by simpa using h160
      unfold isWhiteSpace
      simp [this]
    exact (collapseAux_spaceOnly b s c hc hw).symm
  · rw [if_neg h160]
    rfl

theorem tidy_clean (raw : JSString) : Tidy (cleanProfessorDisplayName raw) where
  spaceOnly := cleanProfessorDisplayName_spaceOnly raw
  chain := by
    unfold cleanProfessorDisplayName collapseWhitespace
    rw [replaceNbsp_collapseAux]
    exact List.Chain'.infix (collapseAux_chain false raw).1 (trim_within _)
  head c r h := not_white_ne_space (trim_head_not_white h)
  last r c h := not_white_ne_space (trim_last_not_white h)

theorem Tidy.trim_id {s : JSString} (h : Tidy s) : trim s = s :=
  trim_fixed
    (fun c r hs => h.spaceOnly.not_white (hs ▸ List.mem_cons_self _ _) (h.head c r hs))
    (fun r c hs => h.spaceOnly.not_white (hs ▸ List.mem_append_right _ (List.mem_singleton_self _))
      (h.last r c hs))

theorem collapseAux_fixed (s : JSString) (hs : SpaceOnly s)
    (hc : s.Chain' fun a b => ¬ (a = ' ' ∧ b = ' ')) :
    collapseAux false s = s ∧ ((∀ c r, s = c :: r → c ≠ ' ') → collapseAux true s = s) := by
  induction s with
  | nil => exact ⟨rfl, fun _ => rfl⟩
  | cons c cs ih =>
    obtain ⟨ih1, ih2⟩ := ih hs.tail hc.tail
    by_cases hw : isWhiteSpace c = true
    · have hsp : c = ' ' := hs c (List.mem_cons_self _ _) hw
      refine ⟨?_, fun h => absurd hsp (h c cs rfl)⟩
      unfold collapseAux
      rw [if_pos hw, hsp]
      simp only [Bool.false_eq_true, if_false]
      rw [ih2]
      intro d r hd
      rw [hd, hsp] at hc
      intro hd2
      exact (List.chain'_cons.1 hc).1 ⟨rfl, hd2⟩
    · have h1 : ∀ b, collapseAux b (c :: cs) = c :: cs := by
        intro b
        unfold collapseAux
        rw [if_neg hw, ih1]
      exact ⟨h1 false, fun _ => h1 true⟩

theorem Tidy.collapse_eq_self {s : JSString} (h : Tidy s) : collapseWhitespace s = s :=
  (collapseAux_fixed s h.spaceOnly h.chain).1

theorem joinSpace_split (s : JSString) : joinSpace (split ' ' s) = s := by
  induction s with
  | nil => rfl
  | cons c cs ih =>
    rw [split]
    cases hsp : split ' ' cs with
    | nil => exact absurd hsp (split_ne_nil _ _)
    | cons p ps =>
      rw [hsp] at ih
      by_cases hc : c = ' '
      · rw [if_pos hc, joinSpace_cons_cons, ih, hc]
        rfl
      · rw [if_neg hc]
        cases ps with
        | nil =>
          simp only [joinSpace] at ih ⊢
          rw [ih]
        | cons q qs =>
          rw [joinSpace_cons_cons] at ih
          simp only []
          rw [joinSpace_cons_cons, List.cons_append, ih]

theorem split_tail_no_empty (s : JSString) (hc : s.Chain' fun a b => ¬ (a = ' ' ∧ b = ' '))
    (hlast : ∀ r c, s = r ++ [c] → c ≠ ' ') : [] ∉ (split ' ' s).tail := by
  induction s with
  | nil => simp [split]
  | cons c cs ih =>
    have hlast' : ∀ r d, cs = r ++ [d] → d ≠ ' ' := fun r d h =>
      hlast (c :: r) d (by rw [h]; rfl)
    have ih' := ih hc.tail hlast'
    rw [split]
    by_cases hsp : c = ' '
    · rw [if_pos hsp, List.tail_cons]
      cases cs with
      | nil => exact absurd hsp (hlast [] c rfl)
      | cons d ds =>
        have hd : d ≠ ' ' := fun hd => (List.chain'_cons.1 hc).1 ⟨hsp, hd⟩
        rw [split, if_neg hd] at ih' ⊢
        cases hds : split ' ' ds with
        | nil =>
          simp
        | cons p ps =>
          rw [hds] at ih'
          simp only [List.tail_cons] at ih'
          simp only [List.mem_cons, not_or]
          exact ⟨fun h => List.noConfusion h, ih'⟩
    · rw [if_neg hsp]
      cases hcs : split ' ' cs with
      | nil => simp
      | cons p ps =>
        rw [hcs] at ih'
        simpa using ih'

theorem Tidy.join_tokens {s : JSString} (h : Tidy s) : joinSpace (tokens s) = s := by
  cases s with
  | nil => rfl
  | cons c cs =>
    have htail := split_tail_no_empty (c :: cs) h.chain h.last
    have hc : c ≠ ' ' := h.head c cs rfl
    have hall : tokens (c :: cs) = split ' ' (c :: cs) := by
      unfold tokens
      rw [List.filter_eq_self]
      intro t ht
      rw [split, if_neg hc] at ht htail
      cases hcs : split ' ' cs with
      | nil =>
        rw [hcs] at ht
        simp only [List.mem_singleton] at ht
        rw [ht]
        rfl
      | cons p ps =>
        rw [hcs] at ht htail
        simp only [List.tail_cons] at htail
        rcases List.mem_cons.1 ht with rfl | ht
        · rfl
        · cases t with
          | nil => exact absurd ht htail
          | cons _ _ => rfl
    rw [hall, joinSpace_split]

theorem Tidy.after_space {tok r : JSString} (h : Tidy (tok ++ ' ' :: r)) : Tidy r where
  spaceOnly := h.spaceOnly.restrict fun c hc =>
    List.mem_append_right _ (List.mem_cons_of_mem _ hc)
  chain := h.chain.right_of_append.tail
  head c t hr := by
    intro hc
    have := h.chain.right_of_append
    rw [hr] at this
    exact (List.chain'_cons.1 this).1 ⟨rfl, hc⟩
  last t c hr := h.last (tok ++ ' ' :: t) c (by rw [hr]; simp)

/-! ## Keys as three fields -/

theorem trim_length_le (s : JSString) : (trim s).length ≤ s.length := by
  unfold trim
  rw [List.length_reverse]
  refine le_trans (List.dropWhile_sublist _).length_le ?_
  rw [List.length_reverse]
  exact (List.dropWhile_sublist _).length_le

theorem length_dropWhile_append (p : Char → Bool) (u v : JSString) :
    (u.dropWhile p).length ≤ ((u ++ v).dropWhile p).length := by
  induction u with
  | nil => exact Nat.zero_le _
  | cons c u ih =>
    rw [List.cons_append, List.dropWhile_cons, List.dropWhile_cons]
    split_ifs
    · exact ih
    · simp

theorem split_unique {a : Char} {u v s t : JSString} (hu : a ∉ u) (hv : a ∉ v)
    (h : u ++ a :: s = v ++ a :: t) : u = v ∧ s = t := by
  induction u generalizing v with
  | nil =>
    cases v with
    | nil => exact ⟨rfl, (List.cons.inj h).2⟩
    | cons d v =>
      have := (List.cons.inj h).1
      exact absurd (this ▸ List.mem_cons_self _ _) hv
  | cons c u ih =>
    cases v with
    | nil =>
      have := (List.cons.inj h).1
      exact absurd (this ▸ List.mem_cons_self _ _) hu
    | cons d v =>
      obtain ⟨h1, h2⟩ := List.cons.inj h
      obtain ⟨h3, h4⟩ := ih (fun hm => hu (List.mem_cons_of_mem _ hm))
        (fun hm => hv (List.mem_cons_of_mem _ hm)) h2
      exact ⟨by rw [h1, h3], h4⟩

theorem length_dropWhile_append_head (p : Char → Bool) (u : JSString) {d : Char} (v : JSString)
    (hd : p d = false) :
    ((u ++ d :: v).dropWhile p).length = (u.dropWhile p).length + (d :: v).length := by
  induction u with
  | nil =>
    rw [List.nil_append, List.dropWhile_cons, hd]
    simp
  | cons c u ih =>
    rw [List.cons_append, List.dropWhile_cons, List.dropWhile_cons]
    split_ifs
    · exact ih
    · simp only [List.length_cons, List.length_append]
      omega

/-- Text put in front of a string, beginning and ending with characters that are
not whitespace, lengthens the trimmed string by at least its own length. -/
theorem length_trim_append {x r : JSString} {e : Char} (b : JSString)
    (hx : ∃ c t, x = c :: t ∧ isWhiteSpace c = false)
    (hlast : x = r ++ [e]) (he : isWhiteSpace e = false) :
    x.length + (trim b).length ≤ (trim (x ++ b)).length := by
  obtain ⟨c, t, hxc, hc⟩ := hx
  have h1 : (x ++ b).dropWhile isWhiteSpace = x ++ b := by
    rw [hxc, List.cons_append, List.dropWhile_cons, hc]
    rfl
  have h2 : b.reverse =
      (b.dropWhile isWhiteSpace).reverse ++ (b.takeWhile isWhiteSpace).reverse := by
    rw [← List.reverse_append, List.takeWhile_append_dropWhile]
  have h3 : (trim b).length ≤ (b.reverse.dropWhile isWhiteSpace).length := by
    unfold trim
    rw [List.length_reverse]
    conv_rhs => rw [h2]
    exact length_dropWhile_append _ _ _
  have h4 : (trim (x ++ b)).length =
      (b.reverse.dropWhile isWhiteSpace).length + x.length := by
    unfold trim
    rw [h1, List.length_reverse, List.reverse_append]
    conv_lhs => rw [hlast, List.reverse_append, List.reverse_singleton, List.singleton_append]
    rw [length_dropWhile_append_head _ _ _ he]
    rw [hlast]
    simp
  omega

/-- The first `|` of a key stands right after its first field, when that field has
no `|`. -/
theorem first_field_length {F1 F2 u v : JSString} (h1 : '|' ∉ F1)
    (h2 : '|' ∈ F2 → F2 = [ '|']) (h : F1 ++ '|' :: u = F2 ++ '|' :: v) :
    F1.length ≤ F2.length := by
  by_cases hb : '|' ∈ F2
  · rw [h2 hb] at h
    cases F1 with
    | nil => exact Nat.zero_le _
    | cons c t =>
      have := (List.cons.inj h).1
      exact absurd (this ▸ List.mem_cons_self _ _) h1
  · rw [(split_unique h1 hb h).1]

theorem first_field_unique {F1 F2 u v : JSString} (hne1 : F1 ≠ []) (hne2 : F2 ≠ [])
    (h1 : '|' ∈ F1 → F1 = [ '|']) (h2 : '|' ∈ F2 → F2 = [ '|'])
    (h : F1 ++ '|' :: u = F2 ++ '|' :: v) : u = v := by
  by_cases hb1 : '|' ∈ F1
  · by_cases hb2 : '|' ∈ F2
    · rw [h1 hb1, h2 hb2] at h
      exact (List.cons.inj (List.cons.inj h).2).2
    · exfalso
      rw [h1 hb1] at h
      cases F2 with
      | nil => exact hne2 rfl
      | cons c t =>
        have := (List.cons.inj h).1
        exact hb2 (this ▸ List.mem_cons_self _ _)
  · by_cases hb2 : '|' ∈ F2
    · exfalso
      rw [h2 hb2] at h
      cases F1 with
      | nil => exact hne1 rfl
      | cons c t =>
        have := (List.cons.inj h).1
        exact hb1 (this ▸ List.mem_cons_self _ _)
    · exact (split_unique hb1 hb2 h).2

/-- In every shape the first field and the second have no comma, the first has a
`|` only when it is `|`, and the second is not longer than the display field. -/
theorem KeyShape.fields {F L D : JSString} (h : KeyShape F L D) :
    ',' ∉ F ∧ ',' ∉ L ∧ ('|' ∈ F → F = [ '|']) ∧ L.length ≤ D.length := by
  cases h with
  | bare =>
    exact ⟨List.not_mem_nil _, List.not_mem_nil _, fun h => absurd h (List.not_mem_nil _),
      Nat.zero_le _⟩
  | whole _ hc =>
    exact ⟨List.not_mem_nil _, hc, fun h => absurd h (List.not_mem_nil _), le_rfl⟩
  | lone _ hFc hFb => exact ⟨hFc, List.not_mem_nil _, hFb, Nat.zero_le _⟩
  | split _ hFc hFb _ _ hcL =>
    refine ⟨hFc, hcL, hFb, ?_⟩
    simp only [List.length_append, List.length_cons]
    omega
  | @comma F b a hFc hFb hb =>
    refine ⟨hFc, fun h => hb (mem_trim h), hFb, ?_⟩
    have := trim_length_le b
    simp only [List.length_append, List.length_cons]
    omega

/-- Two keys of known shape that are equal have the same display field, when the
display field of the first is not longer than that of the second. -/
theorem keyShape_display_eq {F1 L1 D1 F2 L2 D2 : JSString} (h1 : KeyShape F1 L1 D1)
    (h2 : KeyShape F2 L2 D2) (hhead : ∀ c r, D2 = c :: r → isWhiteSpace c = false)
    (hlen : D1.length ≤ D2.length)
    (hkey : F1 ++ '|' :: (L1 ++ '|' :: D1) = F2 ++ '|' :: (L2 ++ '|' :: D2)) : D1 = D2 := by
  have hkey2 : (F1 ++ '|' :: (L1 ++ ['|'])) ++ D1 = (F2 ++ '|' :: (L2 ++ ['|'])) ++ D2 := by
    simpa using hkey
  rcases List.append_eq_append_iff.1 hkey2 with ⟨x, hP, hD⟩ | ⟨x, hP, hD⟩
  · have hx := congrArg List.length hD
    rw [List.length_append] at hx
    have : x = [] := List.length_eq_zero.1 (by omega)
    rw [hD, this, List.nil_append]
  · by_cases hx : x = []
    · rw [hD, hx, List.nil_append]
    exfalso
    have hxpos : 0 < x.length := List.length_pos.2 hx
    have hDlen : D2.length = x.length + D1.length := by rw [hD, List.length_append]
    have hPlen : F1.length + L1.length = F2.length + L2.length + x.length := by
      have := congrArg List.length hP
      simp only [List.length_append, List.length_cons, List.length_nil] at this
      omega
    obtain ⟨hFc1, hLc1, hFb1, hLD1⟩ := h1.fields
    obtain ⟨_, _, hFb2, _⟩ := h2.fields
    have hxcomma : ',' ∉ x := by
      intro hm
      have : ',' ∈ F1 ++ '|' :: (L1 ++ ['|']) := by
        rw [hP]
        exact List.mem_append_right _ hm
      rw [List.mem_append, List.mem_cons, List.mem_append, List.mem_singleton] at this
      rcases this with h | h | h | h
      · exact hFc1 h
      · exact absurd h (by decide)
      · exact hLc1 h
      · exact absurd h (by decide)
    have hxlast : ∃ r, x = r ++ [ '|'] := by
      have hlast : (F1 ++ '|' :: (L1 ++ ['|'])).getLast? = some '|' := by
        rw [show F1 ++ '|' :: (L1 ++ ['|']) = (F1 ++ '|' :: L1) ++ ['|'] by simp]
        exact List.getLast?_concat _
      rw [hP, List.getLast?_append_of_ne_nil _ hx] at hlast
      exact List.getLast?_eq_some_iff.1 hlast
    have hxbar : '|' ∈ D2 := by
      obtain ⟨r, hr⟩ := hxlast
      rw [hD, hr]
      simp
    have hxhead : ∃ c r, x = c :: r ∧ isWhiteSpace c = false := by
      cases x with
      | nil => exact absurd rfl hx
      | cons c r => exact ⟨c, r, rfl, hhead c (r ++ D1) hD⟩
    -- a first field of two characters or more has no `|`, and then the second key
    -- has its first `|` no later than the first key
    have hlong : F2.length < F1.length → 2 ≤ F1.length → False := by
      intro _ hl
      have hb1 : '|' ∉ F1 := by
        intro hb
        rw [hFb1 hb] at hl
        simp at hl
      have := first_field_length hb1 hFb2 (by rw [List.append_assoc] at hP; exact hP)
      omega
    cases h2 with
    | bare hbar => exact hbar hxbar
    | lone _ _ _ hbar => exact hbar hxbar
    | whole =>
      simp only [List.length_nil] at hPlen
      by_cases hb : '|' ∈ F1
      · rw [hFb1 hb] at hPlen
        simp only [List.length_singleton] at hPlen
        omega
      · cases F1 with
        | nil =>
          simp only [List.length_nil] at hPlen
          omega
        | cons c t =>
          have := (List.cons.inj hP).1
          exact hb (this ▸ List.mem_cons_self _ _)
    | @split F2 tok L2 hF2 _ _ hsp hct hcL =>
      simp only [List.length_append, List.length_cons] at hDlen
      have hF2pos : 0 < F2.length := List.length_pos.2 hF2
      rcases Nat.lt_or_ge tok.length x.length with hlt | hle
      · exact hlong (by omega) (by omega)
      have hxtok : x <+: tok :=
        List.prefix_of_prefix_length_le (show x <+: tok ++ ' ' :: L2 from ⟨D1, hD.symm⟩)
          (List.prefix_append _ _) hle
      obtain ⟨y, rfl⟩ := hxtok
      have hD1 : D1 = y ++ ' ' :: L2 := by
        rw [List.append_assoc] at hD
        exact (List.append_cancel_left hD).symm
      have hy : ' ' ∉ y := fun h => hsp (List.mem_append_right _ h)
      have hc1 : ',' ∉ D1 := by
        rw [hD1, List.mem_append, List.mem_cons]
        rintro (h | h | h)
        · exact hct (List.mem_append_right _ h)
        · exact absurd h (by decide)
        · exact hcL h
      have hs1 : ' ' ∈ D1 := by
        rw [hD1]
        exact List.mem_append_right _ (List.mem_cons_self _ _)
      cases h1 with
      | bare =>
        simp only [List.length_nil] at hPlen
        omega
      | whole hsp1 => exact hsp1 hs1
      | lone _ _ _ _ hsp1 => exact hsp1 hs1
      | @split F1 tok1 L1 hF1 _ _ hsp1 =>
        obtain ⟨_, hL⟩ := split_unique hsp1 hy hD1
        subst hL
        have hu : L1 ++ ['|'] = (L1 ++ ['|']) ++ x := first_field_unique hF1 hF2 hFb1 hFb2
          (by rw [List.append_assoc] at hP; exact hP)
        exact hx (List.self_eq_append_right.1 hu)
      | comma => exact hc1 (List.mem_append_right _ (List.mem_cons_self _ _))
    | @comma F2 b2 a2 _ _ hb2 =>
      have hxb : x <+: b2 := by
        rcases Nat.lt_or_ge b2.length x.length with hlt | hle
        · have hpre : b2 ++ [ ','] <+: x :=
            List.prefix_of_prefix_length_le
              (show b2 ++ [ ','] <+: b2 ++ ',' :: a2 from ⟨a2, by simp⟩) ⟨D1, hD.symm⟩ (by
                rw [List.length_append, List.length_singleton]
                omega)
          obtain ⟨z, rfl⟩ := hpre
          exact absurd (by simp) hxcomma
        · exact List.prefix_of_prefix_length_le (show x <+: b2 ++ ',' :: a2 from ⟨D1, hD.symm⟩)
            (List.prefix_append _ _) hle
      obtain ⟨b1', rfl⟩ := hxb
      have hD1 : D1 = b1' ++ ',' :: a2 := by
        rw [List.append_assoc] at hD
        exact (List.append_cancel_left hD).symm
      have hb1' : ',' ∉ b1' := fun h => hb2 (List.mem_append_right _ h)
      have hc1 : ',' ∈ D1 := by
        rw [hD1]
        exact List.mem_append_right _ (List.mem_cons_self _ _)
      cases h1 with
      | bare _ hcomma => exact hcomma hc1
      | whole _ hcomma => exact hcomma hc1
      | lone _ _ _ _ _ hcomma => exact hcomma hc1
      | split _ _ _ _ hct hcL =>
        rw [List.mem_append, List.mem_cons] at hc1
        rcases hc1 with h | h | h
        · exact hct h
        · exact absurd h (by decide)
        · exact hcL h
      | @comma F1 b1 a1 _ _ hb1 =>
        obtain ⟨hbb, haa⟩ := split_unique hb1 hb1' hD1
        subst hbb
        subst haa
        obtain ⟨r, hr⟩ := hxlast
        have h3 := length_trim_append b1 hxhead hr (by decide)
        exact hlong (by omega) (by omega)

/-! ## The cache key determines the display name -/

theorem placeholder_chars : ∀ s ∈ SKIP_NAMES, '|' ∉ s ∧ ',' ∉ s := by
  decide

theorem token_not_white {s t : JSString} (hs : SpaceOnly s) (ht : t ∈ tokens s) {c : Char}
    (hc : c ∈ t) : isWhiteSpace c = false :=
  hs.not_white (mem_tokens ht hc)
    fun h => not_mem_of_mem_split (List.mem_filter.1 ht).1 (h ▸ hc)

theorem mem_map_kept {f : Char → Char} (hf : Transparent f) (d : Char)
    (hd : d.toNat < 65 ∨ d.toNat = 124) (s : JSString) : d ∈ s.map f ↔ d ∈ s := by
  rw [List.mem_map]
  constructor
  · rintro ⟨c, hc, h⟩
    rw [← (hf.fixed c d hd).1 h]
    exact hc
  · intro h
    exact ⟨d, h, (hf.fixed d d hd).2 rfl⟩

theorem trim_nil : trim ([] : JSString) = [] := rfl

/-- The key is made of the three lower-cased fields. -/
theorem profKey_fields {B : Builtins} (hB : SeparatorCasing B) (p : ParsedProf)
    (hd : Tidy p.display) :
    profKey B p =
      B.toLowerCase (trim (p.firstInitial.getD [])) ++
        '|' :: (B.toLowerCase (trim (p.last.getD [])) ++ '|' :: B.toLowerCase p.display) := by
  unfold profKey
  simp only []
  rw [hB.lower_sep _ _ _ (Or.inr (Or.inr rfl)), hB.lower_sep _ _ _ (Or.inr (Or.inr rfl)),
    hd.collapse_eq_self, hd.trim_id]

/-- The tokens of a tidy string: none, one that is the whole string, or a first
token followed by a space and the tidy rest. -/
theorem Tidy.tokens_cases {n : JSString} (hT : Tidy n) :
    (tokens n = [] ∧ n = []) ∨ (∃ tok, tokens n = [tok] ∧ n = tok) ∨
      ∃ tok u us, tokens n = tok :: u :: us ∧ n = tok ++ ' ' :: joinSpace (u :: us) ∧
        trim (joinSpace (u :: us)) = joinSpace (u :: us) := by
  have hj := hT.join_tokens
  cases ht : tokens n with
  | nil =>
    rw [ht] at hj
    exact Or.inl ⟨rfl, hj.symm⟩
  | cons tok rest =>
    rw [ht] at hj
    cases rest with
    | nil => exact Or.inr (Or.inl ⟨tok, rfl, hj.symm⟩)
    | cons u us =>
      rw [joinSpace_cons_cons] at hj
      refine Or.inr (Or.inr ⟨tok, u, us, rfl, hj.symm, ?_⟩)
      have hT2 : Tidy (tok ++ ' ' :: joinSpace (u :: us)) := hj ▸ hT
      exact hT2.after_space.trim_id

/-- The first field of the key made from one character that is neither whitespace
nor a comma. -/
theorem SeparatorCasing.initial_field {B : Builtins} (hB : SeparatorCasing B) {c : Char}
    (hw : isWhiteSpace c = false) (hc : c ≠ ',') :
    B.toLowerCase (trim (B.toUpperCase [c])) ≠ [] ∧
      ',' ∉ B.toLowerCase (trim (B.toUpperCase [c])) ∧
      ('|' ∈ B.toLowerCase (trim (B.toUpperCase [c])) →
        B.toLowerCase (trim (B.toUpperCase [c])) = [ '|']) :=
  ⟨(hB.initial c hw).1, fun h => hc ((hB.initial c hw).2.1 h), (hB.initial c hw).2.2⟩

/-- The first field of the key made from no character is empty. -/
theorem SeparatorCasing.initial_nil {B : Builtins} (hB : SeparatorCasing B) :
    B.toLowerCase (trim (B.toUpperCase [])) = [] := by
  rw [hB.upper_nil, trim_nil, hB.lower_nil]

/-- The key of a name without a comma whose first token is followed by others. -/
theorem keyShape_split {B : Builtins} (hB : SeparatorCasing B) {n tok u : JSString}
    {us : List JSString} (hcomma : ',' ∉ n) (htoks : tokens n = tok :: u :: us)
    (hn : n = tok ++ ' ' :: joinSpace (u :: us))
    (htrim : trim (joinSpace (u :: us)) = joinSpace (u :: us))
    (F : JSString) (hF : F ≠ []) (hFc : ',' ∉ F) (hFb : '|' ∈ F → F = [ '|']) :
    KeyShape F (B.toLowerCase (trim (joinSpace (u :: us)))) (B.toLowerCase n) := by
  have htok : tok ∈ tokens n := by rw [htoks]; exact List.mem_cons_self _ _
  have hD : B.toLowerCase n =
      B.toLowerCase tok ++ ' ' :: B.toLowerCase (joinSpace (u :: us)) := by
    conv_lhs => rw [hn]
    exact hB.lower_sep _ _ _ (Or.inl rfl)
  rw [htrim, hD]
  refine KeyShape.split hF hFc hFb ?_ ?_ ?_
  · exact fun h => not_mem_of_mem_split (List.mem_filter.1 htok).1
      (hB.lower_mem _ _ (Or.inl rfl) h)
  · exact fun h => hcomma (mem_tokens htok (hB.lower_mem _ _ (Or.inr (Or.inl rfl)) h))
  · intro h
    apply hcomma
    rw [hn]
    exact List.mem_append_right _
      (List.mem_cons_of_mem _ (hB.lower_mem _ _ (Or.inr (Or.inl rfl)) h))

/-- The three lower-cased fields of the key of a parsed name have one of the known
shapes. -/
theorem parse_keyShape {B : Builtins} (hB : SeparatorCasing B) (a : JSString) (p : ParsedProf)
    (hp : parseProfessorName B a = some p) :
    ∃ F L, profKey B p =
        F ++ '|' :: (L ++ '|' :: B.toLowerCase (cleanProfessorDisplayName a)) ∧
      KeyShape F L (B.toLowerCase (cleanProfessorDisplayName a)) := by
  have hT := tidy_clean a
  have hne : (cleanProfessorDisplayName a).isEmpty = false := by
    cases hn : cleanProfessorDisplayName a with
    | nil =>
      unfold parseProfessorName at hp
      rw [hn] at hp
      exact Option.noConfusion hp
    | cons _ _ => rfl
  have hnotcomma : ∀ s : JSString, ',' ∉ s → ',' ∉ B.toLowerCase s := fun s h =>
    fun hm => h (hB.lower_mem _ _ (Or.inr (Or.inl rfl)) hm)
  have hnotspace : ∀ s : JSString, ' ' ∉ s → ' ' ∉ B.toLowerCase s := fun s h =>
    fun hm => h (hB.lower_mem _ _ (Or.inl rfl) hm)
  unfold parseProfessorName at hp
  simp only [hne, Bool.false_eq_true, if_false] at hp
  split_ifs at hp with h1 h2 h3 h4
  · -- a placeholder
    obtain rfl := Option.some.inj hp
    refine ⟨_, _, profKey_fields hB _ hT, ?_⟩
    simp only [Option.getD_none, trim_nil, hB.lower_nil]
    exact KeyShape.bare (placeholder_chars _ h1).1 (placeholder_chars _ h1).2
  · -- a name with a comma
    obtain rfl := Option.some.inj hp
    refine ⟨_, _, profKey_fields hB _ hT, ?_⟩
    simp only [Option.getD_some]
    have hsplit : cleanProfessorDisplayName a =
        (cleanProfessorDisplayName a).takeWhile (fun c => c != ',') ++
          ',' :: ((cleanProfessorDisplayName a).dropWhile (fun c => c != ',')).drop 1 := by
      conv_lhs => rw [← List.takeWhile_append_dropWhile (fun c => c != ',')
        (cleanProfessorDisplayName a)]
      rw [← dropWhile_ne_of_mem _ _ h2]
    have hD : B.toLowerCase (cleanProfessorDisplayName a) =
        B.toLowerCase ((cleanProfessorDisplayName a).takeWhile (fun c => c != ',')) ++
          ',' :: B.toLowerCase
            (((cleanProfessorDisplayName a).dropWhile (fun c => c != ',')).drop 1) := by
      conv_lhs => rw [hsplit]
      exact hB.lower_sep _ _ _ (Or.inr (Or.inl rfl))
    have hL : B.toLowerCase (trim (((split ',' (cleanProfessorDisplayName a)).map trim).getD 0
        [])) =
        trim (B.toLowerCase ((cleanProfessorDisplayName a).takeWhile (fun c => c != ','))) := by
      rw [getD_map_trim, split_getD_zero, trim_trim, hB.lower_trim]
    have hseg : SpaceOnly (trim (((cleanProfessorDisplayName a).dropWhile
        (fun c => c != ',')).drop 1 |>.takeWhile (fun c => c != ','))) :=
      hT.spaceOnly.restrict fun c hc =>
        (List.dropWhile_sublist _).subset ((List.drop_sublist _ _).subset
          ((List.takeWhile_sublist _).subset (mem_trim hc)))
    have hF : ',' ∉ B.toLowerCase (trim (B.toUpperCase (((tokens (((split ','
          (cleanProfessorDisplayName a)).map trim).getD 1 [])).headD []).take 1))) ∧
        ('|' ∈ B.toLowerCase (trim (B.toUpperCase (((tokens (((split ','
          (cleanProfessorDisplayName a)).map trim).getD 1 [])).headD []).take 1))) →
          B.toLowerCase (trim (B.toUpperCase (((tokens (((split ','
            (cleanProfessorDisplayName a)).map trim).getD 1 [])).headD []).take 1))) =
            [ '|']) := by
      rw [getD_map_trim, split_getD_one _ _ h2]
      cases hft : (tokens (trim (((cleanProfessorDisplayName a).dropWhile
          (fun c => c != ',')).drop 1 |>.takeWhile (fun c => c != ',')))).headD [] with
      | nil =>
        simp only [List.take_nil]
        rw [hB.initial_nil]
        exact ⟨List.not_mem_nil _, fun h => absurd h (List.not_mem_nil _)⟩
      | cons c t =>
        simp only [List.take_succ_cons, List.take_zero]
        have hc : c ∈ (tokens (trim (((cleanProfessorDisplayName a).dropWhile
            (fun c => c != ',')).drop 1 |>.takeWhile (fun c => c != ',')))).headD [] := by
          rw [hft]
          exact List.mem_cons_self _ _
        obtain ⟨w, hw, hcw⟩ := mem_headD hc
        have hcc : c ≠ ',' := by
          have := List.mem_takeWhile_imp (mem_trim (mem_tokens hw hcw))
          simpa using this
        exact (hB.initial_field (token_not_white hseg hw hcw) hcc).2
    rw [hL, hD]
    refine KeyShape.comma hF.1 hF.2 (hnotcomma _ ?_)
    intro hm
    have := List.mem_takeWhile_imp hm
    simp at this
  · -- an initial, alone or followed by the surname
    obtain rfl := Option.some.inj hp
    refine ⟨_, _, profKey_fields hB _ hT, ?_⟩
    simp only [Option.getD_some]
    rw [Bool.and_eq_true, beq_iff_eq] at h3
    obtain ⟨x, hx⟩ := List.length_eq_one.1 h3.1
    have hxmem : x ∈ (tokens (cleanProfessorDisplayName a)).headD [] :=
      List.mem_of_mem_erase (hx ▸ List.mem_singleton_self x)
    obtain ⟨w, hw, hxw⟩ := mem_headD hxmem
    have hF := hB.initial_field (token_not_white hT.spaceOnly hw hxw)
      (fun h => h2 (h ▸ mem_tokens hw hxw))
    rw [hx]
    rcases hT.tokens_cases with ⟨h0, _⟩ | ⟨tok, htoks, hn⟩ | ⟨tok, u, us, htoks, hn, htrim⟩
    · rw [h0] at hw
      cases hw
    · rw [htoks] at hx ⊢
      simp only [List.headD_cons] at hx
      simp only [List.drop_succ_cons, List.drop_zero, joinSpace, trim_nil, hB.lower_nil]
      have htok : tok ∈ tokens (cleanProfessorDisplayName a) := by
        rw [htoks]
        exact List.mem_singleton_self _
      have hbar : '|' ∉ cleanProfessorDisplayName a := by
        rw [hn]
        intro hbar
        have : '|' ∈ tok.erase '.' := (List.mem_erase_of_ne (by decide)).2 hbar
        rw [hx, List.mem_singleton] at this
        have h32 := h3.2
        rw [htoks] at h32
        simp only [List.headD_cons] at h32
        rw [hx, ← this] at h32
        exact absurd h32 (by decide)
      refine KeyShape.lone hF.1 hF.2.1 hF.2.2
        (fun h => hbar (hB.lower_mem _ _ (Or.inr (Or.inr rfl)) h)) (hnotspace _ ?_)
        (hnotcomma _ h2)
      rw [hn]
      exact not_mem_of_mem_split (List.mem_filter.1 htok).1
    · rw [htoks]
      simp only [List.drop_succ_cons, List.drop_zero]
      exact keyShape_split hB h2 htoks hn htrim _ hF.1 hF.2.1 hF.2.2
  · -- a first name followed by the surname
    obtain rfl := Option.some.inj hp
    refine ⟨_, _, profKey_fields hB _ hT, ?_⟩
    simp only [Option.getD_some]
    rcases hT.tokens_cases with ⟨h0, _⟩ | ⟨tok, htoks, hn⟩ | ⟨tok, u, us, htoks, hn, htrim⟩
    · rw [h0] at h4
      simp at h4
    · rw [htoks] at h4
      simp at h4
    · have htok : tok ∈ tokens (cleanProfessorDisplayName a) := by
        rw [htoks]
        exact List.mem_cons_self _ _
      rw [htoks]
      simp only [List.headD_cons, List.drop_succ_cons, List.drop_zero]
      cases htk : tok with
      | nil => exact absurd htk (token_ne_nil htok)
      | cons c t =>
        simp only [List.take_succ_cons, List.take_zero]
        have hc : c ∈ tok := htk ▸ List.mem_cons_self _ _
        have hF := hB.initial_field (token_not_white hT.spaceOnly htok hc)
          (fun h => h2 (h ▸ mem_tokens htok hc))
        rw [htk] at htoks hn
        exact keyShape_split hB h2 htoks hn htrim _ hF.1 hF.2.1 hF.2.2
  · -- a single token
    obtain rfl := Option.some.inj hp
    refine ⟨_, _, profKey_fields hB _ hT, ?_⟩
    simp only [Option.getD_some, trim_nil, hB.lower_nil, hT.trim_id]
    refine KeyShape.whole (hnotspace _ ?_) (hnotcomma _ h2)
    rcases hT.tokens_cases with ⟨_, hn⟩ | ⟨tok, htoks, hn⟩ | ⟨tok, u, us, htoks, _, _⟩
    · rw [hn]
      exact List.not_mem_nil _
    · have htok : tok ∈ tokens (cleanProfessorDisplayName a) := by
        rw [htoks]
        exact List.mem_singleton_self _
      rw [hn]
      exact not_mem_of_mem_split (List.mem_filter.1 htok).1
    · rw [htoks] at h4
      simp at h4

/-- C19: provided the engine's case mappings leave space, comma and `|` alone
(lower-casing acts on each side of them separately and yields none of them anew),
lower-casing commutes with `trim`, and an upper-cased, lower-cased character is not
empty and has a `|` only if it is `|` itself: for all raw strings `a` and `b` for
which `parseProfessorName` returns identities, equal cache keys imply that the
cleaned display names are equal after lower-casing, also when the names contain `|`. -/
theorem key_determines_display (B : Builtins) (hB : SeparatorCasing B) (a b : JSString)
    (pa pb : ParsedProf)
    (hpa : parseProfessorName B a = some pa) (hpb : parseProfessorName B b = some pb)
    (hkey : profKey B pa = profKey B pb) :
    B.toLowerCase (cleanProfessorDisplayName a) =
      B.toLowerCase (cleanProfessorDisplayName b) := by
  obtain ⟨F1, L1, hk1, hs1⟩ := parse_keyShape hB a pa hpa
  obtain ⟨F2, L2, hk2, hs2⟩ := parse_keyShape hB b pb hpb
  rw [hk1, hk2] at hkey
  have hhead : ∀ raw c r, B.toLowerCase (cleanProfessorDisplayName raw) = c :: r →
      isWhiteSpace c = false := by
    intro raw c r h
    refine trim_head_not_white (s := B.toLowerCase (cleanProfessorDisplayName raw)) (r := r) ?_
    rw [← hB.lower_trim, (tidy_clean raw).trim_id, h]
  rcases Nat.le_total (B.toLowerCase (cleanProfessorDisplayName a)).length
    (B.toLowerCase (cleanProfessorDisplayName b)).length with hle | hle
  · exact keyShape_display_eq hs1 hs2 (hhead b) hle hkey
  · exact (keyShape_display_eq hs2 hs1 (hhead a) hle hkey.symm).symm

/-- The ASCII engine leaves the separators alone. -/
theorem asciiEngine_separatorCasing : SeparatorCasing asciiEngine where
  lower_nil := rfl
  upper_nil := rfl
  lower_sep s t c hc := by
    show (s ++ c :: t).map asciiLowerChar = s.map asciiLowerChar ++ c :: t.map asciiLowerChar
    have : asciiLowerChar c = c := by
      rcases hc with rfl | rfl | rfl <;> rfl
    rw [List.map_append, List.map_cons, this]
  lower_mem s c hc h := by
    refine (mem_map_kept asciiLowerChar_transparent c ?_ s).1 h
    rcases hc with rfl | rfl | rfl <;> decide
  lower_trim s := (trim_map asciiLowerChar_transparent s).symm
  initial c hw := by
    have hup : isWhiteSpace (asciiUpperChar c) = false := by
      by_cases h : 97 ≤ c.toNat ∧ c.toNat ≤ 122
      · have h3 := toNat_asciiUpperChar c
        rw [if_pos h] at h3
        exact isWhiteSpace_of_letter_range _ (by omega) (by omega)
      · unfold asciiUpperChar
        rw [if_neg h]
        exact hw
    have hF : asciiEngine.toLowerCase (trim (asciiEngine.toUpperCase [c])) =
        [asciiLowerChar c] := by
      show (trim [asciiUpperChar c]).map asciiLowerChar = [asciiLowerChar c]
      rw [trim_eq_self (fun d hd => by rw [List.mem_singleton.1 hd]; exact hup)]
      show [asciiLowerChar (asciiUpperChar c)] = [asciiLowerChar c]
      rw [asciiLower_upper]
    rw [hF]
    refine ⟨List.cons_ne_nil _ _, fun h => ?_, fun h => ?_⟩
    · exact ((asciiLowerChar_transparent.fixed c ',' (Or.inl (by decide))).1
        (List.mem_singleton.1 h).symm)
    · rw [← List.mem_singleton.1 h]

/-! ### An engine with special casing that leaves the separators alone -/

/-- A character-by-character mapping that keeps whitespace characters and sends
the others to non-empty strings without whitespace commutes with `dropWhile`. -/
theorem dropWhile_flatMap (f : Char → List Char)
    (hw : ∀ c, isWhiteSpace c = true → f c = [c])
    (hn : ∀ c, isWhiteSpace c = false → ∃ d ds, f c = d :: ds ∧ isWhiteSpace d = false)
    (s : JSString) :
    (s.flatMap f).dropWhile isWhiteSpace = (s.dropWhile isWhiteSpace).flatMap f := by
  induction s with
  | nil => rfl
  | cons c cs ih =>
    rw [List.flatMap_cons, List.dropWhile_cons]
    cases hc : isWhiteSpace c with
    | true =>
      rw [hw c hc, List.singleton_append, List.dropWhile_cons, hc]
      simpa using ih
    | false =>
      obtain ⟨d, ds, hd, hdw⟩ := hn c hc
      simp only [Bool.false_eq_true, if_false, List.flatMap_cons]
      rw [hd, List.cons_append, List.dropWhile_cons, hdw]
      rfl

theorem trim_flatMap (f : Char → List Char)
    (hw : ∀ c, isWhiteSpace c = true → f c = [c])
    (hn : ∀ c, isWhiteSpace c = false → ∀ d ∈ f c, isWhiteSpace d = false)
    (hne : ∀ c, f c ≠ []) (s : JSString) :
    trim (s.flatMap f) = (trim s).flatMap f := by
  have h1 : ∀ c, isWhiteSpace c = false → ∃ d ds, f c = d :: ds ∧ isWhiteSpace d = false := by
    intro c hc
    cases hf : f c with
    | nil => exact absurd hf (hne c)
    | cons d ds => exact ⟨d, ds, rfl, hn c hc d (hf ▸ List.mem_cons_self _ _)⟩
  have h2 : ∀ c, isWhiteSpace c = false →
      ∃ d ds, (List.reverse ∘ f) c = d :: ds ∧ isWhiteSpace d = false := by
    intro c hc
    cases hf : (f c).reverse with
    | nil => exact absurd (List.reverse_eq_nil_iff.1 hf) (hne c)
    | cons d ds =>
      refine ⟨d, ds, hf, hn c hc d ?_⟩
      rw [← List.mem_reverse, hf]
      exact List.mem_cons_self _ _
  have h3 : ∀ c, isWhiteSpace c = true → (List.reverse ∘ f) c = [c] := by
    intro c hc
    show (f c).reverse = [c]
    rw [hw c hc]
    rfl
  unfold trim
  rw [dropWhile_flatMap f hw h1, List.reverse_flatMap, dropWhile_flatMap _ h3 h2,
    List.flatMap_reverse]

theorem latinLowerChar_white {c : Char} (h : isWhiteSpace c = true) : latinLowerChar c = [c] := by
  unfold isWhiteSpace at h
  unfold latinLowerChar asciiLowerChar
  simp only [Bool.or_eq_true, Bool.and_eq_true, decide_eq_true_eq, beq_iff_eq] at h
  have h1 : c.toNat ≠ 304 := by omega
  have h2 : c.toNat ≠ 7838 := by omega
  have h3 : c.toNat ≠ 8490 := by omega
  have h4 : ¬ (65 ≤ c.toNat ∧ c.toNat ≤ 90) := by omega
  rw [if_neg h1, if_neg h2, if_neg h3, if_neg h4]

theorem latinLowerChar_ne_nil (c : Char) : latinLowerChar c ≠ [] := by
  unfold latinLowerChar
  split_ifs <;> exact List.cons_ne_nil _ _

theorem latinLowerChar_not_white {c d : Char} (h : isWhiteSpace c = false)
    (hd : d ∈ latinLowerChar c) : isWhiteSpace d = false := by
  unfold latinLowerChar at hd
  split_ifs at hd
  · rcases List.mem_cons.1 hd with rfl | hd
    · decide
    · rw [List.mem_singleton.1 hd]
      decide
  · rw [List.mem_singleton.1 hd]
    decide
  · rw [List.mem_singleton.1 hd]
    decide
  · rw [List.mem_singleton.1 hd, asciiLowerChar_transparent.white]
    exact h

/-- A space, a comma or a `|` comes out of the lower-casing of a character only if
the character is that separator. -/
theorem latinLowerChar_sep {c d : Char} (hsep : d = ' ' ∨ d = ',' ∨ d = '|')
    (hd : d ∈ latinLowerChar c) : c = d := by
  have hfix : d.toNat < 65 ∨ d.toNat = 124 := by
    rcases hsep with rfl | rfl | rfl <;> decide
  unfold latinLowerChar at hd
  split_ifs at hd
  · rcases List.mem_cons.1 hd with rfl | hd
    · exact absurd hfix (by decide)
    · rw [List.mem_singleton.1 hd] at hfix
      exact absurd hfix (by decide)
  · rw [List.mem_singleton.1 hd] at hfix
    exact absurd hfix (by decide)
  · rw [List.mem_singleton.1 hd] at hfix
    exact absurd hfix (by decide)
  · exact (asciiLowerChar_transparent.fixed c d hfix).1 (List.mem_singleton.1 hd).symm

theorem latinLowerChar_of_sep {d : Char} (hsep : d = ' ' ∨ d = ',' ∨ d = '|') :
    latinLowerChar d = [d] := by
  rcases hsep with rfl | rfl | rfl <;> decide

/-- The engine with the special casing of U+0130, U+1E9E, U+212A and U+00DF leaves
the separators alone. -/
theorem latinEngine_separatorCasing : SeparatorCasing latinEngine where
  lower_nil := rfl
  upper_nil := rfl
  lower_sep s t c hc := by
    show (s ++ c :: t).flatMap latinLowerChar =
      s.flatMap latinLowerChar ++ c :: t.flatMap latinLowerChar
    rw [List.flatMap_append, List.flatMap_cons, latinLowerChar_of_sep hc]
    rfl
  lower_mem s c hc h := by
    obtain ⟨d, hd, hcd⟩ := List.mem_flatMap.1 h
    rw [← latinLowerChar_sep hc hcd]
    exact hd
  lower_trim s :=
    (trim_flatMap latinLowerChar (fun _ => latinLowerChar_white)
      (fun _ h _ hd => latinLowerChar_not_white h hd) latinLowerChar_ne_nil s).symm
  initial c hw := by
    show (trim ([c].flatMap latinUpperChar)).flatMap latinLowerChar ≠ [] ∧
      (',' ∈ (trim ([c].flatMap latinUpperChar)).flatMap latinLowerChar → c = ',') ∧
      ('|' ∈ (trim ([c].flatMap latinUpperChar)).flatMap latinLowerChar →
        (trim ([c].flatMap latinUpperChar)).flatMap latinLowerChar = [ '|'])
    by_cases h223 : c.toNat = 223
    · have hup : [c].flatMap latinUpperChar = [ 'S', 'S'] := by
        simp [latinUpperChar, h223]
      rw [hup]
      have hss : (trim [ 'S', 'S']).flatMap latinLowerChar = [ 's', 's'] := by decide
      rw [hss]
      refine ⟨by decide, fun h => absurd h (by decide), fun h => absurd h (by decide)⟩
    · have hup : [c].flatMap latinUpperChar = [asciiUpperChar c] := by
        simp [latinUpperChar, h223]
      have hupw : isWhiteSpace (asciiUpperChar c) = false := by
        by_cases h : 97 ≤ c.toNat ∧ c.toNat ≤ 122
        · have h3 := toNat_asciiUpperChar c
          rw [if_pos h] at h3
          exact isWhiteSpace_of_letter_range _ (by omega) (by omega)
        · unfold asciiUpperChar
          rw [if_neg h]
          exact hw
      have hF : (trim [asciiUpperChar c]).flatMap latinLowerChar =
          latinLowerChar (asciiUpperChar c) := by
        rw [trim_eq_self (fun d hd => by rw [List.mem_singleton.1 hd]; exact hupw)]
        simp
      rw [hup, hF]
      refine ⟨latinLowerChar_ne_nil _, fun h => ?_, fun h => ?_⟩
      · have hu := latinLowerChar_sep (Or.inr (Or.inl rfl)) h
        apply char_eq_of_toNat
        have := congrArg Char.toNat hu
        rw [toNat_asciiUpperChar] at this
        have h44 : ( ',' : Char).toNat = 44 := rfl
        rw [h44] at this ⊢
        split_ifs at this <;> omega
      · rw [latinLowerChar_sep (Or.inr (Or.inr rfl)) h]
        rfl

theorem key_determines_display_witness :
    latinEngine.toLowerCase (cleanProfessorDisplayName "ß|a  Smith".toList) =
      latinEngine.toLowerCase (cleanProfessorDisplayName " ß|A SMITH".toList) :=
  key_determines_display latinEngine latinEngine_separatorCasing "ß|a  Smith".toList
    " ß|A SMITH".toList
    { skip := false, display := "ß|a Smith".toList, first := some "ß|a".toList,
      firstInitial := some "SS".toList, last := some "Smith".toList }
    { skip := false, display := "ß|A SMITH".toList, first := some "ß|A".toList,
      firstInitial := some "SS".toList, last := some "SMITH".toList }
    (by decide) (by decide) (by decide)


/-! ## The cache key as a function of the lower-cased name -/

theorem takeWhile_ne_append {a : Char} {u : JSString} (v : JSString) (hu : a ∉ u) :
    (u ++ a :: v).takeWhile (fun c => c != a) = u := by
  induction u with
  | nil => simp
  | cons c u ih =>
    have hc : (c != a) = true := by
      have : c ≠ a := fun h => hu (h ▸ List.mem_cons_self _ _)
      simpa using this
    rw [List.cons_append, List.takeWhile_cons, hc, if_pos rfl,
      ih fun h => hu (List.mem_cons_of_mem _ h)]

theorem dropWhile_ne_append {a : Char} {u : JSString} (v : JSString) (hu : a ∉ u) :
    (u ++ a :: v).dropWhile (fun c => c != a) = a :: v := by
  induction u with
  | nil => simp
  | cons c u ih =>
    have hc : (c != a) = true := by
      have : c ≠ a := fun h => hu (h ▸ List.mem_cons_self _ _)
      simpa using this
    rw [List.cons_append, List.dropWhile_cons, hc, if_pos rfl,
      ih fun h => hu (List.mem_cons_of_mem _ h)]

theorem takeWhile_ne_self {a : Char} {u : JSString} (hu : a ∉ u) :
    u.takeWhile (fun c => c != a) = u := by
  rw [List.takeWhile_eq_self_iff]
  intro c hc
  have : c ≠ a := fun h => hu (h ▸ hc)
  simpa using this

theorem dropWhile_ne_nil {a : Char} {u : JSString} (hu : a ∉ u) :
    u.dropWhile (fun c => c != a) = [] := by
  rw [List.dropWhile_eq_nil_iff]
  intro c hc
  have : c ≠ a := fun h => hu (h ▸ hc)
  simpa using this

/-- A string with the character `a` is the text before its first `a`, the `a`, and
the text after it. -/
theorem split_at_first {a : Char} {s : JSString} (h : a ∈ s) :
    s = s.takeWhile (fun c => c != a) ++ a :: (s.dropWhile fun c => c != a).drop 1 ∧
      a ∉ s.takeWhile (fun c => c != a) := by
  constructor
  · conv_lhs => rw [← List.takeWhile_append_dropWhile (fun c => c != a) s]
    rw [← dropWhile_ne_of_mem _ _ h]
  · intro hm
    have := List.mem_takeWhile_imp hm
    simp at this

theorem SeparatorCasing.mem_iff {B : Builtins} (hB : SeparatorCasing B) (s : JSString)
    {c : Char} (hc : c = ' ' ∨ c = ',' ∨ c = '|') : c ∈ B.toLowerCase s ↔ c ∈ s := by
  constructor
  · exact hB.lower_mem s c hc
  · intro h
    obtain ⟨u, v, rfl⟩ := List.append_of_mem h
    rw [hB.lower_sep _ _ _ hc]
    exact List.mem_append_right _ (List.mem_cons_self _ _)

/-- Lower-casing commutes with taking the text before the first separator. -/
theorem SeparatorCasing.takeWhile_lower {B : Builtins} (hB : SeparatorCasing B) (s : JSString)
    {c : Char} (hc : c = ' ' ∨ c = ',' ∨ c = '|') :
    (B.toLowerCase s).takeWhile (fun d => d != c) =
      B.toLowerCase (s.takeWhile fun d => d != c) := by
  by_cases h : c ∈ s
  · obtain ⟨hs, hn⟩ := split_at_first h
    conv_lhs => rw [hs, hB.lower_sep _ _ _ hc]
    exact takeWhile_ne_append _ fun hm => hn (hB.lower_mem _ _ hc hm)
  · rw [takeWhile_ne_self h, takeWhile_ne_self fun hm => h (hB.lower_mem _ _ hc hm)]

/-- Lower-casing commutes with taking the text after the first separator. -/
theorem SeparatorCasing.after_lower {B : Builtins} (hB : SeparatorCasing B) (s : JSString)
    {c : Char} (hc : c = ' ' ∨ c = ',' ∨ c = '|') :
    ((B.toLowerCase s).dropWhile fun d => d != c).drop 1 =
      B.toLowerCase ((s.dropWhile fun d => d != c).drop 1) := by
  by_cases h : c ∈ s
  · obtain ⟨hs, hn⟩ := split_at_first h
    conv_lhs => rw [hs, hB.lower_sep _ _ _ hc]
    rw [dropWhile_ne_append _ fun hm => hn (hB.lower_mem _ _ hc hm)]
    rfl
  · rw [dropWhile_ne_nil h, dropWhile_ne_nil fun hm => h (hB.lower_mem _ _ hc hm)]
    exact hB.lower_nil.symm

theorem Tidy.tokens_head {n : JSString} (hT : Tidy n) :
    (tokens n).headD [] = n.takeWhile fun c => c != ' ' := by
  rcases hT.tokens_cases with ⟨h0, hn⟩ | ⟨tok, htoks, hn⟩ | ⟨tok, u, us, htoks, hn, _⟩
  · rw [h0, hn]
    rfl
  · have htok : tok ∈ tokens n := by rw [htoks]; exact List.mem_singleton_self _
    rw [htoks]
    conv_rhs => rw [hn]
    exact (takeWhile_ne_self (not_mem_of_mem_split (List.mem_filter.1 htok).1)).symm
  · have htok : tok ∈ tokens n := by rw [htoks]; exact List.mem_cons_self _ _
    rw [htoks]
    conv_rhs => rw [hn]
    exact (takeWhile_ne_append _ (not_mem_of_mem_split (List.mem_filter.1 htok).1)).symm

theorem Tidy.tokens_rest {n : JSString} (hT : Tidy n) :
    joinSpace ((tokens n).drop 1) = (n.dropWhile fun c => c != ' ').drop 1 := by
  rcases hT.tokens_cases with ⟨h0, hn⟩ | ⟨tok, htoks, hn⟩ | ⟨tok, u, us, htoks, hn, _⟩
  · rw [h0, hn]
    rfl
  · have htok : tok ∈ tokens n := by rw [htoks]; exact List.mem_singleton_self _
    rw [htoks]
    conv_rhs => rw [hn, dropWhile_ne_nil (not_mem_of_mem_split (List.mem_filter.1 htok).1)]
    rfl
  · have htok : tok ∈ tokens n := by rw [htoks]; exact List.mem_cons_self _ _
    rw [htoks]
    conv_rhs => rw [hn, dropWhile_ne_append _ (not_mem_of_mem_split (List.mem_filter.1 htok).1)]
    rfl

theorem Tidy.two_tokens_iff {n : JSString} (hT : Tidy n) :
    2 ≤ (tokens n).length ↔ ' ' ∈ n := by
  rcases hT.tokens_cases with ⟨h0, hn⟩ | ⟨tok, htoks, hn⟩ | ⟨tok, u, us, htoks, hn, _⟩
  · rw [h0]
    conv_rhs => rw [hn]
    simp
  · have htok : tok ∈ tokens n := by rw [htoks]; exact List.mem_singleton_self _
    rw [htoks]
    conv_rhs => rw [hn]
    have := not_mem_of_mem_split (List.mem_filter.1 htok).1
    simp [this]
  · rw [htoks]
    conv_rhs => rw [hn]
    simp

/-- A piece of a tidy string, trimmed, is tidy. -/
theorem Tidy.trim_piece {n x : JSString} (hT : Tidy n) (hx : x <:+: n) : Tidy (trim x) where
  spaceOnly := hT.spaceOnly.restrict fun _ hc => hx.subset (mem_trim hc)
  chain := List.Chain'.infix hT.chain ((trim_within x).trans hx)
  head _ _ h := not_white_ne_space (trim_head_not_white h)
  last _ _ h := not_white_ne_space (trim_last_not_white h)

theorem initialToken_comma {n : JSString} (h : ',' ∈ n) :
    initialToken n = (tokens (trim (beforeComma (afterComma n)))).headD [] := by
  unfold initialToken
  rw [if_pos h, getD_map_trim, split_getD_one _ _ h]
  rfl

theorem initialToken_plain {n : JSString} (h : ',' ∉ n) :
    initialToken n = (tokens n).headD [] := by
  unfold initialToken
  rw [if_neg h]

/-- The lower-cased fields of the key of a parsed name are the fields read off its
lower-cased cleaned name, when the initial token keeps its initial. -/
theorem profKey_lowered {B : Builtins} (hB : SeparatorCasing B) (a : JSString) (p : ParsedProf)
    (hk : KeepsInitial B (initialToken (cleanProfessorDisplayName a)))
    (hp : parseProfessorName B a = some p) :
    profKey B p =
      (loweredFields (B.toLowerCase (cleanProfessorDisplayName a))).1 ++
        '|' :: ((loweredFields (B.toLowerCase (cleanProfessorDisplayName a))).2 ++
          '|' :: B.toLowerCase (cleanProfessorDisplayName a)) := by
  have hT := tidy_clean a
  have hne : (cleanProfessorDisplayName a).isEmpty = false := by
    cases hn : cleanProfessorDisplayName a with
    | nil =>
      unfold parseProfessorName at hp
      rw [hn] at hp
      exact Option.noConfusion hp
    | cons _ _ => rfl
  have hsp : (' ' : Char) = ' ' ∨ (' ' : Char) = ',' ∨ (' ' : Char) = '|' := Or.inl rfl
  have hcm : (',' : Char) = ' ' ∨ (',' : Char) = ',' ∨ (',' : Char) = '|' := Or.inr (Or.inl rfl)
  have hrest : B.toLowerCase (trim (joinSpace ((tokens (cleanProfessorDisplayName a)).drop 1))) =
      trim (((B.toLowerCase (cleanProfessorDisplayName a)).dropWhile
        fun c => c != ' ').drop 1) := by
    rw [hT.tokens_rest, hB.lower_trim, hB.after_lower _ hsp]
  have hhead : B.toLowerCase ((tokens (cleanProfessorDisplayName a)).headD []) =
      (B.toLowerCase (cleanProfessorDisplayName a)).takeWhile fun c => c != ' ' := by
    rw [hT.tokens_head, hB.takeWhile_lower _ hsp]
  unfold parseProfessorName at hp
  simp only [hne, Bool.false_eq_true, if_false] at hp
  unfold loweredFields
  split_ifs at hp with h1 h2 h3 h4
  · -- a placeholder
    obtain rfl := Option.some.inj hp
    rw [profKey_fields hB _ hT, if_pos h1]
    simp only [Option.getD_none, trim_nil, hB.lower_nil]
  · -- a name with a comma
    obtain rfl := Option.some.inj hp
    rw [profKey_fields hB _ hT, if_neg h1, if_pos ((hB.mem_iff _ hcm).2 h2)]
    simp only [Option.getD_some]
    rw [initialToken_comma h2] at hk
    have hpiece : Tidy (trim (beforeComma (afterComma (cleanProfessorDisplayName a)))) :=
      hT.trim_piece (((List.takeWhile_prefix _).isInfix).trans
        (((List.drop_suffix _ _).isInfix).trans (List.dropWhile_suffix _).isInfix))
    have hseg : ((split ',' (cleanProfessorDisplayName a)).map trim).getD 1 [] =
        trim (beforeComma (afterComma (cleanProfessorDisplayName a))) := by
      rw [getD_map_trim, split_getD_one _ _ h2]
      rfl
    have hF : B.toLowerCase (trim (B.toUpperCase (((tokens (((split ','
          (cleanProfessorDisplayName a)).map trim).getD 1 [])).headD []).take 1))) =
        ((trim (beforeComma (afterComma (B.toLowerCase
          (cleanProfessorDisplayName a))))).takeWhile fun c => c != ' ').take 1 := by
      rw [hseg, hk.first, hpiece.tokens_head, ← hB.takeWhile_lower _ hsp, hB.lower_trim]
      unfold beforeComma afterComma
      rw [← hB.takeWhile_lower _ hcm, ← hB.after_lower _ hcm]
    have hL : B.toLowerCase (trim (((split ',' (cleanProfessorDisplayName a)).map trim).getD 0
        [])) = trim (beforeComma (B.toLowerCase (cleanProfessorDisplayName a))) := by
      rw [getD_map_trim, split_getD_zero, trim_trim, hB.lower_trim]
      unfold beforeComma
      rw [← hB.takeWhile_lower _ hcm]
    rw [hF, hL]
  · -- an initial, alone or followed by the surname
    obtain rfl := Option.some.inj hp
    rw [profKey_fields hB _ hT, if_neg h1, if_neg fun h => h2 ((hB.mem_iff _ hcm).1 h)]
    simp only [Option.getD_some]
    rw [initialToken_plain h2] at hk
    have hi : isInitial ((tokens (cleanProfessorDisplayName a)).headD []) = true := h3
    have hi2 : isInitial ((B.toLowerCase (cleanProfessorDisplayName a)).takeWhile
        fun c => c != ' ') = true := by
      rw [← hhead, hk.test, hi]
    simp only [hi2, if_true]
    rw [hk.letter hi, hhead, hrest]
  · -- a first name followed by the surname
    obtain rfl := Option.some.inj hp
    rw [profKey_fields hB _ hT, if_neg h1, if_neg fun h => h2 ((hB.mem_iff _ hcm).1 h)]
    simp only [Option.getD_some]
    rw [initialToken_plain h2] at hk
    have hi : isInitial ((tokens (cleanProfessorDisplayName a)).headD []) = false :=
      Bool.eq_false_iff.2 h3
    have hi2 : isInitial ((B.toLowerCase (cleanProfessorDisplayName a)).takeWhile
        fun c => c != ' ') = false := by
      rw [← hhead, hk.test, hi]
    have h5 : ' ' ∈ B.toLowerCase (cleanProfessorDisplayName a) :=
      (hB.mem_iff _ hsp).2 (hT.two_tokens_iff.1 h4)
    simp only [hi2, Bool.false_eq_true, if_false, h5, if_true]
    rw [hk.first, hhead, hrest]
  · -- a single token
    obtain rfl := Option.some.inj hp
    rw [profKey_fields hB _ hT, if_neg h1, if_neg fun h => h2 ((hB.mem_iff _ hcm).1 h)]
    simp only [Option.getD_some]
    rw [initialToken_plain h2] at hk
    have hi : isInitial ((tokens (cleanProfessorDisplayName a)).headD []) = false :=
      Bool.eq_false_iff.2 h3
    have hi2 : isInitial ((B.toLowerCase (cleanProfessorDisplayName a)).takeWhile
        fun c => c != ' ') = false := by
      rw [← hhead, hk.test, hi]
    have h5 : ' ' ∉ B.toLowerCase (cleanProfessorDisplayName a) :=
      fun h => h4 (hT.two_tokens_iff.2 ((hB.mem_iff _ hsp).1 h))
    simp only [hi2, Bool.false_eq_true, if_false, h5]
    rw [trim_nil, hB.lower_nil, hB.lower_trim]

theorem parse_eq_none_iff (B : Builtins) (a : JSString) :
    parseProfessorName B a = none ↔ cleanProfessorDisplayName a = [] := by
  unfold parseProfessorName
  cases hn : cleanProfessorDisplayName a with
  | nil => simp
  | cons c r =>
    simp only [List.isEmpty_cons, Bool.false_eq_true, if_false]
    constructor
    · intro h
      split_ifs at h
    · intro h
      cases h

/-- C1 (as stated, refuted): the cleaned names `İlker Smith` and `i̇lker smith` are
equal after lower-casing (U+0130 lower-cases to `i` followed by U+0307), both parse to
identities, and their keys differ: the first initial of the one is U+0130, which
lower-cases to two characters, that of the other is `I`. -/
theorem key_differs_after_special_casing :
    latinEngine.toLowerCase (cleanProfessorDisplayName dottedCapitalName) =
        latinEngine.toLowerCase (cleanProfessorDisplayName dottedLowerName) ∧
      (parseProfessorName latinEngine dottedCapitalName).isSome = true ∧
      (parseProfessorName latinEngine dottedLowerName).isSome = true ∧
      (parseProfessorName latinEngine dottedCapitalName).map (profKey latinEngine) ≠
        (parseProfessorName latinEngine dottedLowerName).map (profKey latinEngine) := by
  decide

theorem latinEngine_lower_eq_nil (s : JSString) (h : latinEngine.toLowerCase s = []) :
    s = [] := by
  cases s with
  | nil => rfl
  | cons c r =>
    have h1 : latinLowerChar c ++ r.flatMap latinLowerChar = [] := h
    have h2 : latinLowerChar c ≠ [] := by
      unfold latinLowerChar
      split_ifs <;> exact List.cons_ne_nil _ _
    exact absurd (List.append_eq_nil.1 h1).1 h2

/-- C1 (amended): let the engine's case mappings leave space, comma and `|` alone
(`SeparatorCasing`) and lower-case only the empty string to the empty string.  Let `a`
and `b` be raw strings whose cleaned forms are equal after lower-casing, and let the
initial token of each cleaned form (the first token of the part after the first comma,
or else the first token of the name) keep its initial (`KeepsInitial`): its first
character lies in the Basic Multilingual Plane, lower-casing the token does not change
whether it is a single ASCII letter with at most one period, and its first character
(its letter, for such a token) upper-cased, trimmed and lower-cased is the first
character (the letter) of the lower-cased token.  Then `parseProfessorName(a)` and
`parseProfessorName(b)` are both `null` or both identities, and in the latter case
their keys are equal.  The names need not be ASCII. -/
theorem parse_key_case_insensitive (B : Builtins) (hB : SeparatorCasing B)
    (hne : ∀ s, B.toLowerCase s = [] → s = []) (a b : JSString)
    (ha : KeepsInitial B (initialToken (cleanProfessorDisplayName a)))
    (hb : KeepsInitial B (initialToken (cleanProfessorDisplayName b)))
    (h : B.toLowerCase (cleanProfessorDisplayName a) =
      B.toLowerCase (cleanProfessorDisplayName b)) :
    (parseProfessorName B a = none ∧ parseProfessorName B b = none) ∨
      ∃ pa pb, parseProfessorName B a = some pa ∧ parseProfessorName B b = some pb ∧
        profKey B pa = profKey B pb := by
  cases hpa : parseProfessorName B a with
  | none =>
    have hn := (parse_eq_none_iff B a).1 hpa
    rw [hn, hB.lower_nil] at h
    exact Or.inl ⟨rfl, (parse_eq_none_iff B b).2 (hne _ h.symm)⟩
  | some pa =>
    cases hpb : parseProfessorName B b with
    | none =>
      have hn := (parse_eq_none_iff B b).1 hpb
      rw [hn, hB.lower_nil] at h
      rw [(parse_eq_none_iff B a).2 (hne _ h)] at hpa
      exact Option.noConfusion hpa
    | some pb =>
      refine Or.inr ⟨pa, pb, rfl, rfl, ?_⟩
      rw [profKey_lowered hB a pa ha hpa, profKey_lowered hB b pb hb hpb, h]

theorem parse_key_case_insensitive_witness :
    latinEngine.toLowerCase (cleanProfessorDisplayName "José  GARCíA".toList) =
        latinEngine.toLowerCase (cleanProfessorDisplayName " JOSé García".toList) ∧
      ((parseProfessorName latinEngine "José  GARCíA".toList = none ∧
          parseProfessorName latinEngine " JOSé García".toList = none) ∨
        ∃ pa pb, parseProfessorName latinEngine "José  GARCíA".toList = some pa ∧
          parseProfessorName latinEngine " JOSé García".toList = some pb ∧
          profKey latinEngine pa = profKey latinEngine pb) :=
  ⟨by decide,
    parse_key_case_insensitive latinEngine latinEngine_separatorCasing
      latinEngine_lower_eq_nil "José  GARCíA".toList " JOSé García".toList
      ⟨by decide, by decide, by decide, by decide⟩
      ⟨by decide, by decide, by decide, by decide⟩
      (by decide)⟩

end UCDRmp
